import Mathlib

/-! # GitLite: object codec, object store, reference resolver and tree walker

A shallow embedding of `src/git_objects.cpp` and `src/repo.cpp`.

* A `std::string` is a list of bytes (`Fin 256`); `std::string::npos` is the `none` of an
  `Option Nat`.
* A C++ exception is the `error` of an `Except GitError`.
* A `while` loop or a recursion that the source does not bound runs on a fuel counter and
  returns `none` when the counter is used up; `none` never stands for a result of the program.
* SHA-1 and zlib are taken as parameters (`Codec`).
-/

namespace GitLite

/-! ## Bytes and `std::string` primitives -/

/-- One `char` of a `std::string`, seen as an unsigned byte. -/
abbrev Byte := Fin 256

/-- The byte of a number, as a conversion to `unsigned char` gives it. -/
def byteOfNat (n : Nat) : Byte := ⟨n % 256, Nat.mod_lt _ (by decide)⟩

/-- ASCII space. -/
def SP : Byte := 32
/-- ASCII line feed. -/
def LF : Byte := 10
/-- The NUL byte. -/
def NUL : Byte := 0

/-- Index of the first occurrence of `c` in `s`, counted from the start of `s`. -/
def findFrom (c : Byte) : List Byte → Option Nat
  | [] => none
  | x :: xs => if x = c then some 0 else (findFrom c xs).map (· + 1)

/-- The call `s.find(c, pos)`: index of the first `c` at or after `pos`; `none` is `npos`. -/
def find (s : List Byte) (c : Byte) (pos : Nat) : Option Nat :=
  (findFrom c (s.drop pos)).map (· + pos)

/-- The call `s.substr(pos, n)` for `pos ≤ s.size()`: at most `n` bytes from `pos` on. -/
def substr (s : List Byte) (pos n : Nat) : List Byte := (s.drop pos).take n

/-- The exceptions the modelled code throws. -/
inductive GitError
  | invalid_argument      -- std::stoi / std::stoul: no conversion
  | out_of_range          -- std::stoi / std::stoul: value does not fit
  | noSpaceAfterMode      -- "No space found after mode at position ..."
  | emptyMode             -- "Empty mode string at position ..."
  | nonDigitMode          -- "Mode string contains non-digit characters"
  | noNullAfterPath       -- "No null terminator found after path"
  | notEnoughDataForSha   -- "Not enough data for SHA at position ..."
  | failedToOpenObject    -- "Failed to open object"
  | inflateError          -- "zlib inflate error" / "Decompression did not reach the end"
  | malformedHeader       -- "Malformed object header"
  | sizeMismatch          -- "Size mismatch"
  | noHEAD                -- "No HEAD"
  | notATree              -- "Not a tree object"
  | notABlob              -- "Not a blob object"
  | notACommit            -- "Not a commit object"
  | failedToWriteFile     -- "Failed to write file: ..."
  | filesystem_error      -- fs::create_directories on a path that is no directory
  | usage                 -- the usage errors of the commands
  | gitdirNotADirectory   -- ".git exists but is not a directory"
  | noTreeInCommit        -- "No tree in commit"
  deriving DecidableEq, Repr

deriving instance DecidableEq for Except

/-! ## Number conversions of the C++ library -/

/-- The C function `isdigit` on a byte. -/
def isdigit (b : Byte) : Bool := decide (48 ≤ b.val ∧ b.val ≤ 57)

/-- The C function `isspace` on a byte (space, `\t`, `\n`, `\v`, `\f`, `\r`). -/
def isspace (b : Byte) : Bool := decide (b.val = 32 ∨ (9 ≤ b.val ∧ b.val ≤ 13))

/-- Value of `b` as a digit in `base` (digits, then letters of either case), if it is one. -/
def digitVal (base : Nat) (b : Byte) : Option Nat :=
  let v : Nat :=
    if 48 ≤ b.val ∧ b.val ≤ 57 then b.val - 48
    else if 97 ≤ b.val ∧ b.val ≤ 122 then b.val - 87
    else if 65 ≤ b.val ∧ b.val ≤ 90 then b.val - 55
    else base
  if v < base then some v else none

/-- Reads the longest run of digits of `base` at the head of `s`, accumulating into `acc`;
    returns the value and how many digits were read. -/
def readDigits (base : Nat) : List Byte → Nat → Nat → Nat × Nat
  | [], acc, cnt => (acc, cnt)
  | b :: bs, acc, cnt =>
    match digitVal base b with
    | some d => readDigits base bs (acc * base + d) (cnt + 1)
    | none => (acc, cnt)

/-- Drops the white space `strtol` skips. -/
def skipSpace : List Byte → List Byte
  | [] => []
  | b :: bs => if isspace b then skipSpace bs else b :: bs

/-- The scan shared by `strtol` and `strtoul`: white space, an optional sign, for base 16 an
    optional `0x`/`0X` that a hex digit follows, then digits. Returns the sign and the
    magnitude, or `none` when no digit was read. -/
def strtoCore (base : Nat) (s : List Byte) : Option (Bool × Nat) :=
  let s1 := skipSpace s
  let (neg, s2) : Bool × List Byte :=
    match s1 with
    | b :: bs => if b = 45 then (true, bs) else if b = 43 then (false, bs) else (false, s1)
    | [] => (false, s1)
  let s3 : List Byte :=
    match s2 with
    | z :: x :: h :: rest =>
      if base = 16 ∧ z = 48 ∧ (x = 120 ∨ x = 88) ∧ (digitVal 16 h).isSome then h :: rest
      else s2
    | _ => s2
  let (v, cnt) := readDigits base s3 0 0
  if cnt = 0 then none else some (neg, v)

/-- Largest `int` (32 bits). -/
def INT_MAX : Int := 2147483647
/-- Smallest `int` (32 bits). -/
def INT_MIN : Int := -2147483648
/-- Largest `unsigned long` (64 bits, LP64). -/
def ULONG_MAX : Nat := 18446744073709551615

/-- The call `std::stoi(s, nullptr, base)`: throws `invalid_argument` when nothing converts
    and `out_of_range` when the value is no `int`. -/
def stoi (base : Nat) (s : List Byte) : Except GitError Int :=
  match strtoCore base s with
  | none => .error .invalid_argument
  | some (neg, v) =>
    let r : Int := if neg then -(v : Int) else (v : Int)
    if r < INT_MIN ∨ INT_MAX < r then .error .out_of_range else .ok r

/-- The call `std::stoul(s, nullptr, base)`: as `stoi`, in `unsigned long`; a leading minus
    negates modulo `2^64`. -/
def stoul (base : Nat) (s : List Byte) : Except GitError Nat :=
  match strtoCore base s with
  | none => .error .invalid_argument
  | some (neg, v) =>
    if ULONG_MAX < v then .error .out_of_range
    else .ok (if neg then (ULONG_MAX + 1 - v) % (ULONG_MAX + 1) else v)

/-- The ASCII digit of `d < 10` (and of `d < 8`, for octal). -/
def digitChar (d : Nat) : Byte := byteOfNat (48 + d)

/-- Digits of `n` in `base ≤ 10`, most significant first, pushed in front of `acc`. -/
def digitsAux (base : Nat) : Nat → Nat → List Byte → List Byte
  | 0, _, acc => acc
  | fuel + 1, n, acc =>
    if n < base then digitChar n :: acc
    else digitsAux base fuel (n / base) (digitChar (n % base) :: acc)

/-- What `stream << std::oct << n` prints for an unsigned `n`: its octal digits, no leading
    zero, `0` for zero. -/
def toOctal (n : Nat) : List Byte := digitsAux 8 (n + 1) n []

/-- The call `std::to_string(n)` for an unsigned `n`. -/
def to_string (n : Nat) : List Byte := digitsAux 10 (n + 1) n []

/-- The call `std::to_string(n)` for a signed `n` (the `time_t` of `commit-tree`). -/
def to_string_int (n : Int) : List Byte :=
  if n < 0 then 45 :: to_string n.natAbs else to_string n.natAbs

/-- A lowercase hexadecimal digit, as `std::hex` prints it. -/
def hexChar (d : Nat) : Byte := if d < 10 then byteOfNat (48 + d) else byteOfNat (87 + d)

/-- What `sha_ss << std::hex << std::setfill('0') << std::setw(2) << byte` prints, for each
    byte of `bs` in turn. -/
def toHex : List Byte → List Byte
  | [] => []
  | b :: bs => hexChar (b.val / 16) :: hexChar (b.val % 16) :: toHex bs

/-- The conversion `static_cast<uint8_t>` of an `int`. -/
def toUInt8 (v : Int) : Byte := byteOfNat (v % 256).toNat

/-! ## Object codec (`git_objects.cpp`) -/

/-- The struct `GitTreeLeaf`; `mode` is a `uint32_t`, `sha` the key in hexadecimal. -/
structure GitTreeLeaf where
  mode : Nat
  path : List Byte
  sha : List Byte
  deriving DecidableEq, Repr

/-- The class `GitTree`. -/
structure GitTree where
  items : List GitTreeLeaf
  deriving DecidableEq, Repr

/-- The class `GitCommit`: the key-value list with message, in insertion order. -/
structure GitCommit where
  kvlm : List (List Byte × List Byte)
  deriving DecidableEq, Repr

/-- The inner loop of `GitTree::serialize`: the hexadecimal key, two characters at a time
    through `std::stoi(_, nullptr, 16)`, into raw bytes. -/
def shaToBinary : List Byte → Except GitError (List Byte)
  | [] => .ok []
  | [a] =>
    match stoi 16 [a] with
    | .error e => .error e
    | .ok v => .ok [toUInt8 v]
  | a :: b :: rest =>
    match stoi 16 [a, b] with
    | .error e => .error e
    | .ok v =>
      match shaToBinary rest with
      | .error e => .error e
      | .ok r => .ok (toUInt8 v :: r)

/-- The body of the loop of `GitTree::serialize` for the leaves `items`, appended to `ret`. -/
def GitTree.serializeLoop : List GitTreeLeaf → List Byte → Except GitError (List Byte)
  | [], ret => .ok ret
  | leaf :: rest, ret =>
    match shaToBinary leaf.sha with
    | .error e => .error e
    | .ok raw =>
      GitTree.serializeLoop rest (ret ++ (toOctal leaf.mode ++ [SP] ++ leaf.path) ++ [NUL] ++ raw)

/-- The method `GitTree::serialize`. -/
def GitTree.serialize (t : GitTree) : Except GitError (List Byte) :=
  GitTree.serializeLoop t.items []

/-- The `while (pos < data.size())` loop of `GitTree::parse`, from position `pos` with the
    leaves `items` read so far; `none` when `fuel` iterations did not reach the end. -/
def GitTree.parseLoop : Nat → List Byte → Nat → List GitTreeLeaf →
    Option (Except GitError GitTree)
  | 0, _, _, _ => none
  | fuel + 1, data, pos, items =>
    if pos < data.length then
      match find data SP pos with
      | none => some (.error .noSpaceAfterMode)
      | some space_pos =>
        let mode_str := substr data pos (space_pos - pos)
        if mode_str = [] then some (.error .emptyMode)
        else if !mode_str.all isdigit then some (.error .nonDigitMode)
        else
          match stoul 8 mode_str with
          | .error e => some (.error e)
          | .ok v =>
            let mode := v % 4294967296
            match find data NUL (space_pos + 1) with
            | none => some (.error .noNullAfterPath)
            | some null_pos =>
              let path := substr data (space_pos + 1) (null_pos - space_pos - 1)
              let pos1 := null_pos + 1
              if pos1 + 20 > data.length then some (.error .notEnoughDataForSha)
              else
                let sha := toHex (substr data pos1 20)
                GitTree.parseLoop fuel data (pos1 + 20) (items ++ [⟨mode, path, sha⟩])
    else some (.ok ⟨items⟩)

/-- The function `GitTree::parse`. Every iteration moves `pos` forward by more than 20, so
    `data.size() + 1` iterations always reach the end (`GitTree.parse_isSome`). -/
def GitTree.parse (data : List Byte) : Option (Except GitError GitTree) :=
  GitTree.parseLoop (data.length + 1) data 0 []

/-- The method `GitCommit::serialize`. -/
def GitCommit.serializeLoop : List (List Byte × List Byte) → List Byte → List Byte
  | [], ret => ret
  | kv :: rest, ret =>
    if kv.1 = [] then GitCommit.serializeLoop rest (ret ++ ([LF] ++ kv.2))
    else GitCommit.serializeLoop rest (ret ++ (kv.1 ++ [SP] ++ kv.2 ++ [LF]))

/-- The method `GitCommit::serialize`. -/
def GitCommit.serialize (c : GitCommit) : List Byte :=
  GitCommit.serializeLoop c.kvlm []

/-- The `while (pos < data.size())` loop of `GitCommit::parse`; returns the position and the
    headers at the exit of the loop, `none` when `fuel` iterations did not leave it.

    When no `\n` is left, `nl_pos` is `npos`: `nl_pos == pos` is false (`pos < size`),
    `substr(pos, npos - pos)` is the rest of the data, and `pos = nl_pos + 1` wraps to 0. -/
def GitCommit.parseLoop : Nat → List Byte → Nat → List (List Byte × List Byte) →
    Option (Nat × List (List Byte × List Byte))
  | 0, _, _, _ => none
  | fuel + 1, data, pos, kvlm =>
    if pos < data.length then
      match find data LF pos with
      | some nl_pos =>
        if nl_pos = pos then some (nl_pos + 1, kvlm)
        else
          let line := substr data pos (nl_pos - pos)
          match findFrom SP line with
          | none => GitCommit.parseLoop fuel data (nl_pos + 1) kvlm
          | some space_pos =>
            GitCommit.parseLoop fuel data (nl_pos + 1)
              (kvlm ++ [(line.take space_pos, line.drop (space_pos + 1))])
      | none =>
        let line := data.drop pos
        match findFrom SP line with
        | none => GitCommit.parseLoop fuel data 0 kvlm
        | some space_pos =>
          GitCommit.parseLoop fuel data 0
            (kvlm ++ [(line.take space_pos, line.drop (space_pos + 1))])
    else some (pos, kvlm)

/-- The function `GitCommit::parse` run for at most `fuel` iterations of its loop: the
    headers, then the message `data.substr(pos)` under the empty key. -/
def GitCommit.parse (fuel : Nat) (data : List Byte) : Option GitCommit :=
  match GitCommit.parseLoop fuel data 0 [] with
  | none => none
  | some (pos, kvlm) => some ⟨kvlm ++ [([], data.drop pos)]⟩

/-! ## Object store (`repo.cpp`) -/

/-- SHA-1 and zlib, which the source calls and this development does not look into:
    `sha1` is `SHA1` (20 raw bytes), `deflate` the `deflateInit`/`deflate(Z_FINISH)` loop,
    `inflate` the `inflateInit`/`inflate` loop (`none` when it throws), and inflating what was
    deflated gives it back. -/
structure Codec where
  sha1 : List Byte → List Byte
  sha1_length : ∀ x, (sha1 x).length = 20
  deflate : List Byte → List Byte
  inflate : List Byte → Option (List Byte)
  inflate_deflate : ∀ x, inflate (deflate x) = some x

/-- The files under `gitdir/objects`: each write, newest first, as the pair of the directory
    name `sha.substr(0, 2)` and the file name `sha.substr(2)`, with the bytes written. -/
abbrev ObjectStore := List ((List Byte × List Byte) × List Byte)

/-- Opening and reading the file at a path of the store: the newest write to it. -/
def ObjectStore.read : ObjectStore → List Byte × List Byte → Option (List Byte)
  | [], _ => none
  | (p, bytes) :: rest, path => if p = path then some bytes else ObjectStore.read rest path

/-- The path `objects / sha.substr(0, 2) / sha.substr(2)` of a key of at least two
    characters. -/
def objectPath (sha : List Byte) : List Byte × List Byte := (substr sha 0 2, sha.drop 2)

/-- The tag `blob`. -/
def fmtBlob : List Byte := [98, 108, 111, 98]
/-- The tag `tree`. -/
def fmtTree : List Byte := [116, 114, 101, 101]
/-- The tag `commit`. -/
def fmtCommit : List Byte := [99, 111, 109, 109, 105, 116]

/-- A `GitObject`: a blob (whose `fmt` the function `object_hash` overwrites), a tree or a
    commit. -/
inductive GitObject
  | blob (fmt : List Byte) (blobdata : List Byte)
  | tree (t : GitTree)
  | commit (c : GitCommit)
  deriving DecidableEq, Repr

/-- The field `fmt` of a `GitObject`. -/
def GitObject.fmt : GitObject → List Byte
  | .blob f _ => f
  | .tree _ => fmtTree
  | .commit _ => fmtCommit

/-- The virtual method `serialize`. -/
def GitObject.serialize : GitObject → Except GitError (List Byte)
  | .blob _ d => .ok d
  | .tree t => t.serialize
  | .commit c => .ok c.serialize

/-- The frame `fmt SP to_string(len(data)) NUL data` that `object_write` hashes and
    compresses. -/
def objectFrame (fmt data : List Byte) : List Byte :=
  fmt ++ [SP] ++ to_string data.length ++ [NUL] ++ data

/-- The function `object_write(obj, repo)`: returns the key, the hexadecimal of the SHA-1 of
    the frame, and the store, to which the deflated frame has been written when `repo` is not
    null (`hasRepo`). -/
def object_write (cd : Codec) (obj : GitObject) (hasRepo : Bool) (store : ObjectStore) :
    Except GitError (List Byte × ObjectStore) :=
  match obj.serialize with
  | .error e => .error e
  | .ok data =>
    let result := objectFrame obj.fmt data
    let sha := toHex (cd.sha1 result)
    if hasRepo then .ok (sha, (objectPath sha, cd.deflate result) :: store)
    else .ok (sha, store)

/-- The function `object_hash(fd, fmt, repo)`, `data` being what the stream `fd` holds. -/
def object_hash (cd : Codec) (data fmt : List Byte) (hasRepo : Bool) (store : ObjectStore) :
    Except GitError (List Byte × ObjectStore) :=
  object_write cd (.blob fmt data) hasRepo store

/-- The conversion of an `int` to `size_t` (64 bits). -/
def toSizeT (v : Int) : Nat := (v % 18446744073709551616).toNat

/-- The lines under `// Parse header` of `read_object_fmt_and_data`: splits the inflated
    frame into `fmt` and `data` and compares `data.length()` with `std::stoi` of the size
    field. -/
def splitFrame (decompressed : List Byte) : Except GitError (List Byte × List Byte) :=
  match find decompressed SP 0 with
  | none => .error .malformedHeader
  | some space_pos =>
    match find decompressed NUL (space_pos + 1) with
    | none => .error .malformedHeader
    | some null_pos =>
      let fmt := substr decompressed 0 space_pos
      match stoi 10 (substr decompressed (space_pos + 1) (null_pos - space_pos - 1)) with
      | .error e => .error e
      | .ok v =>
        let size := toSizeT v
        let data := decompressed.drop (null_pos + 1)
        if data.length ≠ size then .error .sizeMismatch else .ok (fmt, data)

/-- The function `read_object_fmt_and_data(repo, sha)`. The call `sha.substr(2)` throws
    `out_of_range` on a key shorter than two characters. -/
def read_object_fmt_and_data (cd : Codec) (store : ObjectStore) (sha : List Byte) :
    Except GitError (List Byte × List Byte) :=
  if sha.length < 2 then .error .out_of_range
  else
    match store.read (objectPath sha) with
    | none => .error .failedToOpenObject
    | some compressed =>
      match cd.inflate compressed with
      | none => .error .inflateError
      | some decompressed => splitFrame decompressed

/-- The function `object_read`. -/
def object_read (cd : Codec) (store : ObjectStore) (sha : List Byte) :
    Except GitError (List Byte) :=
  match read_object_fmt_and_data cd store sha with
  | .error e => .error e
  | .ok (_, data) => .ok data

/-! ## Reference resolver -/

/-- What is found at a path under `gitdir`: nothing, a directory, a file, or a path whose
    status the system does not give (search permission denied on the way, too many symbolic
    links, a name that is too long): there `fs::exists` throws `filesystem_error`, and a
    stream does not open. -/
inductive FsEntry
  | absent
  | directory
  | file (content : List Byte)
  | statusError
  deriving DecidableEq, Repr

/-- The state of `gitdir`, as far as `object_find` looks at it: what `gitdir / name` is, for
    every `name`. -/
abbrev GitDir := List Byte → FsEntry

/-- The name `HEAD`. -/
def nameHEAD : List Byte := [72, 69, 65, 68]

/-- The text `ref: `, with its space. -/
def refMark : List Byte := [114, 101, 102, 58, 32]

/-- The call `std::getline(file, line)` on a stream that holds `content`: the bytes before
    the first LF. -/
def getline (content : List Byte) : List Byte := content.takeWhile (· ≠ LF)

/-- What `std::getline` leaves in the string when the stream is a `std::ifstream` on `e`:
    the first line of a file; nothing for a path that is absent or a directory, where the
    read fails. -/
def firstLine : FsEntry → List Byte
  | .file content => getline content
  | _ => []

/-- The limit of Linux on the bytes of one component of a path. -/
def NAME_MAX : Nat := 255

/-- The limit of Linux on the bytes of a path, its closing NUL counted. -/
def PATH_MAX : Nat := 4096

/-- The byte `/`. -/
def slash : Byte := 47

/-- Whether the walk of the system along a path under `gitdir` fails before its end:
    `walked` is the part of the path gone through, `run` the number of bytes of the
    component being read, the last argument what is left of the path. A component of more
    than `NAME_MAX` bytes fails when the walk comes to it (`ENAMETOOLONG`); the walk goes
    on behind a `/` when what it has gone through is a directory, and ends there without
    failure when it is a file or nothing (`ENOTDIR`, `ENOENT`). -/
def statusFails (gd : GitDir) : List Byte → Nat → List Byte → Bool
  | _, run, [] => decide (NAME_MAX < run)
  | walked, run, b :: rest =>
    if b = slash then
      if NAME_MAX < run then true
      else if run = 0 then statusFails gd (walked ++ [b]) 0 rest
      else
        match gd walked with
        | .directory => statusFails gd (walked ++ [b]) 0 rest
        | .statusError => true
        | _ => false
    else statusFails gd (walked ++ [b]) (run + 1) rest

/-- What `fs::status(gitdir / name)` finds, for a `name` that is any string: the system call
    takes the path as a C string, which ends in front of the first NUL; a path of `PATH_MAX`
    bytes or more, or with a component of more than `NAME_MAX` bytes on the way, has no
    status; any other path has the status the state gives. -/
def status (gd : GitDir) (name : List Byte) : FsEntry :=
  let path := name.takeWhile (· ≠ NUL)
  if PATH_MAX ≤ path.length ∨ statusFails gd [] 0 path = true then .statusError
  else gd path

/-- The function `object_find(repo, name, fmt, follow)`, for at most `fuel` nested calls;
    `none` when they are used up. `fs::exists` holds for files and for directories, and
    throws `filesystem_error` where the path has no status. A directory at `gitdir/HEAD`
    opens as a stream (as on Linux), so `No HEAD` is thrown only when nothing is there or
    the path cannot be reached. -/
def object_find (gd : GitDir) : Nat → List Byte → List Byte → Bool →
    Option (Except GitError (List Byte))
  | 0, _, _, _ => none
  | fuel + 1, name, fmt, follow =>
    if name = nameHEAD then
      match gd nameHEAD with
      | .absent => some (.error .noHEAD)
      | .statusError => some (.error .noHEAD)
      | e =>
        let line := firstLine e
        if line.take 5 = refMark then object_find gd fuel (line.drop 5) fmt follow
        else some (.ok line)
    else
      match status gd name with
      | .absent => some (.ok name)
      | .statusError => some (.error .filesystem_error)
      | e =>
        let sha := firstLine e
        if follow then object_find gd fuel sha fmt follow
        else some (.ok sha)

/-- The name `object_find` calls itself on, when it does. -/
def indirection (gd : GitDir) (name : List Byte) (follow : Bool) : Option (List Byte) :=
  if name = nameHEAD then
    match gd nameHEAD with
    | .absent => none
    | .statusError => none
    | e => if (firstLine e).take 5 = refMark then some ((firstLine e).drop 5) else none
  else
    match status gd name with
    | .absent => none
    | .statusError => none
    | e => if follow then some (firstLine e) else none

/-! ## Tree walker -/

/-- The children of a directory, in the order `fs::directory_iterator` yields them: a regular
    file with its content, a directory with its own children, or something else (a symbolic
    link to nowhere, a device, a socket). -/
inductive DirListing
  | nil
  | file (name : List Byte) (content : List Byte) (rest : DirListing)
  | dir (name : List Byte) (sub : DirListing) (rest : DirListing)
  | other (name : List Byte) (rest : DirListing)
  deriving DecidableEq, Repr

/-- The set `ignore` of `write_tree`. -/
def ignore : List (List Byte) :=
  [ [103, 105, 116, 108, 105, 116, 101],                                   -- gitlite
    [116, 101, 115, 116, 46, 115, 104],                                    -- test.sh
    [67, 77, 97, 107, 101, 76, 105, 115, 116, 115, 46, 116, 120, 116],     -- CMakeLists.txt
    [77, 97, 107, 101, 102, 105, 108, 101],                                -- Makefile
    [99, 109, 97, 107, 101, 95, 105, 110, 115, 116, 97, 108, 108, 46, 99, 109, 97, 107, 101],
    [67, 77, 97, 107, 101, 67, 97, 99, 104, 101, 46, 116, 120, 116],       -- CMakeCache.txt
    [99, 111, 109, 112, 105, 108, 101, 95, 99, 111, 109, 109, 97, 110, 100, 115, 46, 106,
      115, 111, 110],                                                      -- compile_commands.json
    [105, 110, 99, 108, 117, 100, 101],                                    -- include
    [115, 114, 99],                                                        -- src
    [67, 77, 97, 107, 101, 70, 105, 108, 101, 115],                        -- CMakeFiles
    [114, 101, 112, 111, 109, 105, 120, 45, 111, 117, 116, 112, 117, 116, 46, 120, 109, 108] ]

/-- The two `continue` tests of `write_tree`: the name starts with a dot or is in `ignore`. -/
def skipped (filename : List Byte) : Bool :=
  decide (filename.head? = some 46) || decide (filename ∈ ignore)

/-- The comparison `a < b` of two `std::string`: lexicographic on unsigned bytes. -/
def strLt : List Byte → List Byte → Bool
  | [], [] => false
  | [], _ :: _ => true
  | _ :: _, [] => false
  | a :: as, b :: bs => if a < b then true else if b < a then false else strLt as bs

/-- Puts `x` into a list sorted by path, before the first leaf whose path is greater. -/
def insertLeaf (x : GitTreeLeaf) : List GitTreeLeaf → List GitTreeLeaf
  | [] => [x]
  | y :: ys => if strLt x.path y.path then x :: y :: ys else y :: insertLeaf x ys

/-- The call `std::sort(entries.begin(), entries.end(), a.path < b.path)`, as an insertion
    sort: the order of leaves with equal paths, which `std::sort` leaves open, is the one of
    this sort. -/
def sortEntries : List GitTreeLeaf → List GitTreeLeaf
  | [] => []
  | x :: xs => insertLeaf x (sortEntries xs)

/-- The mode `040000` of a subtree. -/
def modeDir : Nat := 16384
/-- The mode `0100644` of a regular file. -/
def modeFile : Nat := 33188

/-- The end of `write_tree`: sorts the entries, builds the tree object (returned here) and
    writes it. -/
def write_tree_object (cd : Codec) (entries : List GitTreeLeaf) (store : ObjectStore) :
    Except GitError (GitTree × List Byte × ObjectStore) :=
  let tree_obj : GitTree := ⟨sortEntries entries⟩
  match object_write cd (.tree tree_obj) true store with
  | .error e => .error e
  | .ok (sha, store1) => .ok (tree_obj, sha, store1)

/-- The `for` loop of `write_tree` over the children of a directory: returns `entries` and
    the store after the blobs and subtrees have been written. A subdirectory is handled by
    the recursive call `write_tree(repo, entry.path())`, that is by this loop on its children
    followed by `write_tree_object`. -/
def write_tree_loop (cd : Codec) : DirListing → ObjectStore →
    Except GitError (List GitTreeLeaf × ObjectStore)
  | .nil, store => .ok ([], store)
  | .file filename content rest, store =>
    if skipped filename then write_tree_loop cd rest store
    else
      match object_hash cd content fmtBlob true store with
      | .error e => .error e
      | .ok (blob_sha, store1) =>
        match write_tree_loop cd rest store1 with
        | .error e => .error e
        | .ok (entries, store2) => .ok (⟨modeFile, filename, blob_sha⟩ :: entries, store2)
  | .dir filename sub rest, store =>
    if skipped filename then write_tree_loop cd rest store
    else
      match write_tree_loop cd sub store with
      | .error e => .error e
      | .ok (subEntries, store1) =>
        match write_tree_object cd subEntries store1 with
        | .error e => .error e
        | .ok (_, sub_tree_sha, store2) =>
          match write_tree_loop cd rest store2 with
          | .error e => .error e
          | .ok (entries, store3) => .ok (⟨modeDir, filename, sub_tree_sha⟩ :: entries, store3)
  | .other _ rest, store => write_tree_loop cd rest store

/-- The function `write_tree(repo, dir)`, `dir` given by its children: the key of the tree
    and the store afterwards. -/
def write_tree (cd : Codec) (dir : DirListing) (store : ObjectStore) :
    Except GitError (List Byte × ObjectStore) :=
  match write_tree_loop cd dir store with
  | .error e => .error e
  | .ok (entries, store1) =>
    match write_tree_object cd entries store1 with
    | .error e => .error e
    | .ok (_, sha, store2) => .ok (sha, store2)

/-- What a path in the working tree is: a regular file, a directory, or something else. -/
inductive FsNode
  | file (content : List Byte)
  | dir (children : DirListing)
  | other
  deriving DecidableEq, Repr

/-- The child `name` of a directory, if there is one. -/
def DirListing.child (name : List Byte) : DirListing → Option FsNode
  | .nil => none
  | .file n c rest => if n = name then some (.file c) else DirListing.child name rest
  | .dir n sub rest => if n = name then some (.dir sub) else DirListing.child name rest
  | .other n rest => if n = name then some .other else DirListing.child name rest

/-- The directory after `std::ofstream file(path)` and `file << blob_data` on the child
    `name`: the file is created or truncated; `none` when the stream does not open, the child
    being a directory. (A child that is neither file nor directory is taken not to open.) -/
def DirListing.writeFile (name content : List Byte) : DirListing → Option DirListing
  | .nil => some (.file name content .nil)
  | .file n c rest =>
    if n = name then some (.file n content rest)
    else (DirListing.writeFile name content rest).map (.file n c)
  | .dir n sub rest =>
    if n = name then none else (DirListing.writeFile name content rest).map (.dir n sub)
  | .other n rest =>
    if n = name then none else (DirListing.writeFile name content rest).map (.other n)

/-- The directory after its child directory `name` has been given the children `sub`; the
    child is created when it is not there. -/
def DirListing.setDir (name : List Byte) (sub : DirListing) : DirListing → DirListing
  | .nil => .dir name sub .nil
  | .file n c rest => .file n c (DirListing.setDir name sub rest)
  | .dir n s rest =>
    if n = name then .dir n sub rest else .dir n s (DirListing.setDir name sub rest)
  | .other n rest => .other n (DirListing.setDir name sub rest)

/-- The `for` loop of `read_tree` over the leaves of the parsed tree, in the directory with
    the children `base`; `recur` is the function `read_tree` itself, for the subtrees.
    The call `fs::create_directories(path)` throws when the path is there and is no
    directory. Names are taken as single path components. -/
def read_tree_loop (cd : Codec) (store : ObjectStore)
    (recur : List Byte → DirListing → Option (Except GitError DirListing)) :
    List GitTreeLeaf → DirListing → Option (Except GitError DirListing)
  | [], base => some (.ok base)
  | leaf :: rest, base =>
    if leaf.mode = modeDir then
      match base.child leaf.path with
      | some (.file _) => some (.error .filesystem_error)
      | some .other => some (.error .filesystem_error)
      | some (.dir sub) =>
        match recur leaf.sha sub with
        | none => none
        | some (.error e) => some (.error e)
        | some (.ok sub1) =>
          read_tree_loop cd store recur rest (DirListing.setDir leaf.path sub1 base)
      | none =>
        match recur leaf.sha .nil with
        | none => none
        | some (.error e) => some (.error e)
        | some (.ok sub1) =>
          read_tree_loop cd store recur rest (DirListing.setDir leaf.path sub1 base)
    else
      match read_object_fmt_and_data cd store leaf.sha with
      | .error e => some (.error e)
      | .ok (blob_fmt, blob_data) =>
        if blob_fmt ≠ fmtBlob then some (.error .notABlob)
        else
          match base.writeFile leaf.path blob_data with
          | none => some (.error .failedToWriteFile)
          | some base1 => read_tree_loop cd store recur rest base1

/-- The function `read_tree(repo, tree_sha, base_path)`, for at most `fuel` nested calls:
    the children of `base_path` afterwards; `none` when the calls are used up. -/
def read_tree (cd : Codec) (store : ObjectStore) : Nat → List Byte → DirListing →
    Option (Except GitError DirListing)
  | 0, _, _ => none
  | fuel + 1, tree_sha, base =>
    match read_object_fmt_and_data cd store tree_sha with
    | .error e => some (.error e)
    | .ok (fmt, tree_data) =>
      if fmt ≠ fmtTree then some (.error .notATree)
      else
        match GitTree.parse tree_data with
        | none => none
        | some (.error e) => some (.error e)
        | some (.ok tree) => read_tree_loop cd store (read_tree cd store fuel) tree.items base

/-! ## Commands -/

/-- The option `-p`. -/
def dashP : List Byte := [45, 112]
/-- The option `-m`. -/
def dashM : List Byte := [45, 109]
/-- The header key `tree`. -/
def keyTree : List Byte := [116, 114, 101, 101]
/-- The header key `parent`. -/
def keyParent : List Byte := [112, 97, 114, 101, 110, 116]
/-- The header key `author`. -/
def keyAuthor : List Byte := [97, 117, 116, 104, 111, 114]
/-- The header key `committer`. -/
def keyCommitter : List Byte := [99, 111, 109, 109, 105, 116, 116, 101, 114]

/-- The string `author_str` of `cmd_commit_tree` at the time `now`:
    `User <user@example.com> `, the seconds, ` +0000`. -/
def author_str (now : Int) : List Byte :=
  [85, 115, 101, 114, 32, 60, 117, 115, 101, 114, 64, 101, 120, 97, 109, 112, 108, 101, 46,
    99, 111, 109, 62, 32] ++ (to_string_int now ++ [32, 43, 48, 48, 48, 48])

/-- The commit `cmd_commit_tree` builds from its arguments. -/
def commitTreeObject (tree_sha parent_sha message : List Byte) (now : Int) : GitCommit :=
  ⟨[(keyTree, tree_sha)] ++ (if parent_sha ≠ [] then [(keyParent, parent_sha)] else []) ++
    [(keyAuthor, author_str now), (keyCommitter, author_str now), ([], message ++ [LF])]⟩

/-- The function `cmd_commit_tree(args)` at the time `now`: the key it prints and the store
    afterwards. -/
def cmd_commit_tree (cd : Codec) (args : List (List Byte)) (now : Int) (store : ObjectStore) :
    Except GitError (List Byte × ObjectStore) :=
  if args.length < 3 then .error .usage
  else
    let tree_sha := args.getD 0 []
    let withParent : Bool := decide (args.getD 1 [] = dashP)
    if withParent ∧ args.length < 5 then .error .usage
    else
      let parent_sha := if withParent then args.getD 2 [] else []
      let i := if withParent then 3 else 1
      if i ≥ args.length ∨ args.getD i [] ≠ dashM then .error .usage
      else if i + 1 ≥ args.length then .error .usage
      else
        let message := args.getD (i + 1) []
        if i + 2 ≠ args.length then .error .usage
        else object_write cd (.commit (commitTreeObject tree_sha parent_sha message now)) true store

/-- The loops of `cmd_log` that pick the value of the first header with the key `key`; the
    empty string when there is none. -/
def firstValue (key : List Byte) : List (List Byte × List Byte) → List Byte
  | [] => []
  | kv :: rest => if kv.1 = key then kv.2 else firstValue key rest

/-- What `cmd_log` prints for one commit: the key, the author (printed when not empty) and
    the message. -/
structure LogEntry where
  sha : List Byte
  author : List Byte
  message : List Byte
  deriving DecidableEq, Repr

/-- The loop `while (!sha.empty())` of `cmd_log` from the key `sha`, for at most `fuel`
    turns, `GitCommit::parse` running for at most `parseFuel` turns of its own loop: the
    entries printed, `none` when a loop does not end within its fuel. -/
def cmd_log_loop (cd : Codec) (store : ObjectStore) (parseFuel : Nat) :
    Nat → List Byte → List LogEntry → Option (Except GitError (List LogEntry))
  | 0, _, _ => none
  | fuel + 1, sha, printed =>
    if sha = [] then some (.ok printed)
    else
      match read_object_fmt_and_data cd store sha with
      | .error e => some (.error e)
      | .ok (fmt, data) =>
        if fmt ≠ fmtCommit then some (.error .notACommit)
        else
          match GitCommit.parse parseFuel data with
          | none => none
          | some commit =>
            cmd_log_loop cd store parseFuel fuel (firstValue keyParent commit.kvlm)
              (printed ++ [⟨sha, firstValue keyAuthor commit.kvlm, firstValue [] commit.kvlm⟩])

/-- The function `cmd_log(args)` on a repository with the state `gd` and the objects
    `store`: resolves the name (`HEAD` when none is given) and walks. -/
def cmd_log (cd : Codec) (gd : GitDir) (store : ObjectStore) (fuel parseFuel : Nat)
    (args : List (List Byte)) : Option (Except GitError (List LogEntry)) :=
  match object_find gd fuel (args.headD nameHEAD) fmtCommit true with
  | none => none
  | some (.error e) => some (.error e)
  | some (.ok sha) => cmd_log_loop cd store parseFuel fuel sha []

/-! ## Repository layout and checkout -/

/-- The state `gd` with the entry `e` at `name`. -/
def setEntry (gd : GitDir) (name : List Byte) (e : FsEntry) : GitDir :=
  fun n => if n = name then e else gd n

/-- The state after `std::ofstream f(gitdir / name); f << content; f.close()`: the file is
    created or truncated and holds `content`. Over a directory, or where the path cannot be
    reached, the stream does not open; the source does not look at the stream, and nothing
    is written. -/
def writeStream (gd : GitDir) (name content : List Byte) : GitDir :=
  match gd name with
  | .directory => gd
  | .statusError => gd
  | _ => setEntry gd name (.file content)

/-- The call `fs::create_directories` on a path under `gitdir`, given by the names of its
    components from `gitdir` down: each is created unless it is there; a component that is a
    file, or has no status, makes the call throw. -/
def create_directories (gd : GitDir) : List (List Byte) → Except GitError GitDir
  | [] => .ok gd
  | name :: rest =>
    match gd name with
    | .file _ => .error .filesystem_error
    | .statusError => .error .filesystem_error
    | _ => create_directories (setEntry gd name .directory) rest

/-- The name `branches`. -/
def nameBranches : List Byte := [98, 114, 97, 110, 99, 104, 101, 115]
/-- The name `objects`. -/
def nameObjects : List Byte := [111, 98, 106, 101, 99, 116, 115]
/-- The name `refs`. -/
def nameRefs : List Byte := [114, 101, 102, 115]
/-- The name `refs/tags`. -/
def nameRefsTags : List Byte := [114, 101, 102, 115, 47, 116, 97, 103, 115]
/-- The name `refs/heads`. -/
def nameRefsHeads : List Byte := [114, 101, 102, 115, 47, 104, 101, 97, 100, 115]
/-- The name `config`. -/
def nameConfig : List Byte := [99, 111, 110, 102, 105, 103]

/-- The text written to `config`. -/
def configText : List Byte :=
  [91, 99, 111, 114, 101, 93, 10, 9, 114, 101, 112, 111, 115, 105, 116, 111, 114, 121,
    102, 111, 114, 109, 97, 116, 118, 101, 114, 115, 105, 111, 110, 32, 61, 32, 48, 10, 9,
    102, 105, 108, 101, 109, 111, 100, 101, 32, 61, 32, 116, 114, 117, 101, 10, 9, 98, 97,
    114, 101, 32, 61, 32, 102, 97, 108, 115, 101, 10, 9, 108, 111, 103, 97, 108, 108, 114,
    101, 102, 117, 112, 100, 97, 116, 101, 115, 32, 61, 32, 116, 114, 117, 101, 10]

/-- The text `ref: refs/heads/master`, LF, written to `HEAD` by `GitRepository::create`. -/
def headText : List Byte :=
  [114, 101, 102, 58, 32, 114, 101, 102, 115, 47, 104, 101, 97, 100, 115, 47, 109, 97, 115,
    116, 101, 114, 10]

/-- The part of `GitRepository::create` behind the check of `gitdir`: the four calls of
    `fs::create_directories`, on `branches`, `objects`, `refs/tags` and `refs/heads`, given
    by their components in a row, then the two files `config` and `HEAD`. -/
def createLayout (gd : GitDir) : Except GitError GitDir :=
  match create_directories gd [nameBranches, nameObjects, nameRefs, nameRefsTags,
      nameRefs, nameRefsHeads] with
  | .error e => .error e
  | .ok gd1 => .ok (writeStream (writeStream gd1 nameConfig configText) nameHEAD headText)

/-- The function `GitRepository::create(path)` on the state of `path/.git` (the empty name
    is `.git` itself): the state afterwards. A `gitdir` that exists and is no directory is
    an error; one that does not exist is created; where it has no status `fs::exists`
    throws. -/
def GitRepository.create (gd : GitDir) : Except GitError GitDir :=
  match gd [] with
  | .file _ => .error .gitdirNotADirectory
  | .statusError => .error .filesystem_error
  | .directory => createLayout gd
  | .absent => createLayout (setEntry gd [] .directory)

/-- The function `cmd_init(args)`, on the state of the `.git` of the path it is given. -/
def cmd_init (gd : GitDir) : Except GitError GitDir :=
  GitRepository.create gd

/-- What `HEAD` is after `cmd_init`. -/
def headAfterInit (gd : GitDir) : Except GitError FsEntry :=
  match cmd_init gd with
  | .error e => .error e
  | .ok gd1 => .ok (gd1 nameHEAD)

/-- A repository: the state of `gitdir`, the objects under `gitdir/objects`, and the
    children of the working tree. -/
structure Repo where
  gitdir : GitDir
  objects : ObjectStore
  worktree : DirListing

/-- The function `cmd_checkout(args)` in the repository `repo` that `GitRepository::find`
    returns: the repository afterwards, or the error thrown (what `read_tree` wrote before
    an error is not kept). `fuel` bounds the nested calls of `object_find` and of
    `read_tree`, `parseFuel` the loop of `GitCommit::parse`; `none` when one of them does
    not end within its fuel. The last step writes `commit_sha` to `HEAD`, and nothing
    behind it. -/
def cmd_checkout (cd : Codec) (repo : Repo) (fuel parseFuel : Nat) (args : List (List Byte)) :
    Option (Except GitError Repo) :=
  match args with
  | [] => some (.error .usage)
  | name :: _ =>
    match object_find repo.gitdir fuel name fmtCommit true with
    | none => none
    | some (.error e) => some (.error e)
    | some (.ok commit_sha) =>
      match read_object_fmt_and_data cd repo.objects commit_sha with
      | .error e => some (.error e)
      | .ok (fmt, commit_data) =>
        if fmt ≠ fmtCommit then some (.error .notACommit)
        else
          match GitCommit.parse parseFuel commit_data with
          | none => none
          | some commit =>
            let tree_sha := firstValue keyTree commit.kvlm
            if tree_sha = [] then some (.error .noTreeInCommit)
            else
              match read_tree cd repo.objects fuel tree_sha repo.worktree with
              | none => none
              | some (.error e) => some (.error e)
              | some (.ok worktree1) =>
                some (.ok ⟨writeStream repo.gitdir nameHEAD commit_sha, repo.objects,
                  worktree1⟩)

/-- What `HEAD` is after `cmd_checkout`. -/
def headAfterCheckout (cd : Codec) (repo : Repo) (fuel parseFuel : Nat)
    (args : List (List Byte)) : Option (Except GitError FsEntry) :=
  match cmd_checkout cd repo fuel parseFuel args with
  | none => none
  | some (.error e) => some (.error e)
  | some (.ok repo1) => some (.ok (repo1.gitdir nameHEAD))

/-! ## Predicates used in the statements -/

/-- The names of the children of a directory, in the order of the listing. -/
def DirListing.names : DirListing → List (List Byte)
  | .nil => []
  | .file n _ rest => n :: DirListing.names rest
  | .dir n _ rest => n :: DirListing.names rest
  | .other n rest => n :: DirListing.names rest


/-- A lowercase hexadecimal digit: `0`..`9` or `a`..`f`. -/
def isLowerHex (b : Byte) : Bool :=
  decide ((48 ≤ b.val ∧ b.val ≤ 57) ∨ (97 ≤ b.val ∧ b.val ≤ 102))

/-- The number a string of decimal (or octal) digits denotes in `base`. -/
def digitsValue (base : Nat) (s : List Byte) : Nat :=
  s.foldl (fun a b => a * base + (b.val - 48)) 0

/-- Every byte of `s` is an ASCII digit below `base`. -/
def allDigits (base : Nat) (s : List Byte) : Prop :=
  ∀ b ∈ s, 48 ≤ b.val ∧ b.val < 48 + base

/-- What the claims ask of a leaf that is serialised: the mode is a `uint32_t`, the name has
    no NUL, the key is 40 lowercase hexadecimal characters. -/
def GitTreeLeaf.wellFormed (leaf : GitTreeLeaf) : Prop :=
  leaf.mode < 4294967296 ∧ NUL ∉ leaf.path ∧ leaf.sha.length = 40 ∧
    ∀ b ∈ leaf.sha, isLowerHex b = true

/-- The mode field `m` is the octal numeral of a `uint32_t`: octal digits only, no leading
    zero (the numeral of zero is `0`), value below `2^32`. -/
def canonicalMode (m : List Byte) : Prop :=
  m ≠ [] ∧ allDigits 8 m ∧ (m.head? = some 48 → m = [48]) ∧ digitsValue 8 m < 4294967296

/-- One tree entry on the wire: mode digits, SP, name, NUL, the raw key. -/
def wireEntry (e : List Byte × List Byte × List Byte) : List Byte :=
  e.1 ++ SP :: (e.2.1 ++ NUL :: e.2.2)

/-- A tree payload on the wire: its entries one after the other. -/
def wireTree : List (List Byte × List Byte × List Byte) → List Byte
  | [] => []
  | e :: es => wireEntry e ++ wireTree es

/-- The leaf that a wire entry with a readable mode stands for. -/
def leafOfWire (e : List Byte × List Byte × List Byte) : GitTreeLeaf :=
  ⟨digitsValue 8 e.1, e.2.1, toHex e.2.2⟩

/-- A header the commit codec keeps on one line: the key is non-empty and has no SP and no
    LF, the value has no LF. -/
def singleLineHeader (kv : List Byte × List Byte) : Prop :=
  kv.1 ≠ [] ∧ SP ∉ kv.1 ∧ LF ∉ kv.1 ∧ LF ∉ kv.2

/-- The header lines `key SP value LF` of `headers`, one after the other. -/
def wireHeaders : List (List Byte × List Byte) → List Byte
  | [] => []
  | kv :: rest => kv.1 ++ SP :: (kv.2 ++ LF :: wireHeaders rest)

/-- The arguments of one run of `commit-tree`, apart from the parent: the tree, the
    message, and the time of the run. -/
structure CommitRun where
  tree : List Byte
  message : List Byte
  now : Int
  deriving DecidableEq, Repr

/-- The command line of a run: `<tree> -m <message>` without a parent (the empty string),
    `<tree> -p <parent> -m <message>` with one. -/
def CommitRun.args (c : CommitRun) (parent : List Byte) : List (List Byte) :=
  if parent = [] then [c.tree, dashM, c.message] else [c.tree, dashP, parent, dashM, c.message]

/-- The key of the tip of a chain of runs, listed tip first: each commit is built with the
    key of the next one in the list as its parent, the last one without a parent. The empty
    string for the empty chain. (`cmd_commit_tree_chainKey`: these are the keys the runs of
    `cmd_commit_tree` return.) -/
def chainKey (cd : Codec) : List CommitRun → List Byte
  | [] => []
  | c :: older =>
    toHex (cd.sha1 (objectFrame fmtCommit
      (commitTreeObject c.tree (chainKey cd older) c.message c.now).serialize))

/-- The chain is stored: reading the key of each of its commits yields the kind `commit`
    and the payload of that commit. -/
def chainStored (cd : Codec) (store : ObjectStore) : List CommitRun → Prop
  | [] => True
  | c :: older =>
    read_object_fmt_and_data cd store (chainKey cd (c :: older))
      = .ok (fmtCommit, (commitTreeObject c.tree (chainKey cd older) c.message c.now).serialize) ∧
    chainStored cd store older

/-- What `cmd_log` prints along a chain, tip first. -/
def chainLog (cd : Codec) : List CommitRun → List LogEntry
  | [] => []
  | c :: older =>
    ⟨chainKey cd (c :: older), author_str c.now, c.message ++ [LF]⟩ :: chainLog cd older

/-- The key `object_hash` returns for a file with the content `c`. -/
def blobKey (cd : Codec) (c : List Byte) : List Byte :=
  toHex (cd.sha1 (objectFrame fmtBlob c))

/-- The payload of the tree object `write_tree` builds from `entries` (empty should
    `GitTree::serialize` throw, which it does not on keys in hexadecimal). -/
def treePayload (entries : List GitTreeLeaf) : List Byte :=
  match GitTree.serialize ⟨sortEntries entries⟩ with
  | .ok w => w
  | .error _ => []

/-- The key `write_tree` returns for a directory whose loop has collected `entries`. -/
def treeKey (cd : Codec) (entries : List GitTreeLeaf) : List Byte :=
  toHex (cd.sha1 (objectFrame fmtTree (treePayload entries)))

/-- The entries the loop of `write_tree` collects, as a function of the listing alone. -/
def snapshotEntries (cd : Codec) : DirListing → List GitTreeLeaf
  | .nil => []
  | .file n c rest =>
    if skipped n then snapshotEntries cd rest
    else ⟨modeFile, n, blobKey cd c⟩ :: snapshotEntries cd rest
  | .dir n sub rest =>
    if skipped n then snapshotEntries cd rest
    else ⟨modeDir, n, treeKey cd (snapshotEntries cd sub)⟩ :: snapshotEntries cd rest
  | .other _ rest => snapshotEntries cd rest

/-- The write of the tree object of a directory whose loop has collected `entries`. -/
def treeWrite (cd : Codec) (entries : List GitTreeLeaf) : (List Byte × List Byte) × List Byte :=
  (objectPath (treeKey cd entries), cd.deflate (objectFrame fmtTree (treePayload entries)))

/-- The writes of the loop of `write_tree` on a listing, newest first. -/
def snapshotWrites (cd : Codec) : DirListing → ObjectStore
  | .nil => []
  | .file n c rest =>
    if skipped n then snapshotWrites cd rest
    else snapshotWrites cd rest ++ [(objectPath (blobKey cd c), cd.deflate (objectFrame fmtBlob c))]
  | .dir n sub rest =>
    if skipped n then snapshotWrites cd rest
    else snapshotWrites cd rest ++ (treeWrite cd (snapshotEntries cd sub) :: snapshotWrites cd sub)
  | .other _ rest => snapshotWrites cd rest

/-- A working tree of regular files and directories only, at every level, whose names have
    no NUL and are neither hidden nor ignored. -/
def DirListing.plain : DirListing → Prop
  | .nil => True
  | .file n _ rest => NUL ∉ n ∧ skipped n = false ∧ DirListing.plain rest
  | .dir n sub rest =>
    NUL ∉ n ∧ skipped n = false ∧ DirListing.plain sub ∧ DirListing.plain rest
  | .other _ _ => False

/-- No two children of a directory have the same name, at every level. -/
def DirListing.uniqueNames : DirListing → Prop
  | .nil => True
  | .file n _ rest => n ∉ rest.names ∧ DirListing.uniqueNames rest
  | .dir n sub rest =>
    n ∉ rest.names ∧ DirListing.uniqueNames sub ∧ DirListing.uniqueNames rest
  | .other n rest => n ∉ rest.names ∧ DirListing.uniqueNames rest

/-- Every file of the working tree, and the payload of the tree object of every directory
    below it, has at most `INT_MAX` bytes. -/
def DirListing.fitsInt (cd : Codec) : DirListing → Prop
  | .nil => True
  | .file _ c rest => c.length ≤ 2147483647 ∧ DirListing.fitsInt cd rest
  | .dir _ sub rest =>
    (treePayload (snapshotEntries cd sub)).length ≤ 2147483647 ∧
      DirListing.fitsInt cd sub ∧ DirListing.fitsInt cd rest
  | .other _ rest => DirListing.fitsInt cd rest

/-- The depth of a working tree: 0 without subdirectories. -/
def DirListing.depth : DirListing → Nat
  | .nil => 0
  | .file _ _ rest => DirListing.depth rest
  | .dir _ sub rest => max (DirListing.depth sub + 1) (DirListing.depth rest)
  | .other _ rest => DirListing.depth rest

/-- The directory `restored` holds what the working tree `w` holds: every file of `w` with
    its content, every directory of `w` with, in turn, what it holds, and no other name, at
    every level. -/
def sameTree : DirListing → DirListing → Prop
  | .nil, _ => True
  | .file n c rest, restored => restored.child n = some (.file c) ∧ sameTree rest restored
  | .dir n sub rest, restored =>
    (∃ r, restored.child n = some (.dir r) ∧ r.names.Perm sub.names ∧ sameTree sub r) ∧
      sameTree rest restored
  | .other _ _, _ => False

/-- No write to the store has been replaced by a later write of other bytes to the same
    path: every byte string written is the one that is read. -/
def ObjectStore.consistent (s : ObjectStore) : Prop :=
  ∀ e ∈ s, s.read e.1 = some e.2

/-- What the loop of `read_tree` makes of the leaf: a directory, with what the call `recur`
    on the key of the leaf puts into an empty directory, when the mode is `040000`; else a
    file, with the payload of the blob read under the key. -/
def restoresTo (cd : Codec) (store : ObjectStore)
    (recur : List Byte → DirListing → Option (Except GitError DirListing))
    (leaf : GitTreeLeaf) (node : FsNode) : Prop :=
  (leaf.mode = modeDir ∧ ∃ r, recur leaf.sha .nil = some (.ok r) ∧ node = .dir r) ∨
  (leaf.mode ≠ modeDir ∧
    ∃ c, read_object_fmt_and_data cd store leaf.sha = .ok (fmtBlob, c) ∧ node = .file c)

/-- One line of the header part of a commit payload: a header `key SP value`, or a line
    without SP. -/
inductive HeaderLine
  | header (key value : List Byte)
  | bare (line : List Byte)
  deriving DecidableEq, Repr

/-- A header line is `key SP value` with a non-empty key without SP or LF and a value without
    LF; a bare line is non-empty and has neither SP nor LF. -/
def HeaderLine.wellFormed : HeaderLine → Prop
  | .header key value => key ≠ [] ∧ SP ∉ key ∧ LF ∉ key ∧ LF ∉ value
  | .bare line => line ≠ [] ∧ SP ∉ line ∧ LF ∉ line

/-- The lines on the wire, each followed by LF. -/
def wireLines : List HeaderLine → List Byte
  | [] => []
  | .header key value :: rest => key ++ SP :: (value ++ LF :: wireLines rest)
  | .bare line :: rest => line ++ LF :: wireLines rest

/-- The headers among the lines, in their order; the bare lines are left out. -/
def headersOf : List HeaderLine → List (List Byte × List Byte)
  | [] => []
  | .header key value :: rest => (key, value) :: headersOf rest
  | .bare _ :: rest => headersOf rest

/-! ## Concrete checks of the embedding -/

/-- Bytes of `100644 hello`, NUL, then the 20 bytes 0x01 .. 0x14. -/
def helloPayload : List Byte :=
  [49, 48, 48, 54, 52, 52, 32, 104, 101, 108, 108, 111, 0,
   1, 2, 3, 4, 5, 6, 7, 8, 9, 10, 11, 12, 13, 14, 15, 16, 17, 18, 19, 20]

/-- The tree with the one file `hello`, key 0102...14 in hexadecimal. -/
def helloTree : GitTree :=
  ⟨[⟨33188, [104, 101, 108, 108, 111],
     [48, 49, 48, 50, 48, 51, 48, 52, 48, 53, 48, 54, 48, 55, 48, 56, 48, 57, 48, 97,
      48, 98, 48, 99, 48, 100, 48, 101, 48, 102, 49, 48, 49, 49, 49, 50, 49, 51, 49, 52]⟩]⟩


/-- Bytes of `040000 d`, NUL, then 20 bytes 0x01: a subtree entry whose mode has a leading
    zero. -/
def paddedPayload : List Byte :=
  [48, 52, 48, 48, 48, 48, 32, 100, 0,
   1, 1, 1, 1, 1, 1, 1, 1, 1, 1, 1, 1, 1, 1, 1, 1, 1, 1, 1, 1]

/-- Bytes of `1 `, NUL, then 20 bytes 0x01: an entry whose name is empty. -/
def emptyNamePayload : List Byte :=
  [49, 32, 0, 1, 1, 1, 1, 1, 1, 1, 1, 1, 1, 1, 1, 1, 1, 1, 1, 1, 1, 1, 1]

/-- The key 0101...01 in hexadecimal. -/
def onesKey : List Byte := toHex (List.replicate 20 1)


/-- The commit with the header `a` whose value is the two lines `b` and `c`, and an empty
    message. -/
def foldedCommit : GitCommit := ⟨[([97], [98, 10, 99]), ([], [])]⟩

/-- The commit with the headers `tree t` and `parent p` and the message `m`. -/
def smallCommit : GitCommit :=
  ⟨[([116, 114, 101, 101], [116]), ([112, 97, 114, 101, 110, 116], [112]), ([], [109])]⟩


/-- The blob of 2^31 zero bytes: the content of a file of 2 GiB. -/
def largeBlob : List Byte := List.replicate 2147483648 0

/-- The working tree with the one file `a` of 2^31 zero bytes. -/
def largeWorktree : DirListing := .file [97] largeBlob .nil


/-- A listing that the directory iterator yields out of order: the file `b`, the directory
    `a` with the file `c` in it, the file `ab`. -/
def unsortedWorktree : DirListing :=
  .file [98] [1] (.dir [97] (.file [99] [2] .nil) (.file [97, 98] [3] .nil))


/-- A toy codec for concrete runs: the digest is the first 20 bytes of the input, padded with
    zeros; nothing is compressed. -/
def toyCodec : Codec where
  sha1 x := (x ++ List.replicate 20 0).take 20
  sha1_length x := by simp
  deflate x := x
  inflate x := some x
  inflate_deflate _ := rfl

/-- The name `refs/heads/master`. -/
def nameMaster : List Byte :=
  [114, 101, 102, 115, 47, 104, 101, 97, 100, 115, 47, 109, 97, 115, 116, 101, 114]

/-- The name `refs/heads/loop`. -/
def nameLoop : List Byte :=
  [114, 101, 102, 115, 47, 104, 101, 97, 100, 115, 47, 108, 111, 111, 112]

/-- The state `GitRepository::create` leaves in a new directory: `gitdir` itself (the empty
    name) and `branches`, `objects`, `refs`, `refs/tags`, `refs/heads` are directories,
    `config` and `HEAD` are files, `HEAD` holding `ref: refs/heads/master` and LF. -/
def initGitDir : GitDir := fun name =>
  if name = [] ∨ name = [98, 114, 97, 110, 99, 104, 101, 115] ∨
      name = [111, 98, 106, 101, 99, 116, 115] ∨ name = nameRefs ∨
      name = [114, 101, 102, 115, 47, 116, 97, 103, 115] ∨
      name = [114, 101, 102, 115, 47, 104, 101, 97, 100, 115] then .directory
  else if name = nameHEAD then .file (refMark ++ nameMaster ++ [LF])
  else if name = [99, 111, 110, 102, 105, 103] then
    .file [91, 99, 111, 114, 101, 93, 10, 9, 114, 101, 112, 111, 115, 105, 116, 111, 114, 121,
      102, 111, 114, 109, 97, 116, 118, 101, 114, 115, 105, 111, 110, 32, 61, 32, 48, 10, 9,
      102, 105, 108, 101, 109, 111, 100, 101, 32, 61, 32, 116, 114, 117, 101, 10, 9, 98, 97,
      114, 101, 32, 61, 32, 102, 97, 108, 115, 101, 10, 9, 108, 111, 103, 97, 108, 108, 114,
      101, 102, 117, 112, 100, 97, 116, 101, 115, 32, 61, 32, 116, 114, 117, 101, 10]
  else .absent

/-- A state in which the file `refs/heads/loop` holds its own name `refs/heads/loop`. -/
def loopGitDir : GitDir := fun name =>
  if name = nameLoop then .file (nameLoop ++ [LF]) else .absent

/-- A state in which `HEAD` points to `refs/heads/master`, which holds the key
    0101...01. -/
def masterGitDir : GitDir := fun name =>
  if name = nameHEAD then .file (refMark ++ nameMaster ++ [LF])
  else if name = nameMaster then .file (onesKey ++ [LF])
  else .absent

/-- The length of the chain from `HEAD` in `masterGitDir`. -/
def masterRank (name : List Byte) : Nat :=
  if name = nameHEAD then 2 else if name = nameMaster then 1 else 0


/-- Two runs of `commit-tree`, tip first: `t1 -p C0 -m second` at time 2 after
    `t0 -m init` at time 1. -/
def twoRuns : List CommitRun :=
  [⟨[116, 49], [115, 101, 99, 111, 110, 100], 2⟩, ⟨[116, 48], [105, 110, 105, 116], 1⟩]

/-- The store after the two runs of `twoRuns`, with the toy codec, from the empty store. -/
def twoRunsStore : ObjectStore :=
  match cmd_commit_tree toyCodec ((twoRuns.getD 1 ⟨[], [], 0⟩).args []) 1 [] with
  | .error _ => []
  | .ok (c0, store1) =>
    match cmd_commit_tree toyCodec ((twoRuns.getD 0 ⟨[], [], 0⟩).args c0) 2 store1 with
    | .error _ => []
    | .ok (_, store2) => store2


/-- The listing `unsortedWorktree` in the order of the names: the directory `a` with the file
    `c`, the file `ab`, the file `b`. -/
def sortedWorktree : DirListing :=
  .dir [97] (.file [99] [2] .nil) (.file [97, 98] [3] (.file [98] [1] .nil))

/-- The key and the store `write_tree` returns on `unsortedWorktree`, with the toy codec, from
    the empty store. -/
def unsortedSnapshot : List Byte × ObjectStore :=
  match write_tree toyCodec unsortedWorktree [] with
  | .ok r => r
  | .error _ => ([], [])

/-- The payload `a b`, LF, `c`, LF, LF: the header `a`, a line without SP, an empty
    message. -/
def foldedPayload : List Byte := [97, 32, 98, 10, 99, 10, 10]

/-- The frame `blob 5x`, NUL, `hello`: the size field is `5x`. -/
def junkSizeFrame : List Byte := [98, 108, 111, 98, 32, 53, 120, 0, 104, 101, 108, 108, 111]

/-- The frame `blob  +05`, NUL, `hello`: the size field is a space, a plus sign and `05`. -/
def signedSizeFrame : List Byte :=
  [98, 108, 111, 98, 32, 32, 43, 48, 53, 0, 104, 101, 108, 108, 111]

/-- The bytes `hello`. -/
def helloBytes : List Byte := [104, 101, 108, 108, 111]

/-- A directory in which nothing exists yet. -/
def emptyGitDir : GitDir := fun _ => .absent

/-- The store after `write-tree` on an empty working tree and `commit-tree <tree> -m init`
    at time 1, with the toy codec, and the key of that commit. -/
def checkoutSetup : List Byte × ObjectStore :=
  match write_tree toyCodec .nil [] with
  | .error _ => ([], [])
  | .ok (tree, store1) =>
    match cmd_commit_tree toyCodec [tree, dashM, [105, 110, 105, 116]] 1 store1 with
    | .error _ => ([], [])
    | .ok r => r

/-- The repository fresh from `init` with the objects of `checkoutSetup` and an empty
    working tree. -/
def checkoutRepo : Repo := ⟨initGitDir, checkoutSetup.2, .nil⟩

/-- The first run of `commit-tree`: `t -m m` at time 1. -/
def baseRun : CommitRun := ⟨[116], [109], 1⟩

/-- A run of `commit-tree` without `-p` whose tree argument is `t`, LF, `parent `, and the
    key of the commit of `baseRun`: `<tree> -m m` at time 2. -/
def forgedRun : CommitRun :=
  ⟨[116, 10] ++ keyParent ++ [SP] ++ chainKey toyCodec [baseRun], [109], 2⟩

/-- The key the run `forgedRun` returns and the store it leaves, with the toy codec, after
    the run `baseRun` from the empty store. -/
def forgedSetup : List Byte × ObjectStore :=
  match cmd_commit_tree toyCodec (baseRun.args []) 1 [] with
  | .error _ => ([], [])
  | .ok (_, store1) =>
    match cmd_commit_tree toyCodec (forgedRun.args []) 2 store1 with
    | .error _ => ([], [])
    | .ok r => r

/-- A name of 256 bytes `a`. -/
def longName : List Byte := List.replicate 256 97

/-! # Theorems -/


@[simp] theorem byteOfNat_val (n : Nat) : (byteOfNat n).val = n % 256 := rfl

theorem byteOfNat_of_val (b : Byte) (n : Nat) (h : n = b.val) : byteOfNat n = b := by
  apply Fin.ext
  simp only [byteOfNat_val, h]
  omega

theorem digitVal_decimal (base : Nat) (b : Byte) (h1 : 48 ≤ b.val) (h2 : b.val ≤ 57)
    (h3 : b.val - 48 < base) : digitVal base b = some (b.val - 48) := by
  unfold digitVal
  dsimp only
  rw [if_pos (show 48 ≤ b.val ∧ b.val ≤ 57 from ⟨h1, h2⟩), if_pos h3]

theorem digitVal_lower (base : Nat) (b : Byte) (h1 : 97 ≤ b.val) (h2 : b.val ≤ 122)
    (h3 : b.val - 87 < base) : digitVal base b = some (b.val - 87) := by
  unfold digitVal
  dsimp only
  rw [if_neg (show ¬ (48 ≤ b.val ∧ b.val ≤ 57) by omega),
    if_pos (show 97 ≤ b.val ∧ b.val ≤ 122 from ⟨h1, h2⟩), if_pos h3]

theorem lowerHex_digit (a : Byte) (h : isLowerHex a = true) :
    ∃ v, digitVal 16 a = some v ∧ v < 16 ∧ hexChar v = a := by
  simp only [isLowerHex, decide_eq_true_eq] at h
  rcases h with h | h
  · refine ⟨a.val - 48, digitVal_decimal _ _ h.1 h.2 (by omega), by omega, ?_⟩
    unfold hexChar
    rw [if_pos (by omega)]
    exact byteOfNat_of_val _ _ (by omega)
  · refine ⟨a.val - 87, digitVal_lower _ _ h.1 (by omega) (by omega), by omega, ?_⟩
    unfold hexChar
    rw [if_neg (by omega)]
    exact byteOfNat_of_val _ _ (by omega)

theorem hexChar_digit (d : Nat) (h : d < 16) :
    digitVal 16 (hexChar d) = some d ∧ isLowerHex (hexChar d) = true := by
  unfold hexChar
  by_cases hd : d < 10
  · rw [if_pos hd]
    have hv : (byteOfNat (48 + d)).val = 48 + d := by simp only [byteOfNat_val]; omega
    constructor
    · rw [digitVal_decimal 16 _ (by omega) (by omega) (by omega), hv]
      congr 1; omega
    · simp only [isLowerHex, hv, decide_eq_true_eq]; omega
  · rw [if_neg hd]
    have hv : (byteOfNat (87 + d)).val = 87 + d := by simp only [byteOfNat_val]; omega
    constructor
    · rw [digitVal_lower 16 _ (by omega) (by omega) (by omega), hv]
      congr 1; omega
    · simp only [isLowerHex, hv, decide_eq_true_eq]; omega

theorem lowerHex_not_special (a : Byte) (h : isLowerHex a = true) :
    isspace a = false ∧ a ≠ 45 ∧ a ≠ 43 := by
  simp only [isLowerHex, decide_eq_true_eq] at h
  refine ⟨?_, ?_, ?_⟩
  · simp only [isspace, decide_eq_false_iff_not]; omega
  · intro e; rw [e] at h; revert h; decide
  · intro e; rw [e] at h; revert h; decide

theorem stoi16_pair (a b : Byte) (va vb : Nat) (ha : isLowerHex a = true)
    (hva : digitVal 16 a = some va) (hvb : digitVal 16 b = some vb)
    (ha16 : va < 16) (hb16 : vb < 16) :
    stoi 16 [a, b] = .ok ((va * 16 + vb : Nat) : Int) := by
  obtain ⟨hs, hm, hp⟩ := lowerHex_not_special a ha
  simp only [stoi, strtoCore, skipSpace, hs, hm, hp, readDigits, hva, hvb, if_false,
    Bool.false_eq_true]
  simp only [INT_MIN, INT_MAX]
  simp
  omega

theorem toUInt8_natCast (n : Nat) : toUInt8 (n : Int) = byteOfNat n := by
  unfold toUInt8
  apply Fin.ext
  simp only [byteOfNat_val]
  omega


theorem findFrom_append_of_not_mem (c : Byte) (a b : List Byte) (h : c ∉ a) :
    findFrom c (a ++ c :: b) = some a.length := by
  induction a with
  | nil => simp [findFrom]
  | cons x xs ih =>
    have hx : x ≠ c := fun e => h (by simp [e])
    have hxs : c ∉ xs := fun e => h (by simp [e])
    simp [findFrom, hx, ih hxs]

theorem findFrom_none_of_not_mem (c : Byte) (a : List Byte) (h : c ∉ a) :
    findFrom c a = none := by
  induction a with
  | nil => simp [findFrom]
  | cons x xs ih =>
    have hx : x ≠ c := fun e => h (by simp [e])
    have hxs : c ∉ xs := fun e => h (by simp [e])
    simp [findFrom, hx, ih hxs]

theorem find_append_left (pre s : List Byte) (c : Byte) (p : Nat) :
    find (pre ++ s) c (pre.length + p) = (find s c p).map (· + pre.length) := by
  unfold find
  have : List.drop (pre.length + p) (pre ++ s) = List.drop p s := by
    rw [List.drop_append]
  rw [this]
  cases findFrom c (List.drop p s) <;> simp [Nat.add_comm, Nat.add_left_comm, Nat.add_assoc]

theorem substr_append_left (pre s : List Byte) (p n : Nat) :
    substr (pre ++ s) (pre.length + p) n = substr s p n := by
  unfold substr
  rw [List.drop_append]

theorem shaToBinary_lowerHex : ∀ key : List Byte, (∀ b ∈ key, isLowerHex b = true) →
    key.length % 2 = 0 →
    ∃ raw, shaToBinary key = .ok raw ∧ toHex raw = key ∧ raw.length * 2 = key.length
  | [], _, _ => ⟨[], rfl, rfl, rfl⟩
  | [a], _, h => by simp at h
  | a :: b :: rest, hk, hl => by
    obtain ⟨va, hva, ha16, hca⟩ := lowerHex_digit a (hk a (by simp))
    obtain ⟨vb, hvb, hb16, hcb⟩ := lowerHex_digit b (hk b (by simp))
    obtain ⟨raw, hr, hh, hlen⟩ := shaToBinary_lowerHex rest
      (fun x hx => hk x (by simp [hx])) (by simp only [List.length_cons] at hl; omega)
    refine ⟨byteOfNat (va * 16 + vb) :: raw, ?_, ?_, ?_⟩
    · simp only [shaToBinary, stoi16_pair a b va vb (hk a (by simp)) hva hvb ha16 hb16, hr,
        toUInt8_natCast]
    · have hv : (byteOfNat (va * 16 + vb)).val = va * 16 + vb := by
        simp only [byteOfNat_val]; omega
      simp only [toHex, hv, hh]
      have h1 : (va * 16 + vb) / 16 = va := by omega
      have h2 : (va * 16 + vb) % 16 = vb := by omega
      rw [h1, h2, hca, hcb]
    · simp only [List.length_cons]; omega

theorem shaToBinary_toHex : ∀ raw : List Byte, shaToBinary (toHex raw) = .ok raw
  | [] => rfl
  | b :: bs => by
    have hb : b.val < 256 := b.isLt
    obtain ⟨h1, h1x⟩ := hexChar_digit (b.val / 16) (by omega)
    obtain ⟨h2, _⟩ := hexChar_digit (b.val % 16) (by omega)
    simp only [toHex, shaToBinary,
      stoi16_pair _ _ _ _ h1x h1 h2 (by omega) (by omega), shaToBinary_toHex bs,
      toUInt8_natCast]
    congr 1
    exact congrArg (· :: bs) (byteOfNat_of_val b _ (by omega))

theorem toHex_length (raw : List Byte) : (toHex raw).length = 2 * raw.length := by
  induction raw with
  | nil => rfl
  | cons b bs ih => simp only [toHex, List.length_cons, ih]; omega

theorem toHex_lowerHex (raw : List Byte) : ∀ c ∈ toHex raw, isLowerHex c = true := by
  induction raw with
  | nil => simp [toHex]
  | cons b bs ih =>
    have hb : b.val < 256 := b.isLt
    intro c hc
    simp only [toHex, List.mem_cons] at hc
    rcases hc with hc | hc | hc
    · rw [hc]; exact (hexChar_digit _ (by omega)).2
    · rw [hc]; exact (hexChar_digit _ (by omega)).2
    · exact ih c hc

/-! ### Printing and reading numbers -/

theorem digitsAux_append (base : Nat) : ∀ (fuel n : Nat) (acc : List Byte),
    digitsAux base fuel n acc = digitsAux base fuel n [] ++ acc := by
  intro fuel
  induction fuel with
  | zero => intro n acc; simp [digitsAux]
  | succ k ih =>
    intro n acc
    simp only [digitsAux]
    split
    · simp
    · rw [ih (n / base) (digitChar (n % base) :: acc), ih (n / base) [digitChar (n % base)]]
      simp



theorem readDigits_allDigits (base : Nat) (hb : base ≤ 10) : ∀ (s : List Byte) (acc cnt : Nat),
    allDigits base s →
    readDigits base s acc cnt
      = (s.foldl (fun a b => a * base + (b.val - 48)) acc, cnt + s.length) := by
  intro s
  induction s with
  | nil => intro acc cnt _; simp [readDigits]
  | cons b bs ih =>
    intro acc cnt h
    have hb1 := h b (by simp)
    have hbs : allDigits base bs := fun x hx => h x (by simp [hx])
    simp only [readDigits, digitVal_decimal base b hb1.1 (by omega) (by omega), ih _ _ hbs,
      List.foldl_cons, List.length_cons]
    congr 1; omega

theorem digitChar_val (d : Nat) (h : d < 10) : (digitChar d).val = 48 + d := by
  simp only [digitChar, byteOfNat_val]; omega

theorem digitsAux_spec (base : Nat) (h2 : 2 ≤ base) (h10 : base ≤ 10) :
    ∀ (fuel n : Nat), n < fuel →
      allDigits base (digitsAux base fuel n []) ∧
      digitsAux base fuel n [] ≠ [] ∧
      digitsValue base (digitsAux base fuel n []) = n := by
  intro fuel
  induction fuel with
  | zero => intro n h; omega
  | succ k ih =>
    intro n hn
    simp only [digitsAux]
    by_cases hlt : n < base
    · rw [if_pos hlt]
      have hv := digitChar_val n (by omega)
      refine ⟨?_, by simp, ?_⟩
      · intro b hb
        simp only [List.mem_singleton] at hb
        rw [hb, hv]; omega
      · simp only [digitsValue, List.foldl_cons, List.foldl_nil, hv]; omega
    · rw [if_neg hlt, digitsAux_append]
      have hdiv : n / base < k := by
        have : n / base < n := Nat.div_lt_self (by omega) (by omega)
        omega
      obtain ⟨ha, hne, hval⟩ := ih (n / base) hdiv
      have hmod : n % base < base := Nat.mod_lt _ (by omega)
      have hv := digitChar_val (n % base) (by omega)
      refine ⟨?_, by simp [hne], ?_⟩
      · intro b hb
        simp only [List.mem_append, List.mem_singleton] at hb
        rcases hb with hb | hb
        · exact ha b hb
        · rw [hb, hv]; omega
      · unfold digitsValue at hval ⊢
        rw [List.foldl_append, hval]
        simp only [List.foldl_cons, List.foldl_nil, hv]
        have := Nat.div_add_mod n base
        rw [Nat.mul_comm] at this
        omega

theorem allDigits_isdigit (base : Nat) (hb : base ≤ 10) (s : List Byte) (h : allDigits base s) :
    s.all isdigit = true := by
  simp only [List.all_eq_true, isdigit, decide_eq_true_eq]
  intro b hb'
  have := h b hb'
  omega

theorem skipSpace_digit (b : Byte) (bs : List Byte) (h : 48 ≤ b.val ∧ b.val ≤ 57) :
    skipSpace (b :: bs) = b :: bs := by
  have : isspace b = false := by
    simp only [isspace, decide_eq_false_iff_not]; omega
  simp [skipSpace, this]

theorem strtoCore_allDigits (base : Nat) (hb : base ≤ 10) (s : List Byte) (hne : s ≠ [])
    (h : allDigits base s) : strtoCore base s = some (false, digitsValue base s) := by
  cases s with
  | nil => exact absurd rfl hne
  | cons b bs =>
    have hb1 := h b (by simp)
    have h45 : b ≠ 45 := by intro e; have h0 := hb1.1; rw [e] at h0; revert h0; decide
    have h43 : b ≠ 43 := by intro e; have h0 := hb1.1; rw [e] at h0; revert h0; decide
    have h16 : base ≠ 16 := by omega
    unfold strtoCore
    rw [skipSpace_digit b bs ⟨hb1.1, by omega⟩]
    simp only [h45, h43, if_false, h16, false_and]
    have hs3 : (match b :: bs with
        | z :: x :: h :: rest => b :: bs
        | x => b :: bs) = b :: bs := by
      split <;> rfl
    simp only [hs3, readDigits_allDigits base hb (b :: bs) 0 0 h, digitsValue]
    simp

/-! ### `GitTree::parse` one entry at a time -/

theorem GitTree.parseLoop_shift (pre : List Byte) : ∀ (fuel : Nat) (s : List Byte) (p : Nat)
    (items : List GitTreeLeaf),
    GitTree.parseLoop fuel (pre ++ s) (pre.length + p) items
      = GitTree.parseLoop fuel s p items := by
  intro fuel
  induction fuel with
  | zero => intro s p items; rfl
  | succ k ih =>
    intro s p items
    simp only [GitTree.parseLoop, List.length_append, Nat.add_lt_add_iff_left]
    by_cases hp : p < s.length
    · rw [if_pos hp, if_pos hp, find_append_left]
      cases hsp : find s SP p with
      | none => simp only [Option.map_none']
      | some sp =>
        have e1 : sp + pre.length - (pre.length + p) = sp - p := by omega
        have e2 : sp + pre.length + 1 = pre.length + (sp + 1) := by omega
        simp only [Option.map_some', e1, e2, find_append_left, substr_append_left]
        cases hnp : find s NUL (sp + 1) with
        | none => simp only [Option.map_none']
        | some np =>
          have e3 : np + pre.length - (sp + pre.length) - 1 = np - sp - 1 := by omega
          have e4 : np + pre.length + 1 = pre.length + (np + 1) := by omega
          have e5 : pre.length + (np + 1) + 20 = pre.length + (np + 1 + 20) := by omega
          have e6 : (pre.length + (np + 1 + 20) > pre.length + s.length)
              = (np + 1 + 20 > s.length) := by
            apply propext; omega
          simp only [Option.map_some', e3, e4, e5, e6, substr_append_left, ih]
    · rw [if_neg hp, if_neg hp]

theorem find_zero (s : List Byte) (c : Byte) : find s c 0 = findFrom c s := by
  unfold find
  rw [List.drop_zero]
  cases findFrom c s <;> rfl

theorem substr_zero_append (a b : List Byte) : substr (a ++ b) 0 a.length = a := by
  simp [substr]

theorem isdigit_not_SP (m : List Byte) (h : m.all isdigit = true) : SP ∉ m := by
  intro hmem
  have := List.all_eq_true.mp h SP hmem
  revert this
  decide

/-- One turn of the loop of `GitTree::parse` on a payload that starts with a whole entry:
    the entry is read, with the mode `std::stoul` makes of its digits, and the loop goes on
    behind it. -/
theorem GitTree.parseLoop_entry (fuel : Nat) (m name key rest : List Byte)
    (items : List GitTreeLeaf) (hm : m ≠ []) (hd : m.all isdigit = true)
    (hn : NUL ∉ name) (hk : key.length = 20) :
    GitTree.parseLoop (fuel + 1) (m ++ SP :: (name ++ NUL :: (key ++ rest))) 0 items
      = match stoul 8 m with
        | .error e => some (.error e)
        | .ok v =>
          GitTree.parseLoop fuel rest 0 (items ++ [⟨v % 4294967296, name, toHex key⟩]) := by
  have hsp : find (m ++ SP :: (name ++ NUL :: (key ++ rest))) SP 0 = some m.length := by
    rw [find_zero, findFrom_append_of_not_mem SP m _ (isdigit_not_SP m hd)]
  have hdata1 : m ++ SP :: (name ++ NUL :: (key ++ rest))
      = (m ++ [SP]) ++ (name ++ NUL :: (key ++ rest)) := by simp
  have hl1 : (m ++ [SP]).length = m.length + 1 := by simp
  have hnp : find (m ++ SP :: (name ++ NUL :: (key ++ rest))) NUL (m.length + 1)
      = some (name.length + (m.length + 1)) := by
    rw [hdata1]
    have := find_append_left (m ++ [SP]) (name ++ NUL :: (key ++ rest)) NUL 0
    rw [hl1] at this
    rw [Nat.add_zero] at this
    rw [this, find_zero, findFrom_append_of_not_mem NUL name _ hn]
    rfl
  have hpath : substr (m ++ SP :: (name ++ NUL :: (key ++ rest))) (m.length + 1)
      (name.length + (m.length + 1) - m.length - 1) = name := by
    rw [hdata1]
    have := substr_append_left (m ++ [SP]) (name ++ NUL :: (key ++ rest)) 0 name.length
    rw [hl1, Nat.add_zero] at this
    have e : name.length + (m.length + 1) - m.length - 1 = name.length := by omega
    rw [e, this, substr_zero_append]
  have hdata2 : m ++ SP :: (name ++ NUL :: (key ++ rest))
      = (m ++ SP :: (name ++ [NUL])) ++ (key ++ rest) := by simp
  have hl2 : (m ++ SP :: (name ++ [NUL])).length = name.length + (m.length + 1) + 1 := by
    simp; omega
  have hsha : substr (m ++ SP :: (name ++ NUL :: (key ++ rest)))
      (name.length + (m.length + 1) + 1) 20 = key := by
    rw [hdata2]
    have := substr_append_left (m ++ SP :: (name ++ [NUL])) (key ++ rest) 0 20
    rw [hl2, Nat.add_zero] at this
    rw [this, ← hk, substr_zero_append]
  have hlen : ¬ (name.length + (m.length + 1) + 1 + 20
      > (m ++ SP :: (name ++ NUL :: (key ++ rest))).length) := by
    simp; omega
  have hpos : 0 < (m ++ SP :: (name ++ NUL :: (key ++ rest))).length := by
    simp
  have hmode : substr (m ++ SP :: (name ++ NUL :: (key ++ rest))) 0 (m.length - 0) = m := by
    rw [Nat.sub_zero, substr_zero_append]
  have hnext : ∀ its, GitTree.parseLoop fuel (m ++ SP :: (name ++ NUL :: (key ++ rest)))
      (name.length + (m.length + 1) + 1 + 20) its = GitTree.parseLoop fuel rest 0 its := by
    intro its
    have hdata3 : m ++ SP :: (name ++ NUL :: (key ++ rest))
        = (m ++ SP :: (name ++ NUL :: key)) ++ rest := by simp
    have hl3 : (m ++ SP :: (name ++ NUL :: key)).length
        = name.length + (m.length + 1) + 1 + 20 := by
      simp; omega
    have := GitTree.parseLoop_shift (m ++ SP :: (name ++ NUL :: key)) fuel rest 0 its
    rw [hl3, Nat.add_zero, ← hdata3] at this
    exact this
  rw [GitTree.parseLoop, if_pos hpos]
  simp only [hsp, hmode, hm, if_false, hd, Bool.not_true, Bool.false_eq_true, hnp, hpath,
    hsha, hlen, hnext]

theorem toOctal_spec (n : Nat) :
    allDigits 8 (toOctal n) ∧ toOctal n ≠ [] ∧ digitsValue 8 (toOctal n) = n :=
  digitsAux_spec 8 (by decide) (by decide) (n + 1) n (Nat.lt_succ_self n)

theorem stoul_allDigits (s : List Byte) (hne : s ≠ []) (h : allDigits 8 s)
    (hv : digitsValue 8 s ≤ ULONG_MAX) : stoul 8 s = .ok (digitsValue 8 s) := by
  unfold stoul
  rw [strtoCore_allDigits 8 (by decide) s hne h]
  simp only [Bool.false_eq_true, if_false]
  rw [if_neg (by omega)]

theorem stoul_toOctal (n : Nat) (h : n < 4294967296) : stoul 8 (toOctal n) = .ok n := by
  obtain ⟨ha, hne, hval⟩ := toOctal_spec n
  have := stoul_allDigits (toOctal n) hne ha (by rw [hval]; unfold ULONG_MAX; omega)
  rw [this, hval]


theorem GitTree.roundtrip_aux : ∀ (items : List GitTreeLeaf),
    (∀ leaf ∈ items, leaf.wellFormed) →
    ∃ w, (∀ ret, GitTree.serializeLoop items ret = .ok (ret ++ w)) ∧
      items.length ≤ w.length ∧
      ∀ fuel acc, items.length < fuel →
        GitTree.parseLoop fuel w 0 acc = some (.ok ⟨acc ++ items⟩) := by
  intro items
  induction items with
  | nil =>
    intro _
    refine ⟨[], fun ret => by simp [GitTree.serializeLoop], Nat.le_refl _, ?_⟩
    intro fuel acc hf
    cases fuel with
    | zero => exact absurd hf (Nat.lt_irrefl _)
    | succ k => simp [GitTree.parseLoop]
  | cons leaf rest ih =>
    intro hwf
    obtain ⟨hmode, hpath, hlen, hhex⟩ := hwf leaf (by simp)
    obtain ⟨w', hser, hle, hparse⟩ := ih (fun l hl => hwf l (by simp [hl]))
    obtain ⟨raw, hraw, hhexraw, hrawlen⟩ := shaToBinary_lowerHex leaf.sha hhex (by omega)
    have hraw20 : raw.length = 20 := by omega
    obtain ⟨hdig, hne, _⟩ := toOctal_spec leaf.mode
    refine ⟨toOctal leaf.mode ++ SP :: (leaf.path ++ NUL :: (raw ++ w')), ?_, ?_, ?_⟩
    · intro ret
      simp only [GitTree.serializeLoop, hraw, hser]
      simp
    · simp only [List.length_append, List.length_cons]; omega
    · intro fuel acc hf
      cases fuel with
      | zero => omega
      | succ k =>
        rw [GitTree.parseLoop_entry k _ _ _ _ acc hne (allDigits_isdigit 8 (by decide) _ hdig)
          hpath hraw20, stoul_toOctal leaf.mode hmode]
        simp only
        rw [Nat.mod_eq_of_lt hmode, hhexraw,
          hparse k _ (by simp only [List.length_cons] at hf; omega)]
        simp

/-- C1. For every tree whose entries each carry a mode (a `uint32_t`), a non-empty name
    without NUL and a key of 40 lowercase hexadecimal characters, `GitTree::serialize`
    returns a payload, and `GitTree::parse` of that payload returns the same tree: the same
    (mode, name, key) entries in the same order. -/
theorem GitTree.tree_parse_serialize (t : GitTree)
    (h : ∀ leaf ∈ t.items, leaf.mode < 4294967296 ∧ leaf.path ≠ [] ∧ NUL ∉ leaf.path ∧
      leaf.sha.length = 40 ∧ ∀ b ∈ leaf.sha, isLowerHex b = true) :
    ∃ payload, GitTree.serialize t = .ok payload ∧
      GitTree.parse payload = some (.ok t) := by
  obtain ⟨w, hser, hle, hparse⟩ := GitTree.roundtrip_aux t.items
    (fun leaf hl =>
      ⟨(h leaf hl).1, (h leaf hl).2.2.1, (h leaf hl).2.2.2.1, (h leaf hl).2.2.2.2⟩)
  refine ⟨w, ?_, ?_⟩
  · have := hser []
    simpa [GitTree.serialize] using this
  · unfold GitTree.parse
    rw [hparse (w.length + 1) [] (by omega)]
    simp

set_option maxRecDepth 8000 in
/-- C1, on the tree with the one file `hello`. -/
theorem GitTree.tree_parse_serialize_witness :
    ∃ payload, GitTree.serialize helloTree = .ok payload ∧
      GitTree.parse payload = some (.ok helloTree) :=
  GitTree.tree_parse_serialize helloTree (by decide)

/-! ### Payloads of other producers (C9, C10) -/

theorem digitsAux_fuel (base : Nat) (h2 : 2 ≤ base) : ∀ (f1 f2 n : Nat) (acc : List Byte),
    n < f1 → n < f2 → digitsAux base f1 n acc = digitsAux base f2 n acc := by
  intro f1
  induction f1 with
  | zero => intro f2 n acc h; omega
  | succ k ih =>
    intro f2 n acc h1 hf2
    cases f2 with
    | zero => omega
    | succ j =>
      simp only [digitsAux]
      by_cases hlt : n < base
      · rw [if_pos hlt, if_pos hlt]
      · rw [if_neg hlt, if_neg hlt]
        have : n / base < n := Nat.div_lt_self (by omega) (by omega)
        exact ih j (n / base) _ (by omega) (by omega)

theorem toOctal_small (v : Nat) (h : v < 8) : toOctal v = [digitChar v] := by
  simp [toOctal, digitsAux, h]

theorem toOctal_step (v : Nat) (h : 8 ≤ v) :
    toOctal v = toOctal (v / 8) ++ [digitChar (v % 8)] := by
  unfold toOctal
  rw [digitsAux, if_neg (by omega), digitsAux_append]
  have : v / 8 < v := Nat.div_lt_self (by omega) (by omega)
  rw [digitsAux_fuel 8 (by decide) v (v / 8 + 1) (v / 8) [] this (by omega)]

theorem foldl_digits_pos (base : Nat) : ∀ (t : List Byte) (acc : Nat),
    1 ≤ acc → 1 ≤ base →
    1 ≤ t.foldl (fun a b => a * base + (b.val - 48)) acc := by
  intro t
  induction t with
  | nil => intro acc h _; simpa using h
  | cons b bs ih =>
    intro acc h hb
    simp only [List.foldl_cons]
    apply ih _ _ hb
    have : acc * 1 ≤ acc * base := Nat.mul_le_mul_left acc hb
    omega

theorem toOctal_digitsValue : ∀ m : List Byte, m ≠ [] → allDigits 8 m →
    (m.head? = some 48 → m = [48]) → toOctal (digitsValue 8 m) = m := by
  intro m
  induction m using List.reverseRecOn with
  | nil => intro h; exact absurd rfl h
  | append_singleton l a ih =>
    intro _ hd hhead
    have ha := hd a (by simp)
    have hval : digitsValue 8 (l ++ [a]) = digitsValue 8 l * 8 + (a.val - 48) := by
      simp [digitsValue, List.foldl_append]
    have hchar : digitChar (a.val - 48) = a := byteOfNat_of_val a _ (by omega)
    cases l with
    | nil =>
      have : digitsValue 8 ([] ++ [a]) = a.val - 48 := by simp [digitsValue]
      rw [this, toOctal_small _ (by omega), hchar]
      rfl
    | cons x xs =>
      have hx := hd x (by simp)
      have hx48 : x ≠ 48 := by
        intro e
        have := hhead (by simp [e])
        simp at this
      have hxv : x.val ≠ 48 := fun e => hx48 (Fin.ext e)
      have hl : 1 ≤ digitsValue 8 (x :: xs) := by
        unfold digitsValue
        simp only [List.foldl_cons]
        exact foldl_digits_pos 8 xs _ (by omega) (by decide)
      have hdl : allDigits 8 (x :: xs) := by
        intro b hb
        apply hd b
        simp only [List.cons_append, List.mem_cons, List.mem_append] at hb ⊢
        rcases hb with hb | hb
        · exact Or.inl hb
        · exact Or.inr (Or.inl hb)
      have hih := ih (by simp) hdl (by intro e; simp at e; exact absurd e hx48)
      rw [hval, toOctal_step _ (by omega)]
      have e1 : (digitsValue 8 (x :: xs) * 8 + (a.val - 48)) / 8 = digitsValue 8 (x :: xs) := by
        omega
      have e2 : (digitsValue 8 (x :: xs) * 8 + (a.val - 48)) % 8 = a.val - 48 := by omega
      rw [e1, e2, hih, hchar]

theorem GitTree.wire_roundtrip_aux : ∀ (es : List (List Byte × List Byte × List Byte)),
    (∀ e ∈ es, canonicalMode e.1 ∧ NUL ∉ e.2.1 ∧ e.2.2.length = 20) →
    (∀ ret, GitTree.serializeLoop (es.map leafOfWire) ret = .ok (ret ++ wireTree es)) ∧
      es.length ≤ (wireTree es).length ∧
      ∀ fuel acc, es.length < fuel →
        GitTree.parseLoop fuel (wireTree es) 0 acc = some (.ok ⟨acc ++ es.map leafOfWire⟩) := by
  intro es
  induction es with
  | nil =>
    intro _
    refine ⟨fun ret => by simp [GitTree.serializeLoop, wireTree], Nat.le_refl _, ?_⟩
    intro fuel acc hf
    cases fuel with
    | zero => exact absurd hf (Nat.lt_irrefl _)
    | succ k => simp [GitTree.parseLoop, wireTree]
  | cons e rest ih =>
    intro hwf
    obtain ⟨⟨hne, hdig, hhead, hval⟩, hname, hkey⟩ := hwf e (by simp)
    obtain ⟨hser, hle, hparse⟩ := ih (fun l hl => hwf l (by simp [hl]))
    refine ⟨?_, ?_, ?_⟩
    · intro ret
      simp only [List.map_cons, GitTree.serializeLoop, leafOfWire, shaToBinary_toHex, hser,
        toOctal_digitsValue e.1 hne hdig hhead, wireTree, wireEntry]
      simp
    · simp only [wireTree, wireEntry, List.length_append, List.length_cons]; omega
    · intro fuel acc hf
      cases fuel with
      | zero => omega
      | succ k =>
        simp only [wireTree, wireEntry, List.append_assoc, List.cons_append]
        rw [GitTree.parseLoop_entry k _ _ _ _ acc hne (allDigits_isdigit 8 (by decide) _ hdig)
          hname hkey, stoul_allDigits e.1 hne hdig (by unfold ULONG_MAX; omega)]
        simp only
        rw [Nat.mod_eq_of_lt hval,
          hparse k _ (by simp only [List.length_cons] at hf; omega)]
        simp [leafOfWire]

/-- C10, as amended. For every payload made of entries `mode SP name NUL key` (name without
    NUL, key of 20 bytes) in which every mode field is the octal numeral of a `uint32_t`
    without leading zeros, `GitTree::parse` accepts the payload and `GitTree::serialize` of
    the parsed tree gives the payload back byte for byte. -/
theorem GitTree.serialize_parse_canonical (es : List (List Byte × List Byte × List Byte))
    (h : ∀ e ∈ es, canonicalMode e.1 ∧ NUL ∉ e.2.1 ∧ e.2.2.length = 20) :
    ∃ t, GitTree.parse (wireTree es) = some (.ok t) ∧
      GitTree.serialize t = .ok (wireTree es) := by
  obtain ⟨hser, hle, hparse⟩ := GitTree.wire_roundtrip_aux es h
  refine ⟨⟨es.map leafOfWire⟩, ?_, ?_⟩
  · unfold GitTree.parse
    rw [hparse _ [] (by omega)]
    simp
  · have := hser []
    simpa [GitTree.serialize] using this

/-- C10, as amended, on the payload `40000 d`, NUL, 20 bytes. -/
theorem GitTree.serialize_parse_canonical_witness :
    ∃ t, GitTree.parse (wireTree [([52, 48, 48, 48, 48], [100], List.replicate 20 1)])
        = some (.ok t) ∧
      GitTree.serialize t
        = .ok (wireTree [([52, 48, 48, 48, 48], [100], List.replicate 20 1)]) :=
  GitTree.serialize_parse_canonical [([52, 48, 48, 48, 48], [100], List.replicate 20 1)]
    (by
      intro e he
      simp only [List.mem_singleton] at he
      subst he
      refine ⟨⟨by decide, ?_, by decide, by decide⟩, by decide, by decide⟩
      intro b hb
      simp only [List.mem_cons, List.mem_singleton] at hb
      rcases hb with hb | hb | hb | hb | hb | hb <;> first | (subst hb; decide) | simp at hb)

/-- C10, as stated, fails: `GitTree::parse` accepts the payload `040000 d`, NUL, 20 bytes
    and reads the mode 040000 = 16384; `GitTree::serialize` of the parsed tree writes the mode
    as `40000`, one byte shorter than the payload. -/
theorem GitTree.serialize_parse_leading_zero :
    GitTree.parse paddedPayload = some (.ok ⟨[⟨16384, [100], onesKey⟩]⟩) ∧
      GitTree.serialize ⟨[⟨16384, [100], onesKey⟩]⟩ = .ok (paddedPayload.drop 1) ∧
      paddedPayload.drop 1 ≠ paddedPayload := by
  decide

/-- C9: `GitTree::parse` accepts the payload `1 `, NUL, 20 bytes, whose one entry has an
    empty name, and returns the leaf with the empty path. -/
theorem GitTree.parse_empty_name :
    GitTree.parse emptyNamePayload = some (.ok ⟨[⟨1, [], onesKey⟩]⟩) := by
  decide

/-! ### What `GitTree::parse` accepts -/

theorem findFrom_some (c : Byte) : ∀ (s : List Byte) (i : Nat), findFrom c s = some i →
    s = s.take i ++ c :: s.drop (i + 1) ∧ c ∉ s.take i := by
  intro s
  induction s with
  | nil => intro i h; simp [findFrom] at h
  | cons x xs ih =>
    intro i h
    unfold findFrom at h
    by_cases hx : x = c
    · rw [if_pos hx] at h
      cases h
      simp [hx]
    · rw [if_neg hx] at h
      cases hf : findFrom c xs with
      | none => rw [hf] at h; simp at h
      | some j =>
        rw [hf] at h
        simp only [Option.map_some', Option.some.injEq] at h
        subst h
        obtain ⟨h1, h2⟩ := ih j hf
        constructor
        · simp only [List.take_succ_cons, List.drop_succ_cons, List.cons_append]
          rw [← h1]
        · simp only [List.take_succ_cons, List.mem_cons, not_or]
          exact ⟨fun e => hx e.symm, h2⟩

theorem find_some (s : List Byte) (c : Byte) (p i : Nat) (h : find s c p = some i) :
    p ≤ i ∧ s.drop p = substr s p (i - p) ++ c :: s.drop (i + 1) ∧
      c ∉ substr s p (i - p) := by
  unfold find at h
  cases hf : findFrom c (s.drop p) with
  | none => rw [hf] at h; simp at h
  | some j =>
    rw [hf] at h
    simp only [Option.map_some', Option.some.injEq] at h
    subst h
    obtain ⟨h1, h2⟩ := findFrom_some c _ j hf
    have e : j + p - p = j := by omega
    refine ⟨by omega, ?_, ?_⟩
    · unfold substr
      rw [e]
      have e2 : List.drop (j + p + 1) s = List.drop (j + 1) (List.drop p s) := by
        rw [List.drop_drop]
        congr 1
        omega
      rw [e2]
      exact h1
    · unfold substr
      rw [e]
      exact h2

/-- The loop of `GitTree::parse` always ends: every turn moves `pos` forward. -/
theorem GitTree.parseLoop_isSome : ∀ (fuel : Nat) (data : List Byte) (pos : Nat)
    (items : List GitTreeLeaf), data.length - pos < fuel →
    ∃ r, GitTree.parseLoop fuel data pos items = some r := by
  intro fuel
  induction fuel with
  | zero => intro data pos items h; omega
  | succ k ih =>
    intro data pos items hf
    rw [GitTree.parseLoop]
    by_cases hp : pos < data.length
    · rw [if_pos hp]
      cases hsp : find data SP pos with
      | none => exact ⟨_, rfl⟩
      | some sp =>
        simp only
        by_cases h1 : substr data pos (sp - pos) = []
        · rw [if_pos h1]; exact ⟨_, rfl⟩
        · rw [if_neg h1]
          by_cases h2 : (!(substr data pos (sp - pos)).all isdigit) = true
          · rw [if_pos h2]; exact ⟨_, rfl⟩
          · rw [if_neg h2]
            cases hst : stoul 8 (substr data pos (sp - pos)) with
            | error e => exact ⟨_, rfl⟩
            | ok v =>
              simp only
              cases hnp : find data NUL (sp + 1) with
              | none => exact ⟨_, rfl⟩
              | some np =>
                simp only
                by_cases h3 : np + 1 + 20 > data.length
                · rw [if_pos h3]; exact ⟨_, rfl⟩
                · rw [if_neg h3]
                  have a1 := (find_some data SP pos sp hsp).1
                  have a2 := (find_some data NUL (sp + 1) np hnp).1
                  exact ih data _ _ (by omega)
    · rw [if_neg hp]; exact ⟨_, rfl⟩

/-- The function `GitTree::parse` returns on every byte string: a tree or an error. -/
theorem GitTree.parse_isSome (data : List Byte) : ∃ r, GitTree.parse data = some r :=
  GitTree.parseLoop_isSome (data.length + 1) data 0 [] (by omega)

theorem GitTree.parseLoop_accepts : ∀ (fuel : Nat) (data : List Byte) (pos : Nat)
    (items : List GitTreeLeaf) (t : GitTree),
    GitTree.parseLoop fuel data pos items = some (.ok t) →
    ∃ es : List (List Byte × List Byte × List Byte),
      data.drop pos = wireTree es ∧
      (∀ e ∈ es,
        e.1 ≠ [] ∧ e.1.all isdigit = true ∧ NUL ∉ e.2.1 ∧ e.2.2.length = 20) := by
  intro fuel
  induction fuel with
  | zero => intro data pos items t h; simp [GitTree.parseLoop] at h
  | succ k ih =>
    intro data pos items t h
    rw [GitTree.parseLoop] at h
    by_cases hp : pos < data.length
    · rw [if_pos hp] at h
      cases hsp : find data SP pos with
      | none => rw [hsp] at h; simp at h
      | some sp =>
        rw [hsp] at h
        simp only at h
        by_cases h1 : substr data pos (sp - pos) = []
        · rw [if_pos h1] at h; simp at h
        · rw [if_neg h1] at h
          by_cases h2 : (!(substr data pos (sp - pos)).all isdigit) = true
          · rw [if_pos h2] at h; simp at h
          · rw [if_neg h2] at h
            cases hst : stoul 8 (substr data pos (sp - pos)) with
            | error e => rw [hst] at h; simp at h
            | ok v =>
              rw [hst] at h
              simp only at h
              cases hnp : find data NUL (sp + 1) with
              | none => rw [hnp] at h; simp at h
              | some np =>
                rw [hnp] at h
                simp only at h
                by_cases h3 : np + 1 + 20 > data.length
                · rw [if_pos h3] at h; simp at h
                · rw [if_neg h3] at h
                  obtain ⟨es, hes, hwf⟩ := ih data _ _ t h
                  obtain ⟨_, b1, _⟩ := find_some data SP pos sp hsp
                  obtain ⟨_, b2, b3⟩ := find_some data NUL (sp + 1) np hnp
                  have e1 : np - sp - 1 = np - (sp + 1) := by omega
                  refine ⟨(substr data pos (sp - pos), substr data (sp + 1) (np - sp - 1),
                    substr data (np + 1) 20) :: es, ?_, ?_⟩
                  · rw [b1, b2]
                    simp only [wireTree, wireEntry, e1, List.append_assoc, List.cons_append,
                      List.append_cancel_left_eq, List.cons.injEq, true_and]
                    rw [← hes]
                    unfold substr
                    have : List.drop (np + 1 + 20) data
                        = List.drop 20 (List.drop (np + 1) data) := by
                      rw [List.drop_drop]
                    rw [this, List.take_append_drop]
                  · intro e he
                    simp only [List.mem_cons] at he
                    rcases he with he | he
                    · subst he
                      refine ⟨h1, by simpa using h2, ?_, ?_⟩
                      · rw [e1]; exact b3
                      · simp only [substr, List.length_take, List.length_drop]
                        omega
                    · exact hwf e he
    · rw [if_neg hp] at h
      refine ⟨[], ?_, by simp⟩
      rw [List.drop_eq_nil_of_le (by omega)]
      rfl

/-- The part of the strictness of `GitTree::parse` that holds: a payload it accepts is a
    concatenation of entries, each a non-empty string of ASCII digits, SP, a name without
    NUL (possibly empty), NUL, and exactly 20 bytes. -/
theorem GitTree.parse_accepts (data : List Byte) (t : GitTree)
    (h : GitTree.parse data = some (.ok t)) :
    ∃ es : List (List Byte × List Byte × List Byte),
      data = wireTree es ∧
      (∀ e ∈ es,
        e.1 ≠ [] ∧ e.1.all isdigit = true ∧ NUL ∉ e.2.1 ∧ e.2.2.length = 20) := by
  obtain ⟨es, hes, hwf⟩ := GitTree.parseLoop_accepts _ data 0 [] t h
  exact ⟨es, by simpa using hes, hwf⟩

/-- A mode field with the digit 8 is accepted by `GitTree::parse`: `std::stoul` in base 8
    stops in front of the 8, and the mode of `18` is 1. -/
theorem GitTree.parse_digit_eight :
    GitTree.parse ([49, 56, 32, 100, 0] ++ List.replicate 20 1)
      = some (.ok ⟨[⟨1, [100], onesKey⟩]⟩) := by
  decide

/-! ### Commits (C2) -/

theorem GitCommit.serializeLoop_headers : ∀ (hs : List (List Byte × List Byte))
    (tail : List (List Byte × List Byte)) (ret : List Byte),
    (∀ kv ∈ hs, kv.1 ≠ []) →
    GitCommit.serializeLoop (hs ++ tail) ret
      = GitCommit.serializeLoop tail (ret ++ wireHeaders hs) := by
  intro hs
  induction hs with
  | nil => intro tail ret _; simp [wireHeaders]
  | cons kv rest ih =>
    intro tail ret h
    have hk : kv.1 ≠ [] := h kv (by simp)
    rw [List.cons_append, GitCommit.serializeLoop, if_neg hk,
      ih tail _ (fun x hx => h x (by simp [hx]))]
    simp [wireHeaders]

theorem GitCommit.serialize_headers (hs : List (List Byte × List Byte)) (msg : List Byte)
    (h : ∀ kv ∈ hs, kv.1 ≠ []) :
    GitCommit.serialize ⟨hs ++ [([], msg)]⟩ = wireHeaders hs ++ LF :: msg := by
  unfold GitCommit.serialize
  rw [GitCommit.serializeLoop_headers hs _ [] h]
  simp [GitCommit.serializeLoop]

theorem find_at_offset (pre s : List Byte) (c : Byte) :
    find (pre ++ s) c pre.length = (findFrom c s).map (· + pre.length) := by
  have := find_append_left pre s c 0
  rw [Nat.add_zero, find_zero] at this
  exact this

/-- One turn of the loop of `GitCommit::parse` at the start of a header line
    `key SP value LF`: the header is read and the loop goes on behind the LF. -/
theorem GitCommit.parseLoop_header (fuel : Nat) (pre k v rest : List Byte)
    (kvlm : List (List Byte × List Byte)) (hsp : SP ∉ k) (hlk : LF ∉ k) (hlv : LF ∉ v) :
    GitCommit.parseLoop (fuel + 1) (pre ++ (k ++ SP :: (v ++ LF :: rest))) pre.length kvlm
      = GitCommit.parseLoop fuel (pre ++ (k ++ SP :: (v ++ LF :: rest)))
          ((pre ++ (k ++ SP :: (v ++ [LF]))).length) (kvlm ++ [(k, v)]) := by
  have hline : LF ∉ k ++ SP :: v := by
    simp only [List.mem_append, List.mem_cons, not_or]
    exact ⟨hlk, by decide, hlv⟩
  have hdata : k ++ SP :: (v ++ LF :: rest) = (k ++ SP :: v) ++ LF :: rest := by simp
  have hfind : find (pre ++ (k ++ SP :: (v ++ LF :: rest))) LF pre.length
      = some ((k ++ SP :: v).length + pre.length) := by
    rw [find_at_offset, hdata, findFrom_append_of_not_mem LF _ _ hline]
    rfl
  have hpos : pre.length < (pre ++ (k ++ SP :: (v ++ LF :: rest))).length := by
    simp
  have hne : ¬ ((k ++ SP :: v).length + pre.length = pre.length) := by
    simp
  have hsub : substr (pre ++ (k ++ SP :: (v ++ LF :: rest))) pre.length
      ((k ++ SP :: v).length + pre.length - pre.length) = k ++ SP :: v := by
    have := substr_append_left pre (k ++ SP :: (v ++ LF :: rest)) 0 (k ++ SP :: v).length
    rw [Nat.add_zero] at this
    rw [Nat.add_sub_cancel, this, hdata, substr_zero_append]
  have hkey : findFrom SP (k ++ SP :: v) = some k.length :=
    findFrom_append_of_not_mem SP k v hsp
  have hlen : (k ++ SP :: v).length + pre.length + 1
      = (pre ++ (k ++ SP :: (v ++ [LF]))).length := by
    simp; omega
  rw [GitCommit.parseLoop, if_pos hpos]
  simp only [hfind, hne, if_false, hsub, hkey, hlen]
  simp

theorem GitCommit.parseLoop_headers : ∀ (hs : List (List Byte × List Byte))
    (fuel : Nat) (pre msg : List Byte) (kvlm : List (List Byte × List Byte)),
    (∀ kv ∈ hs, singleLineHeader kv) → hs.length < fuel →
    GitCommit.parseLoop fuel (pre ++ (wireHeaders hs ++ LF :: msg)) pre.length kvlm
      = some ((pre ++ wireHeaders hs).length + 1, kvlm ++ hs) := by
  intro hs
  induction hs with
  | nil =>
    intro fuel pre msg kvlm _ hf
    cases fuel with
    | zero => omega
    | succ n =>
      have hfind : find (pre ++ LF :: msg) LF pre.length = some pre.length := by
        rw [find_at_offset]
        simp [findFrom]
      simp [wireHeaders, GitCommit.parseLoop, hfind]
  | cons kv rest ih =>
    intro fuel pre msg kvlm h hf
    obtain ⟨_, hsp, hlk, hlv⟩ := h kv (by simp)
    cases fuel with
    | zero => omega
    | succ n =>
      have hdata : pre ++ (wireHeaders (kv :: rest) ++ LF :: msg)
          = pre ++ (kv.1 ++ SP :: (kv.2 ++ LF :: (wireHeaders rest ++ LF :: msg))) := by
        simp [wireHeaders]
      rw [hdata, GitCommit.parseLoop_header n pre kv.1 kv.2 _ kvlm hsp hlk hlv]
      have hdata2 : pre ++ (kv.1 ++ SP :: (kv.2 ++ LF :: (wireHeaders rest ++ LF :: msg)))
          = (pre ++ (kv.1 ++ SP :: (kv.2 ++ [LF]))) ++ (wireHeaders rest ++ LF :: msg) := by
        simp
      rw [hdata2, ih n _ msg _ (fun x hx => h x (by simp [hx]))
        (by simp only [List.length_cons] at hf; omega)]
      simp [wireHeaders]

/-- The method `GitCommit::parse` reads back what `GitCommit::serialize` wrote for
    single-line headers followed by the message, within one turn of its loop per header and
    one more. -/
theorem GitCommit.parse_serialize_headers (hs : List (List Byte × List Byte))
    (msg : List Byte) (fuel : Nat) (h : ∀ kv ∈ hs, singleLineHeader kv)
    (hf : hs.length < fuel) :
    GitCommit.parse fuel (GitCommit.serialize ⟨hs ++ [([], msg)]⟩)
      = some ⟨hs ++ [([], msg)]⟩ := by
  rw [GitCommit.serialize_headers hs msg (fun kv hkv => (h kv hkv).1)]
  unfold GitCommit.parse
  have := GitCommit.parseLoop_headers hs fuel [] msg [] h hf
  simp only [List.nil_append, List.length_nil] at this
  rw [this]
  simp only [Option.some.injEq, GitCommit.mk.injEq, List.append_cancel_left_eq,
    List.cons.injEq, Prod.mk.injEq, true_and, and_true]
  have : wireHeaders hs ++ LF :: msg = (wireHeaders hs ++ [LF]) ++ msg := by simp
  rw [this]
  have hl : (wireHeaders hs).length + 1 = (wireHeaders hs ++ [LF]).length := by simp
  rw [hl, List.drop_left]

/-- C2, as amended. For every commit made of headers whose keys are non-empty and hold
    neither SP nor LF and whose values hold no LF, followed by the message pseudo-entry with
    the empty key, `GitCommit::parse` of `GitCommit::serialize` returns (once its loop has run
    one turn per header and one more) the same commit: the same headers in the same order,
    repeated keys included, and the same message. -/
theorem GitCommit.commit_parse_serialize (hs : List (List Byte × List Byte)) (msg : List Byte)
    (fuel : Nat)
    (h : ∀ kv ∈ hs, kv.1 ≠ [] ∧ SP ∉ kv.1 ∧ LF ∉ kv.1 ∧ LF ∉ kv.2)
    (hf : hs.length < fuel) :
    GitCommit.parse fuel (GitCommit.serialize ⟨hs ++ [([], msg)]⟩)
      = some ⟨hs ++ [([], msg)]⟩ :=
  GitCommit.parse_serialize_headers hs msg fuel h hf

/-- C2, as amended, on the commit `tree t`, `parent p`, message `m`. -/
theorem GitCommit.commit_parse_serialize_witness :
    GitCommit.parse 3 (GitCommit.serialize smallCommit) = some smallCommit :=
  GitCommit.commit_parse_serialize
    [([116, 114, 101, 101], [116]), ([112, 97, 114, 101, 110, 116], [112])] [109] 3
    (by
      intro kv hkv
      simp only [List.mem_cons, List.mem_singleton, List.not_mem_nil, or_false] at hkv
      rcases hkv with hkv | hkv <;> subst hkv <;> decide)
    (by decide)

theorem GitCommit.parseLoop_mono : ∀ (fuel extra : Nat) (data : List Byte) (pos : Nat)
    (kvlm : List (List Byte × List Byte)) (r : Nat × List (List Byte × List Byte)),
    GitCommit.parseLoop fuel data pos kvlm = some r →
    GitCommit.parseLoop (fuel + extra) data pos kvlm = some r := by
  intro fuel
  induction fuel with
  | zero => intro extra data pos kvlm r h; simp [GitCommit.parseLoop] at h
  | succ n ih =>
    intro extra data pos kvlm r h
    have e : n + 1 + extra = (n + extra) + 1 := by omega
    rw [e]
    rw [GitCommit.parseLoop] at h ⊢
    by_cases hp : pos < data.length
    · rw [if_pos hp] at h ⊢
      cases hfind : find data LF pos with
      | some nl =>
        simp only [hfind] at h ⊢
        by_cases heq : nl = pos
        · rw [if_pos heq] at h ⊢
          exact h
        · rw [if_neg heq] at h ⊢
          cases hsp : findFrom SP (substr data pos (nl - pos)) with
          | none =>
            simp only [hsp] at h ⊢
            exact ih extra _ _ _ _ h
          | some sp =>
            simp only [hsp] at h ⊢
            exact ih extra _ _ _ _ h
      | none =>
        simp only [hfind] at h ⊢
        cases hsp : findFrom SP (List.drop pos data) with
        | none =>
          simp only [hsp] at h ⊢
          exact ih extra _ _ _ _ h
        | some sp =>
          simp only [hsp] at h ⊢
          exact ih extra _ _ _ _ h
    · rw [if_neg hp] at h ⊢
      exact h

theorem GitCommit.parse_mono (fuel extra : Nat) (data : List Byte) (c : GitCommit)
    (h : GitCommit.parse fuel data = some c) : GitCommit.parse (fuel + extra) data = some c := by
  unfold GitCommit.parse at h ⊢
  cases hl : GitCommit.parseLoop fuel data 0 [] with
  | none => simp [hl] at h
  | some r =>
    rw [GitCommit.parseLoop_mono fuel extra data 0 [] r hl]
    rw [hl] at h
    exact h

/-- C2, as stated, fails: the commit with the header `a` of value `b LF c` and an empty
    message serialises to `a b`, `c`, an empty line; `GitCommit::parse` skips the line `c`,
    which has no SP, and returns the header `a` with the value `b` alone; with no amount of
    fuel does it return the commit that was serialised. -/
theorem GitCommit.commit_parse_serialize_folded :
    GitCommit.parse 4 (GitCommit.serialize foldedCommit) = some ⟨[([97], [98]), ([], [])]⟩ ∧
      ¬ ∃ fuel, GitCommit.parse fuel (GitCommit.serialize foldedCommit) = some foldedCommit := by
  refine ⟨by decide, ?_⟩
  rintro ⟨fuel, hfuel⟩
  have h1 := GitCommit.parse_mono fuel 4 _ _ hfuel
  have h2 := GitCommit.parse_mono 4 fuel (GitCommit.serialize foldedCommit)
    ⟨[([97], [98]), ([], [])]⟩ (by decide)
  rw [Nat.add_comm] at h2
  rw [h1] at h2
  revert h2
  decide

/-! ### Object store (C3) -/

/-- The positions `find` returns in a string of the form `a SP b NUL c`, and the pieces
    `substr` cuts out at them. -/
theorem split_SP_NUL (a b c : List Byte) (ha : SP ∉ a) (hb : NUL ∉ b) :
    find (a ++ SP :: (b ++ NUL :: c)) SP 0 = some a.length ∧
    find (a ++ SP :: (b ++ NUL :: c)) NUL (a.length + 1) = some (b.length + (a.length + 1)) ∧
    substr (a ++ SP :: (b ++ NUL :: c)) 0 a.length = a ∧
    substr (a ++ SP :: (b ++ NUL :: c)) (a.length + 1)
      (b.length + (a.length + 1) - a.length - 1) = b ∧
    (a ++ SP :: (b ++ NUL :: c)).drop (b.length + (a.length + 1) + 1) = c := by
  have hdata1 : a ++ SP :: (b ++ NUL :: c) = (a ++ [SP]) ++ (b ++ NUL :: c) := by simp
  have hl1 : (a ++ [SP]).length = a.length + 1 := by simp
  refine ⟨?_, ?_, substr_zero_append a _, ?_, ?_⟩
  · rw [find_zero, findFrom_append_of_not_mem SP a _ ha]
  · rw [hdata1]
    have := find_at_offset (a ++ [SP]) (b ++ NUL :: c) NUL
    rw [hl1] at this
    rw [this, findFrom_append_of_not_mem NUL b _ hb]
    rfl
  · rw [hdata1]
    have := substr_append_left (a ++ [SP]) (b ++ NUL :: c) 0 b.length
    rw [hl1, Nat.add_zero] at this
    have e : b.length + (a.length + 1) - a.length - 1 = b.length := by omega
    rw [e, this, substr_zero_append]
  · have hdata2 : a ++ SP :: (b ++ NUL :: c) = (a ++ SP :: (b ++ [NUL])) ++ c := by simp
    have hl2 : (a ++ SP :: (b ++ [NUL])).length = b.length + (a.length + 1) + 1 := by
      simp; omega
    rw [hdata2, ← hl2, List.drop_left]

theorem to_string_spec (n : Nat) :
    allDigits 10 (to_string n) ∧ to_string n ≠ [] ∧ digitsValue 10 (to_string n) = n :=
  digitsAux_spec 10 (by decide) (by decide) (n + 1) n (Nat.lt_succ_self n)

theorem allDigits_not_mem (base : Nat) (s : List Byte) (h : allDigits base s) (c : Byte)
    (hc : c.val < 48) : c ∉ s := by
  intro hmem
  have := (h c hmem).1
  omega

/-- The call `std::stoi` on the decimal digits of `n` gives `n` back when `n` is an `int`,
    and throws `out_of_range` when it is not. -/
theorem stoi_to_string (n : Nat) :
    stoi 10 (to_string n)
      = if n ≤ 2147483647 then .ok (n : Int) else .error .out_of_range := by
  obtain ⟨hd, hne, hv⟩ := to_string_spec n
  unfold stoi
  rw [strtoCore_allDigits 10 (by decide) _ hne hd, hv]
  simp only [Bool.false_eq_true, if_false, INT_MIN, INT_MAX]
  by_cases h : n ≤ 2147483647
  · rw [if_pos h, if_neg (by omega)]
  · rw [if_neg h, if_pos (by omega)]

/-- What the header split of `read_object_fmt_and_data` makes of a frame built by
    `object_write`: the kind and the payload when the payload has at most `INT_MAX` bytes,
    the exception `out_of_range` of `std::stoi` when it has more. -/
theorem splitFrame_objectFrame (fmt data : List Byte) (hfmt : SP ∉ fmt) :
    splitFrame (objectFrame fmt data)
      = if data.length ≤ 2147483647 then .ok (fmt, data) else .error .out_of_range := by
  obtain ⟨hd, _, _⟩ := to_string_spec data.length
  have hnul : NUL ∉ to_string data.length :=
    allDigits_not_mem 10 _ hd NUL (by decide)
  have hframe : objectFrame fmt data
      = fmt ++ SP :: (to_string data.length ++ NUL :: data) := by
    simp [objectFrame]
  obtain ⟨h1, h2, h3, h4, h5⟩ := split_SP_NUL fmt (to_string data.length) data hfmt hnul
  unfold splitFrame
  rw [hframe]
  simp only [h1, h2, h3, h4, h5, stoi_to_string]
  by_cases h : data.length ≤ 2147483647
  · rw [if_pos h, if_pos h]
    simp only
    have : toSizeT (data.length : Int) = data.length := by
      unfold toSizeT
      omega
    rw [this]
    simp
  · rw [if_neg h, if_neg h]

theorem toHex_sha1_length (cd : Codec) (x : List Byte) : (toHex (cd.sha1 x)).length = 40 := by
  rw [toHex_length, cd.sha1_length]

theorem read_head (cd : Codec) (store : ObjectStore) (sha frame : List Byte)
    (hlen : 2 ≤ sha.length) :
    read_object_fmt_and_data cd ((objectPath sha, cd.deflate frame) :: store) sha
      = splitFrame frame := by
  unfold read_object_fmt_and_data
  rw [if_neg (by omega)]
  simp [ObjectStore.read, cd.inflate_deflate]

/-- Reading back the key `object_write` has just returned: the kind and the payload when the
    payload has at most `INT_MAX` bytes, the exception `out_of_range` when it has more. -/
theorem object_write_read (cd : Codec) (obj : GitObject) (store : ObjectStore)
    (data : List Byte) (hser : obj.serialize = .ok data) (hfmt : SP ∉ obj.fmt) :
    ∃ store1, object_write cd obj true store
        = .ok (toHex (cd.sha1 (objectFrame obj.fmt data)), store1) ∧
      read_object_fmt_and_data cd store1 (toHex (cd.sha1 (objectFrame obj.fmt data)))
        = if data.length ≤ 2147483647 then .ok (obj.fmt, data) else .error .out_of_range := by
  refine ⟨(objectPath (toHex (cd.sha1 (objectFrame obj.fmt data))),
    cd.deflate (objectFrame obj.fmt data)) :: store, ?_, ?_⟩
  · unfold object_write
    rw [hser]
    simp only [if_true]
  · rw [read_head cd store _ _ (by rw [toHex_sha1_length]; omega),
      splitFrame_objectFrame _ _ hfmt]

/-- C3: a blob of 2^31 bytes. `object_write` builds the frame `blob 2147483648`, NUL, the
    payload, stores it and returns its key; `read_object_fmt_and_data` on that key does not
    yield the kind and the payload: `std::stoi` throws `out_of_range` on the size field,
    which is no `int`. -/
theorem object_write_read_large (cd : Codec) (store : ObjectStore) :
    objectFrame fmtBlob largeBlob
        = [98, 108, 111, 98, 32, 50, 49, 52, 55, 52, 56, 51, 54, 52, 56, 0] ++ largeBlob ∧
      ∃ store1, object_write cd (.blob fmtBlob largeBlob) true store
          = .ok (toHex (cd.sha1 (objectFrame fmtBlob largeBlob)), store1) ∧
        read_object_fmt_and_data cd store1 (toHex (cd.sha1 (objectFrame fmtBlob largeBlob)))
          = .error .out_of_range := by
  have hlen : largeBlob.length = 2147483648 := List.length_replicate _ _
  constructor
  · have hs : to_string 2147483648 = [50, 49, 52, 55, 52, 56, 51, 54, 52, 56] := by decide
    simp [objectFrame, hlen, hs, fmtBlob, SP, NUL]
  · obtain ⟨store1, hw, hr⟩ := object_write_read cd (.blob fmtBlob largeBlob) store largeBlob
      rfl (by decide)
    refine ⟨store1, hw, ?_⟩
    rw [hlen, if_neg (by omega)] at hr
    exact hr

/-- The empty blob is framed as `blob 0` followed by NUL, and reads back. -/
theorem object_write_read_empty (cd : Codec) (store : ObjectStore) :
    objectFrame fmtBlob [] = [98, 108, 111, 98, 32, 48, 0] ∧
      ∃ store1, object_write cd (.blob fmtBlob []) true store
          = .ok (toHex (cd.sha1 [98, 108, 111, 98, 32, 48, 0]), store1) ∧
        read_object_fmt_and_data cd store1 (toHex (cd.sha1 [98, 108, 111, 98, 32, 48, 0]))
          = .ok (fmtBlob, []) := by
  refine ⟨by decide, ?_⟩
  obtain ⟨store1, hw, hr⟩ := object_write_read cd (.blob fmtBlob []) store [] rfl (by decide)
  exact ⟨store1, hw, hr⟩

/-! ### Sorted trees (C5) -/

theorem strLt_iff_lt : ∀ a b : List Byte, strLt a b = true ↔ a < b
  | [], [] => by simp [strLt]
  | [], _ :: _ => by simp [strLt, List.nil_lt_cons]
  | _ :: _, [] => by
    simp only [strLt, Bool.false_eq_true, false_iff]
    exact List.Lex.not_nil_right _ _
  | x :: xs, y :: ys => by
    have ih := strLt_iff_lt xs ys
    show strLt (x :: xs) (y :: ys) = true ↔ List.Lex (· < ·) (x :: xs) (y :: ys)
    unfold strLt
    by_cases hxy : x < y
    · rw [if_pos hxy]
      exact ⟨fun _ => List.Lex.rel hxy, fun _ => rfl⟩
    · rw [if_neg hxy]
      by_cases hyx : y < x
      · rw [if_pos hyx]
        constructor
        · intro h; exact absurd h (by decide)
        · intro h
          cases h with
          | cons h' => exact absurd hyx (lt_irrefl _)
          | rel h' => exact absurd h' hxy
      · rw [if_neg hyx]
        have hEq : x = y := le_antisymm (not_lt.mp hyx) (not_lt.mp hxy)
        subst hEq
        rw [ih]
        exact (List.Lex.cons_iff).symm

theorem mem_insertLeaf (x : GitTreeLeaf) : ∀ (l : List GitTreeLeaf) (w : GitTreeLeaf),
    w ∈ insertLeaf x l ↔ w = x ∨ w ∈ l := by
  intro l
  induction l with
  | nil => intro w; simp [insertLeaf]
  | cons y ys ih =>
    intro w
    unfold insertLeaf
    split
    · simp
    · simp only [List.mem_cons, ih]
      constructor
      · rintro (h | h | h)
        · exact Or.inr (Or.inl h)
        · exact Or.inl h
        · exact Or.inr (Or.inr h)
      · rintro (h | h | h)
        · exact Or.inr (Or.inl h)
        · exact Or.inl h
        · exact Or.inr (Or.inr h)

theorem insertLeaf_perm (x : GitTreeLeaf) : ∀ l : List GitTreeLeaf,
    (insertLeaf x l).Perm (x :: l) := by
  intro l
  induction l with
  | nil => exact List.Perm.refl _
  | cons y ys ih =>
    unfold insertLeaf
    split
    · exact List.Perm.refl _
    · exact (List.Perm.cons y ih).trans (List.Perm.swap x y ys)

theorem sortEntries_perm : ∀ l : List GitTreeLeaf, (sortEntries l).Perm l := by
  intro l
  induction l with
  | nil => exact List.Perm.refl _
  | cons x xs ih =>
    exact (insertLeaf_perm x (sortEntries xs)).trans (List.Perm.cons x ih)

theorem insertLeaf_sorted (x : GitTreeLeaf) : ∀ l : List GitTreeLeaf,
    l.Pairwise (fun a b => a.path ≤ b.path) →
    (insertLeaf x l).Pairwise (fun a b => a.path ≤ b.path) := by
  intro l
  induction l with
  | nil => intro _; simp [insertLeaf]
  | cons y ys ih =>
    intro h
    obtain ⟨hy, hys⟩ := List.pairwise_cons.mp h
    unfold insertLeaf
    by_cases hlt : strLt x.path y.path = true
    · rw [if_pos hlt]
      have hxy : x.path < y.path := (strLt_iff_lt _ _).mp hlt
      refine List.pairwise_cons.mpr ⟨?_, h⟩
      intro z hz
      simp only [List.mem_cons] at hz
      rcases hz with hz | hz
      · rw [hz]; exact le_of_lt hxy
      · exact le_trans (le_of_lt hxy) (hy z hz)
    · rw [if_neg hlt]
      have hyx : y.path ≤ x.path := not_lt.mp (fun h' => hlt ((strLt_iff_lt _ _).mpr h'))
      refine List.pairwise_cons.mpr ⟨?_, ih hys⟩
      intro z hz
      rcases (mem_insertLeaf x ys z).mp hz with hz | hz
      · rw [hz]; exact hyx
      · exact hy z hz

theorem sortEntries_sorted : ∀ l : List GitTreeLeaf,
    (sortEntries l).Pairwise (fun a b => a.path ≤ b.path) := by
  intro l
  induction l with
  | nil => simp [sortEntries]
  | cons x xs ih => exact insertLeaf_sorted x _ ih

/-- Sorting entries whose names are all different leaves them strictly increasing by
    name. -/
theorem sortEntries_strict (l : List GitTreeLeaf) (h : (l.map (·.path)).Nodup) :
    (sortEntries l).Pairwise (fun a b => strLt a.path b.path = true) := by
  have hperm := sortEntries_perm l
  have hnd : ((sortEntries l).map (·.path)).Nodup :=
    (List.Perm.nodup_iff (List.Perm.map _ hperm)).mpr h
  have hne : (sortEntries l).Pairwise (fun a b => a.path ≠ b.path) := by
    have := List.pairwise_map.mp hnd
    exact this
  have hboth := (sortEntries_sorted l).and hne
  refine hboth.imp ?_
  intro a b hab
  exact (strLt_iff_lt _ _).mpr (lt_of_le_of_ne hab.1 hab.2)

theorem serializeLoop_ok : ∀ (items : List GitTreeLeaf),
    (∀ leaf ∈ items, ∃ raw, leaf.sha = toHex raw) →
    ∃ w, ∀ ret, GitTree.serializeLoop items ret = .ok (ret ++ w) := by
  intro items
  induction items with
  | nil => intro _; exact ⟨[], fun ret => by simp [GitTree.serializeLoop]⟩
  | cons leaf rest ih =>
    intro h
    obtain ⟨raw, hraw⟩ := h leaf (by simp)
    obtain ⟨w, hw⟩ := ih (fun l hl => h l (by simp [hl]))
    refine ⟨toOctal leaf.mode ++ SP :: (leaf.path ++ NUL :: (raw ++ w)), ?_⟩
    intro ret
    simp only [GitTree.serializeLoop, hraw, shaToBinary_toHex, hw]
    simp

theorem write_tree_object_ok (cd : Codec) (entries : List GitTreeLeaf) (store : ObjectStore)
    (h : ∀ leaf ∈ entries, ∃ raw, leaf.sha = toHex raw) :
    ∃ sha store1,
      write_tree_object cd entries store = .ok (⟨sortEntries entries⟩, sha, store1) ∧
      ∃ raw, sha = toHex raw := by
  obtain ⟨w, hw⟩ := serializeLoop_ok (sortEntries entries)
    (fun l hl => h l ((sortEntries_perm entries).mem_iff.mp hl))
  have hser : (GitObject.tree ⟨sortEntries entries⟩).serialize = .ok w := by
    have := hw []
    simpa [GitObject.serialize, GitTree.serialize] using this
  refine ⟨toHex (cd.sha1 (objectFrame fmtTree w)),
    (objectPath (toHex (cd.sha1 (objectFrame fmtTree w))),
      cd.deflate (objectFrame fmtTree w)) :: store, ?_, ⟨_, rfl⟩⟩
  unfold write_tree_object object_write
  simp only [hser, if_true, GitObject.fmt]

/-- The function `write_tree` always returns: its loop yields entries whose keys are
    digests in hexadecimal and whose names are among the names of the listing, in the order
    of the listing. -/
theorem write_tree_loop_ok (cd : Codec) : ∀ (dir : DirListing) (store : ObjectStore),
    ∃ entries store1, write_tree_loop cd dir store = .ok (entries, store1) ∧
      (∀ leaf ∈ entries, ∃ raw, leaf.sha = toHex raw) ∧
      (entries.map (·.path)).Sublist dir.names := by
  intro dir
  induction dir with
  | nil => intro store; exact ⟨[], store, rfl, by simp, by simp [DirListing.names]⟩
  | file n c rest ih =>
    intro store
    unfold write_tree_loop
    by_cases hs : skipped n = true
    · rw [if_pos hs]
      obtain ⟨es, s1, h1, h2, h3⟩ := ih store
      exact ⟨es, s1, h1, h2, List.Sublist.cons _ h3⟩
    · rw [if_neg hs]
      obtain ⟨es, s1, h1, h2, h3⟩ := ih
        ((objectPath (toHex (cd.sha1 (objectFrame fmtBlob c))),
          cd.deflate (objectFrame fmtBlob c)) :: store)
      refine ⟨⟨modeFile, n, toHex (cd.sha1 (objectFrame fmtBlob c))⟩ :: es, s1, ?_, ?_, ?_⟩
      · simp only [object_hash, object_write, GitObject.serialize, GitObject.fmt, if_true, h1]
      · intro leaf hl
        simp only [List.mem_cons] at hl
        rcases hl with hl | hl
        · exact ⟨_, by rw [hl]⟩
        · exact h2 leaf hl
      · simp only [List.map_cons, DirListing.names]
        exact List.Sublist.cons₂ _ h3
  | dir n sub rest ihsub ihrest =>
    intro store
    unfold write_tree_loop
    by_cases hs : skipped n = true
    · rw [if_pos hs]
      obtain ⟨es, s1, h1, h2, h3⟩ := ihrest store
      exact ⟨es, s1, h1, h2, List.Sublist.cons _ h3⟩
    · rw [if_neg hs]
      obtain ⟨ses, s1, h1, h2, _⟩ := ihsub store
      obtain ⟨sha, s2, hobj, _, hsha⟩ := write_tree_object_ok cd ses s1 h2
      obtain ⟨es, s3, h4, h5, h6⟩ := ihrest s2
      refine ⟨⟨modeDir, n, sha⟩ :: es, s3, ?_, ?_, ?_⟩
      · simp only [h1, hobj, h4]
      · intro leaf hl
        simp only [List.mem_cons] at hl
        rcases hl with hl | hl
        · exact ⟨_, by rw [hl]; exact hsha⟩
        · exact h5 leaf hl
      · simp only [List.map_cons, DirListing.names]
        exact List.Sublist.cons₂ _ h6
  | other n rest ih =>
    intro store
    unfold write_tree_loop
    obtain ⟨es, s1, h1, h2, h3⟩ := ih store
    exact ⟨es, s1, h1, h2, List.Sublist.cons _ h3⟩

/-- C5. For every directory listing with unique names, in whatever order the iterator
    yields the children, `write_tree` returns a key, and the tree object it has built and
    written has its entries strictly increasing by name in the byte order of `std::string`.
    (A subtree is built by the same function on the listing of the subdirectory.) -/
theorem write_tree_sorted (cd : Codec) (dir : DirListing) (store : ObjectStore)
    (h : dir.names.Nodup) :
    ∃ entries store1 tree sha store2,
      write_tree_loop cd dir store = .ok (entries, store1) ∧
      write_tree_object cd entries store1 = .ok (tree, sha, store2) ∧
      write_tree cd dir store = .ok (sha, store2) ∧
      tree.items.Pairwise (fun a b => strLt a.path b.path = true) := by
  obtain ⟨es, s1, h1, h2, h3⟩ := write_tree_loop_ok cd dir store
  obtain ⟨sha, s2, hobj, _⟩ := write_tree_object_ok cd es s1 h2
  refine ⟨es, s1, _, sha, s2, h1, hobj, ?_, ?_⟩
  · unfold write_tree
    simp only [h1, hobj]
  · exact sortEntries_strict es (h3.nodup h)

/-- C5, on a listing that is out of order (`b`, the directory `a`, `ab`), with the toy
    codec and an empty store. -/
theorem write_tree_sorted_witness :
    ∃ entries store1 tree sha store2,
      write_tree_loop toyCodec unsortedWorktree [] = .ok (entries, store1) ∧
      write_tree_object toyCodec entries store1 = .ok (tree, sha, store2) ∧
      write_tree toyCodec unsortedWorktree [] = .ok (sha, store2) ∧
      tree.items.Pairwise (fun a b => strLt a.path b.path = true) :=
  write_tree_sorted toyCodec unsortedWorktree [] (by decide)

/-! ### Reference resolver (C7, C8) -/

/-- A name other than `HEAD` under which `gitdir` has nothing is returned as it is. -/
theorem object_find_absent (gd : GitDir) (fuel : Nat) (name fmt : List Byte) (follow : Bool)
    (hname : name ≠ nameHEAD) (habs : status gd name = .absent) :
    object_find gd (fuel + 1) name fmt follow = some (.ok name) := by
  rw [object_find, if_neg hname]
  simp only [habs]

theorem statusFails_component (gd : GitDir) : ∀ (rest walked : List Byte) (run : Nat),
    slash ∉ rest → NAME_MAX < run + rest.length → statusFails gd walked run rest = true := by
  intro rest
  induction rest with
  | nil =>
    intro walked run _ h
    simp only [statusFails, decide_eq_true_eq]
    simpa using h
  | cons b rest ih =>
    intro walked run hs h
    have hb : ¬ b = slash := fun e => hs (e ▸ List.mem_cons_self _ _)
    rw [statusFails, if_neg hb]
    refine ih _ _ (fun m => hs (List.mem_cons_of_mem _ m)) ?_
    simp only [List.length_cons] at h
    omega

/-- A name of one component (no `/`, no NUL) of more than `NAME_MAX` bytes: `fs::exists`
    throws `filesystem_error`, whatever the state. -/
theorem object_find_name_too_long (gd : GitDir) (fuel : Nat) (name fmt : List Byte)
    (follow : Bool) (hs : slash ∉ name) (hn : NUL ∉ name) (hl : NAME_MAX < name.length) :
    object_find gd (fuel + 1) name fmt follow = some (.error .filesystem_error) := by
  have hname : name ≠ nameHEAD := by
    intro e
    rw [e] at hl
    exact absurd hl (by decide)
  have htw : name.takeWhile (· ≠ NUL) = name := by
    rw [List.takeWhile_eq_self_iff]
    intro x hx
    simp only [ne_eq, decide_not, Bool.not_eq_eq_eq_not, Bool.not_true, decide_eq_false_iff_not]
    exact fun e => hn (e ▸ hx)
  have hst : status gd name = .statusError := by
    unfold status
    simp only [htw]
    rw [if_pos (Or.inr (statusFails_component gd name [] 0 hs (by omega)))]
  rw [object_find, if_neg hname]
  simp only [hst]

theorem object_find_decreasing (gd : GitDir) (follow : Bool) (fmt : List Byte)
    (P : List Byte → Prop) (rank : List Byte → Nat)
    (hstep : ∀ n n', P n → indirection gd n follow = some n' → P n' ∧ rank n' < rank n) :
    ∀ (fuel : Nat) (name : List Byte), P name → rank name < fuel →
      ∃ r, object_find gd fuel name fmt follow = some r ∧
        (r = .error .noHEAD ∨ r = .error .filesystem_error ∨ ∃ key, r = .ok key) := by
  intro fuel
  induction fuel with
  | zero => intro name _ h; omega
  | succ k ih =>
    intro name hP hr
    rw [object_find]
    by_cases hname : name = nameHEAD
    · rw [if_pos hname]
      have hind := hstep name
      simp only [indirection, if_pos hname] at hind
      cases hgd : gd nameHEAD with
      | absent => exact ⟨_, rfl, Or.inl rfl⟩
      | statusError => exact ⟨_, rfl, Or.inl rfl⟩
      | directory =>
        simp only [hgd] at hind ⊢
        by_cases hl : (firstLine FsEntry.directory).take 5 = refMark
        · rw [if_pos hl] at hind ⊢
          obtain ⟨hP', hlt⟩ := hind _ hP rfl
          exact ih _ hP' (by omega)
        · rw [if_neg hl]
          exact ⟨_, rfl, Or.inr (Or.inr ⟨_, rfl⟩)⟩
      | file content =>
        simp only [hgd] at hind ⊢
        by_cases hl : (firstLine (FsEntry.file content)).take 5 = refMark
        · rw [if_pos hl] at hind ⊢
          obtain ⟨hP', hlt⟩ := hind _ hP rfl
          exact ih _ hP' (by omega)
        · rw [if_neg hl]
          exact ⟨_, rfl, Or.inr (Or.inr ⟨_, rfl⟩)⟩
    · rw [if_neg hname]
      have hind := hstep name
      simp only [indirection, if_neg hname] at hind
      cases hgd : status gd name with
      | absent => exact ⟨_, rfl, Or.inr (Or.inr ⟨_, rfl⟩)⟩
      | statusError => exact ⟨_, rfl, Or.inr (Or.inl rfl)⟩
      | directory =>
        simp only [hgd] at hind ⊢
        cases follow with
        | false => exact ⟨_, rfl, Or.inr (Or.inr ⟨_, rfl⟩)⟩
        | true =>
          simp only [if_true] at hind ⊢
          obtain ⟨hP', hlt⟩ := hind _ hP rfl
          exact ih _ hP' (by omega)
      | file content =>
        simp only [hgd] at hind ⊢
        cases follow with
        | false => exact ⟨_, rfl, Or.inr (Or.inr ⟨_, rfl⟩)⟩
        | true =>
          simp only [if_true] at hind ⊢
          obtain ⟨hP', hlt⟩ := hind _ hP rfl
          exact ih _ hP' (by omega)

/-- C7, as amended. For every repository state and every name from which the chain of ref
    indirections is finite (some rank goes down at every indirection on the names the chain
    can reach), `object_find` terminates, within as many nested calls as the rank of the name
    plus one, and returns a key, or fails with `No HEAD`, or fails with the
    `filesystem_error` that `fs::exists` throws on a path without status (a name that is
    too long, for one). There is no depth cap and no `RefLoop` error. -/
theorem object_find_terminates (gd : GitDir) (follow : Bool) (fmt : List Byte)
    (P : List Byte → Prop) (rank : List Byte → Nat)
    (hstep : ∀ n n', P n → indirection gd n follow = some n' → P n' ∧ rank n' < rank n)
    (name : List Byte) (hP : P name) :
    ∃ r, object_find gd (rank name + 1) name fmt follow = some r ∧
      (r = .error .noHEAD ∨ r = .error .filesystem_error ∨ ∃ key, r = .ok key) :=
  object_find_decreasing gd follow fmt P rank hstep (rank name + 1) name hP (Nat.lt_succ_self _)

/-- C7, as amended, on the state where `HEAD` points to `refs/heads/master`, which holds a
    key. -/
theorem object_find_terminates_witness :
    ∃ r, object_find masterGitDir (masterRank nameHEAD + 1) nameHEAD fmtCommit true = some r ∧
      (r = .error .noHEAD ∨ r = .error .filesystem_error ∨ ∃ key, r = .ok key) :=
  object_find_terminates masterGitDir true fmtCommit
    (fun n => n = nameHEAD ∨ n = nameMaster ∨ n = onesKey) masterRank
    (by
      intro n n' hn hind
      rcases hn with hn | hn | hn
      · subst hn
        have h1 : indirection masterGitDir nameHEAD true = some nameMaster := by decide
        rw [h1] at hind
        cases hind
        exact ⟨Or.inr (Or.inl rfl), by decide⟩
      · subst hn
        have h1 : indirection masterGitDir nameMaster true = some onesKey := by decide
        rw [h1] at hind
        cases hind
        exact ⟨Or.inr (Or.inr rfl), by decide⟩
      · subst hn
        have h1 : indirection masterGitDir onesKey true = none := by decide
        rw [h1] at hind
        cases hind)
    nameHEAD (Or.inl rfl)

set_option maxRecDepth 100000 in
/-- On a name of 256 bytes `a`, in a repository fresh from `init`, `object_find` fails with
    `filesystem_error`. -/
theorem object_find_long_name :
    object_find initGitDir 1 longName fmtCommit true = some (.error .filesystem_error) ∧
      object_find initGitDir 1 longName fmtCommit false = some (.error .filesystem_error) :=
  ⟨object_find_name_too_long initGitDir 0 longName fmtCommit true (by decide) (by decide)
      (by decide),
    object_find_name_too_long initGitDir 0 longName fmtCommit false (by decide) (by decide)
      (by decide)⟩

theorem object_find_loop (fmt : List Byte) : ∀ fuel : Nat,
    object_find loopGitDir fuel nameLoop fmt true = none := by
  intro fuel
  induction fuel with
  | zero => rfl
  | succ k ih =>
    have h1 : nameLoop ≠ nameHEAD := by decide
    have h2 : status loopGitDir nameLoop = .file (nameLoop ++ [LF]) := by decide
    have h3 : firstLine (.file (nameLoop ++ [LF])) = nameLoop := by decide
    rw [object_find, if_neg h1]
    simp only [h2, h3, if_true]
    exact ih

/-- C7, as stated, fails: when the file `refs/heads/loop` holds the name `refs/heads/loop`,
    `object_find` on that name calls itself on the same name again and again; with no amount
    of fuel does it return a key or an error. -/
theorem object_find_unbounded :
    ¬ ∃ fuel, (object_find loopGitDir fuel nameLoop fmtCommit true).isSome = true := by
  rintro ⟨fuel, h⟩
  rw [object_find_loop] at h
  exact absurd h (by decide)

theorem object_find_gitdir_loop (fmt : List Byte) : ∀ fuel : Nat,
    object_find initGitDir fuel [] fmt true = none := by
  intro fuel
  induction fuel with
  | zero => rfl
  | succ k ih =>
    have h1 : ([] : List Byte) ≠ nameHEAD := by decide
    have h2 : status initGitDir [] = .directory := by decide
    rw [object_find, if_neg h1]
    simp only [h2, firstLine, if_true]
    exact ih

/-- C8: in a repository fresh from `init`, `refs` is a directory. `object_find` on the name
    `refs` does not return `refs`: `fs::exists` holds, the read of the directory yields the
    empty string, which is returned when `follow` is false; when `follow` is true
    `object_find` calls itself on the empty name, which is `gitdir` itself, a directory
    again, and never returns. -/
theorem object_find_directory :
    initGitDir nameRefs = .directory ∧ nameRefs ≠ nameHEAD ∧
      object_find initGitDir 1 nameRefs fmtCommit false = some (.ok []) ∧
      ¬ ∃ fuel, (object_find initGitDir fuel nameRefs fmtCommit true).isSome = true := by
  refine ⟨by decide, by decide, by decide, ?_⟩
  rintro ⟨fuel, h⟩
  cases fuel with
  | zero => exact absurd h (by decide)
  | succ k =>
    have h1 : nameRefs ≠ nameHEAD := by decide
    have h2 : status initGitDir nameRefs = .directory := by decide
    rw [object_find, if_neg h1] at h
    simp only [h2, firstLine, if_true] at h
    rw [object_find_gitdir_loop] at h
    exact absurd h (by decide)

/-! ### History (C6) -/

theorem toHex_not_LF (raw : List Byte) : LF ∉ toHex raw := by
  intro h
  have := toHex_lowerHex raw LF h
  revert this
  decide

theorem chainKey_not_LF (cd : Codec) : ∀ chain : List CommitRun, LF ∉ chainKey cd chain
  | [] => by simp [chainKey]
  | _ :: _ => toHex_not_LF _

theorem chainKey_cons_ne_nil (cd : Codec) (c : CommitRun) (older : List CommitRun) :
    chainKey cd (c :: older) ≠ [] := by
  intro h
  have := toHex_sha1_length cd (objectFrame fmtCommit
    (commitTreeObject c.tree (chainKey cd older) c.message c.now).serialize)
  unfold chainKey at h
  rw [h] at this
  simp at this

theorem to_string_int_not_LF (n : Int) : LF ∉ to_string_int n := by
  have h := allDigits_not_mem 10 _ (to_string_spec n.natAbs).1 LF (by decide)
  unfold to_string_int
  split
  · simp only [List.mem_cons, not_or]
    exact ⟨by decide, h⟩
  · exact h

theorem author_str_not_LF (now : Int) : LF ∉ author_str now := by
  unfold author_str
  simp only [List.mem_append, not_or]
  exact ⟨by decide, to_string_int_not_LF now, by decide⟩

/-- The run of `cmd_commit_tree` on the command line of a chain commit returns the key
    `chainKey` and stores the commit `commitTreeObject`. -/
theorem cmd_commit_tree_chainKey (cd : Codec) (c : CommitRun) (older : List CommitRun)
    (store : ObjectStore) :
    cmd_commit_tree cd (c.args (chainKey cd older)) c.now store
      = object_write cd (.commit (commitTreeObject c.tree (chainKey cd older) c.message c.now))
          true store ∧
    ∃ store1, cmd_commit_tree cd (c.args (chainKey cd older)) c.now store
      = .ok (chainKey cd (c :: older), store1) := by
  have hcmd : cmd_commit_tree cd (c.args (chainKey cd older)) c.now store
      = object_write cd (.commit (commitTreeObject c.tree (chainKey cd older) c.message c.now))
          true store := by
    unfold CommitRun.args
    by_cases hp : chainKey cd older = []
    · rw [if_pos hp, hp]
      simp [cmd_commit_tree, dashM, dashP]
    · rw [if_neg hp]
      simp [cmd_commit_tree, dashM, dashP]
  refine ⟨hcmd, ?_⟩
  rw [hcmd]
  exact ⟨_, rfl⟩

theorem firstValue_commitTreeObject (tree parent message : List Byte) (now : Int) :
    firstValue keyParent (commitTreeObject tree parent message now).kvlm = parent ∧
    firstValue keyAuthor (commitTreeObject tree parent message now).kvlm = author_str now ∧
    firstValue [] (commitTreeObject tree parent message now).kvlm = message ++ [LF] := by
  have h1 : keyTree ≠ keyParent := by decide
  have h2 : keyAuthor ≠ keyParent := by decide
  have h3 : keyCommitter ≠ keyParent := by decide
  have h4 : keyTree ≠ keyAuthor := by decide
  have h5 : keyParent ≠ keyAuthor := by decide
  have h6 : keyTree ≠ [] := by decide
  have h7 : keyParent ≠ [] := by decide
  have h8 : keyAuthor ≠ [] := by decide
  have h9 : keyCommitter ≠ [] := by decide
  have h10 : ([] : List Byte) ≠ keyParent := by decide
  have h11 : ([] : List Byte) ≠ keyAuthor := by decide
  unfold commitTreeObject
  by_cases hp : parent = []
  · subst hp
    simp [firstValue, h1, h2, h3, h4, h6, h8, h9, h10, h11]
  · simp [firstValue, hp, h1, h2, h3, h4, h5, h6, h7, h8, h9, h10, h11]

/-- The method `GitCommit::parse` reads back a commit built by `cmd_commit_tree` from a tree
    argument and a parent without LF. -/
theorem parse_commitTreeObject (tree parent message : List Byte) (now : Int) (fuel : Nat)
    (hfuel : 5 ≤ fuel) (htree : LF ∉ tree) (hparent : LF ∉ parent) :
    GitCommit.parse fuel (commitTreeObject tree parent message now).serialize
      = some (commitTreeObject tree parent message now) := by
  have hA := author_str_not_LF now
  have e : commitTreeObject tree parent message now
      = ⟨([(keyTree, tree)] ++ (if parent ≠ [] then [(keyParent, parent)] else []) ++
          [(keyAuthor, author_str now), (keyCommitter, author_str now)])
          ++ [([], message ++ [LF])]⟩ := by
    simp [commitTreeObject]
  rw [e]
  apply GitCommit.parse_serialize_headers
  · intro kv hkv
    simp only [List.mem_append, List.mem_cons, List.mem_singleton, List.not_mem_nil,
      or_false] at hkv
    rcases hkv with (hkv | hkv) | hkv | hkv
    · subst hkv
      exact ⟨show keyTree ≠ [] by decide, show SP ∉ keyTree by decide,
        show LF ∉ keyTree by decide, htree⟩
    · split at hkv
      · simp only [List.mem_singleton] at hkv
        subst hkv
        exact ⟨show keyParent ≠ [] by decide, show SP ∉ keyParent by decide,
        show LF ∉ keyParent by decide, hparent⟩
      · simp at hkv
    · subst hkv
      exact ⟨show keyAuthor ≠ [] by decide, show SP ∉ keyAuthor by decide,
        show LF ∉ keyAuthor by decide, hA⟩
    · subst hkv
      exact ⟨show keyCommitter ≠ [] by decide, show SP ∉ keyCommitter by decide,
        show LF ∉ keyCommitter by decide, hA⟩
  · simp only [List.length_append, List.length_cons, List.length_nil]
    split <;> simp <;> omega

theorem cmd_log_loop_chain (cd : Codec) (store : ObjectStore) (parseFuel : Nat)
    (hpf : 5 ≤ parseFuel) : ∀ (chain : List CommitRun) (fuel : Nat) (printed : List LogEntry),
    (∀ c ∈ chain, LF ∉ c.tree) → chainStored cd store chain → chain.length < fuel →
    cmd_log_loop cd store parseFuel fuel (chainKey cd chain) printed
      = some (.ok (printed ++ chainLog cd chain)) := by
  intro chain
  induction chain with
  | nil =>
    intro fuel printed _ _ hf
    cases fuel with
    | zero => omega
    | succ k => simp [cmd_log_loop, chainKey, chainLog]
  | cons c older ih =>
    intro fuel printed htree hstored hf
    cases fuel with
    | zero => omega
    | succ k =>
      obtain ⟨hread, hrest⟩ := hstored
      obtain ⟨hP, hA, hM⟩ :=
        firstValue_commitTreeObject c.tree (chainKey cd older) c.message c.now
      rw [cmd_log_loop, if_neg (chainKey_cons_ne_nil cd c older), hread]
      simp only [ne_eq, not_true_eq_false, if_false]
      rw [parse_commitTreeObject c.tree (chainKey cd older) c.message c.now parseFuel hpf
        (htree c (by simp)) (chainKey_not_LF cd older)]
      simp only [hP, hA, hM]
      rw [ih k _ (fun x hx => htree x (by simp [hx])) hrest
        (by simp only [List.length_cons] at hf; omega)]
      simp [chainLog]

theorem commitTreeObject_parent_inj (t1 p1 m1 t2 p2 m2 : List Byte) (n1 n2 : Int)
    (h : commitTreeObject t1 p1 m1 n1 = commitTreeObject t2 p2 m2 n2) : p1 = p2 := by
  have h1 := (firstValue_commitTreeObject t1 p1 m1 n1).1
  have h2 := (firstValue_commitTreeObject t2 p2 m2 n2).1
  rw [h] at h1
  rw [← h1, h2]

/-- In a stored chain the key of the tip is the key of no older commit of the chain. -/
theorem chainKey_ne_of_stored (cd : Codec) (store : ObjectStore) :
    ∀ (n : Nat) (chain : List CommitRun) (c : CommitRun) (pre older : List CommitRun),
    chain.length = n → chain = c :: (pre ++ older) →
    (∀ x ∈ chain, LF ∉ x.tree) → chainStored cd store chain →
    chainKey cd chain ≠ chainKey cd older := by
  intro n
  induction n with
  | zero => intro chain c pre older hl he; rw [he] at hl; simp at hl
  | succ k ih =>
    intro chain c pre older hl he htree hstored heq
    subst he
    cases older with
    | nil => exact chainKey_cons_ne_nil cd c _ heq
    | cons c' older' =>
      have hst_tail : ∀ (l1 l2 : List CommitRun), chainStored cd store (l1 ++ l2) →
          chainStored cd store l2 := by
        intro l1
        induction l1 with
        | nil => intro l2 h; exact h
        | cons x xs ihx => intro l2 h; exact ihx l2 h.2
      have hread1 := hstored.1
      have hread2 := (hst_tail (c :: pre) (c' :: older') hstored).1
      rw [heq, hread2] at hread1
      have hpay := (Prod.mk.inj (Except.ok.inj hread1)).2
      have hparse1 := parse_commitTreeObject c'.tree (chainKey cd older') c'.message c'.now 5
        (Nat.le_refl _) (htree c' (by simp)) (chainKey_not_LF cd older')
      have hparse2 := parse_commitTreeObject c.tree (chainKey cd (pre ++ c' :: older'))
        c.message c.now 5 (Nat.le_refl _) (htree c (by simp)) (chainKey_not_LF cd _)
      rw [hpay, hparse2] at hparse1
      have hpar := commitTreeObject_parent_inj _ _ _ _ _ _ _ _ (Option.some.inj hparse1)
      cases pre with
      | nil =>
        simp only [List.nil_append] at hpar
        exact ih (c' :: older') c' [] older' (by simp at hl ⊢; omega) rfl
          (fun x hx => htree x (by simp at hx ⊢; exact Or.inr hx)) hstored.2 hpar
      | cons p ps =>
        exact ih (p :: (ps ++ c' :: older')) p (ps ++ [c']) older' (by simp at hl ⊢; omega)
          (by simp) (fun x hx => htree x (by simp at hx ⊢; exact Or.inr hx)) hstored.2 hpar

theorem chainStored_suffix (cd : Codec) (store : ObjectStore) :
    ∀ (l1 l2 : List CommitRun), chainStored cd store (l1 ++ l2) → chainStored cd store l2 := by
  intro l1
  induction l1 with
  | nil => intro l2 h; exact h
  | cons x xs ih => intro l2 h; exact ih l2 h.2

theorem mem_chainLog_sha (cd : Codec) : ∀ (chain : List CommitRun) (x : List Byte),
    x ∈ (chainLog cd chain).map (·.sha) →
    ∃ pre c older, chain = pre ++ c :: older ∧ x = chainKey cd (c :: older) := by
  intro chain
  induction chain with
  | nil => intro x h; simp [chainLog] at h
  | cons c older ih =>
    intro x h
    simp only [chainLog, List.map_cons, List.mem_cons] at h
    rcases h with h | h
    · exact ⟨[], c, older, rfl, h⟩
    · obtain ⟨pre, c', older', he, hx⟩ := ih x h
      exact ⟨c :: pre, c', older', by rw [he]; rfl, hx⟩

theorem chainLog_nodup (cd : Codec) (store : ObjectStore) : ∀ (chain : List CommitRun),
    (∀ c ∈ chain, LF ∉ c.tree) → chainStored cd store chain →
    ((chainLog cd chain).map (·.sha)).Nodup := by
  intro chain
  induction chain with
  | nil => intro _ _; simp [chainLog]
  | cons c older ih =>
    intro htree hstored
    simp only [chainLog, List.map_cons, List.nodup_cons]
    refine ⟨?_, ih (fun x hx => htree x (by simp [hx])) hstored.2⟩
    intro hmem
    obtain ⟨pre, c', older', he, hx⟩ := mem_chainLog_sha cd older _ hmem
    exact chainKey_ne_of_stored cd store (c :: older).length (c :: older) c pre (c' :: older')
      rfl (by rw [he]) htree hstored hx

theorem chainLog_length (cd : Codec) : ∀ chain : List CommitRun,
    (chainLog cd chain).length = chain.length
  | [] => rfl
  | _ :: older => by simp [chainLog, chainLog_length cd older]

/-- C6, as amended. For every chain of commits built by `commit-tree` (`chainKey`: the first
    without a parent, each later one with `-p` and the key of the one before) with tree
    arguments that hold no LF, and stored in the object store, the walk of `cmd_log` started
    at the key of the tip terminates, within one turn per commit and one more, and prints
    exactly the commits of the chain from the tip to the first, each once: as many entries
    as commits, with keys that are all different. -/
theorem cmd_log_walk (cd : Codec) (store : ObjectStore) (chain : List CommitRun)
    (fuel parseFuel : Nat) (htree : ∀ c ∈ chain, LF ∉ c.tree)
    (hstored : chainStored cd store chain) (hfuel : chain.length < fuel)
    (hpf : 5 ≤ parseFuel) :
    cmd_log_loop cd store parseFuel fuel (chainKey cd chain) []
        = some (.ok (chainLog cd chain)) ∧
      (chainLog cd chain).length = chain.length ∧
      ((chainLog cd chain).map (·.sha)).Nodup := by
  refine ⟨?_, chainLog_length cd chain, chainLog_nodup cd store chain htree hstored⟩
  have := cmd_log_loop_chain cd store parseFuel hpf chain fuel [] htree hstored hfuel
  simpa using this

set_option maxRecDepth 100000 in
/-- C6, as amended, on two runs of `commit-tree` with the toy codec: the second with `-p`
    and the key of the first. -/
theorem cmd_log_walk_witness :
    cmd_log_loop toyCodec twoRunsStore 5 3 (chainKey toyCodec twoRuns) []
        = some (.ok (chainLog toyCodec twoRuns)) ∧
      (chainLog toyCodec twoRuns).length = twoRuns.length ∧
      ((chainLog toyCodec twoRuns).map (·.sha)).Nodup :=
  cmd_log_walk toyCodec twoRunsStore twoRuns 3 5 (by decide)
    ⟨by decide, by decide, trivial⟩ (by decide) (by decide)

set_option maxRecDepth 100000 in
/-- C6, as stated, fails: a chain of one commit, built by `commit-tree` without `-p` and
    stored, whose tree argument is `t`, LF, `parent ` and the key of an older commit that
    is stored too. `cmd_commit_tree` takes the argument as it is and `GitCommit::serialize`
    writes it as it is, so the payload has a line `parent`; the walk of `cmd_log` prints
    the commit and then the older commit, which is not in the chain. -/
theorem cmd_log_walk_forged_parent :
    forgedSetup.1 = chainKey toyCodec [forgedRun] ∧
      chainStored toyCodec forgedSetup.2 [forgedRun] ∧
      cmd_log_loop toyCodec forgedSetup.2 6 3 (chainKey toyCodec [forgedRun]) []
        = some (.ok (chainLog toyCodec [forgedRun] ++ chainLog toyCodec [baseRun])) ∧
      cmd_log_loop toyCodec forgedSetup.2 6 3 (chainKey toyCodec [forgedRun]) []
        ≠ some (.ok (chainLog toyCodec [forgedRun])) := by
  refine ⟨by decide, ⟨by decide, trivial⟩, by decide, by decide⟩

/-! ### Snapshot and restore (C4) -/

theorem hexKey_wellFormed (mode : Nat) (path raw : List Byte) (hm : mode < 4294967296)
    (hp : NUL ∉ path) (hr : raw.length = 20) :
    (GitTreeLeaf.mk mode path (toHex raw)).wellFormed :=
  ⟨hm, hp, by rw [toHex_length, hr], toHex_lowerHex raw⟩

/-- C4: the working tree with the one file `a` of 2^31 zero bytes. `write_tree` stores the
    blob and the tree and returns the key of the tree; `read_tree` on that key into an empty
    directory does not restore the file: reading the blob back throws (`out_of_range` from
    `std::stoi` on the size field `2147483648`; `Not a blob object` should the two keys
    share a path). -/
theorem read_tree_write_tree_large (cd : Codec) (store : ObjectStore) :
    ∃ sha store1, write_tree cd largeWorktree store = .ok (sha, store1) ∧
      ∀ fuel, read_tree cd store1 (fuel + 1) sha .nil = some (.error .out_of_range) ∨
        read_tree cd store1 (fuel + 1) sha .nil = some (.error .notABlob) := by
  have hlen : largeBlob.length = 2147483648 := List.length_replicate _ _
  have hskip : skipped [97] = false := by decide
  have hoct : toOctal modeFile = [49, 48, 48, 54, 52, 52] := by decide
  -- the blob
  generalize hfb : objectFrame fmtBlob largeBlob = frameB
  have hsplitB : splitFrame frameB = .error .out_of_range := by
    rw [← hfb, splitFrame_objectFrame fmtBlob largeBlob (by decide), hlen]
    rfl
  generalize hrb : cd.sha1 frameB = rawB
  have hrawB : rawB.length = 20 := by rw [← hrb]; exact cd.sha1_length _
  -- the tree
  have hpayload : GitTree.serialize ⟨[⟨modeFile, [97], toHex rawB⟩]⟩
      = .ok ([49, 48, 48, 54, 52, 52, 32, 97, 0] ++ rawB) := by
    simp [GitTree.serialize, GitTree.serializeLoop, shaToBinary_toHex, hoct, SP, NUL]
  generalize hpl : ([49, 48, 48, 54, 52, 52, 32, 97, 0] : List Byte) ++ rawB = payload at hpayload
  have hpllen : payload.length = 29 := by rw [← hpl]; simp [hrawB]
  have hparse : GitTree.parse payload = some (.ok ⟨[⟨modeFile, [97], toHex rawB⟩]⟩) := by
    obtain ⟨w, hser, _, hp⟩ := GitTree.roundtrip_aux [⟨modeFile, [97], toHex rawB⟩]
      (by
        intro leaf hl
        simp only [List.mem_singleton] at hl
        subst hl
        exact hexKey_wellFormed modeFile [97] rawB (by decide) (by decide) hrawB)
    have hw : GitTree.serialize ⟨[⟨modeFile, [97], toHex rawB⟩]⟩ = .ok w := by
      have := hser []
      simpa [GitTree.serialize] using this
    rw [hpayload] at hw
    cases hw
    unfold GitTree.parse
    rw [hp _ [] (by simp [hpllen])]
    simp
  have hsplitT : splitFrame (objectFrame fmtTree payload) = .ok (fmtTree, payload) := by
    rw [splitFrame_objectFrame fmtTree payload (by decide), if_pos (by omega)]
  generalize hft : objectFrame fmtTree payload = frameT at hsplitT
  refine ⟨toHex (cd.sha1 frameT),
    (objectPath (toHex (cd.sha1 frameT)), cd.deflate frameT) ::
      (objectPath (toHex rawB), cd.deflate frameB) :: store, ?_, ?_⟩
  · simp only [write_tree, largeWorktree, write_tree_loop, hskip, Bool.false_eq_true, if_false,
      object_hash, object_write, GitObject.serialize, GitObject.fmt, if_true, hfb, hrb,
      write_tree_object, sortEntries, insertLeaf, hpayload, hft]
  · intro fuel
    have hk1 : 2 ≤ (toHex (cd.sha1 frameT)).length := by rw [toHex_sha1_length]; omega
    have hk2 : ¬ (toHex rawB).length < 2 := by rw [toHex_length, hrawB]; omega
    have hmode : ¬ (modeFile = modeDir) := by decide
    have hfmt : fmtTree ≠ fmtBlob := by decide
    rw [read_tree, read_head cd _ _ _ hk1, hsplitT]
    simp only [ne_eq, not_true_eq_false, if_false, hparse, read_tree_loop, hmode]
    unfold read_object_fmt_and_data
    rw [if_neg hk2]
    by_cases hcoll : objectPath (toHex (cd.sha1 frameT)) = objectPath (toHex rawB)
    · right
      simp [ObjectStore.read, hcoll, cd.inflate_deflate, hsplitT, hfmt]
    · left
      simp [ObjectStore.read, hcoll, cd.inflate_deflate, hsplitB]

/-! ### Snapshot and restore below 2 GiB -/

theorem snapshotEntries_hex (cd : Codec) : ∀ (w : DirListing),
    ∀ leaf ∈ snapshotEntries cd w, ∃ raw, leaf.sha = toHex raw ∧ raw.length = 20 := by
  intro w
  induction w with
  | nil => intro leaf h; simp [snapshotEntries] at h
  | file n c rest ih =>
    intro leaf h
    unfold snapshotEntries at h
    split at h
    · exact ih leaf h
    · simp only [List.mem_cons] at h
      rcases h with h | h
      · exact ⟨_, by rw [h]; rfl, cd.sha1_length _⟩
      · exact ih leaf h
  | dir n sub rest _ ih =>
    intro leaf h
    unfold snapshotEntries at h
    split at h
    · exact ih leaf h
    · simp only [List.mem_cons] at h
      rcases h with h | h
      · exact ⟨_, by rw [h]; rfl, cd.sha1_length _⟩
      · exact ih leaf h
  | other n rest ih =>
    intro leaf h
    unfold snapshotEntries at h
    exact ih leaf h

theorem serialize_treePayload (entries : List GitTreeLeaf)
    (h : ∀ leaf ∈ entries, ∃ raw, leaf.sha = toHex raw) :
    GitTree.serialize ⟨sortEntries entries⟩ = .ok (treePayload entries) := by
  obtain ⟨w, hw⟩ := serializeLoop_ok (sortEntries entries)
    (fun l hl => h l ((sortEntries_perm entries).mem_iff.mp hl))
  have hs : GitTree.serialize ⟨sortEntries entries⟩ = .ok w := by
    have := hw []
    simpa [GitTree.serialize] using this
  unfold treePayload
  rw [hs]

theorem write_tree_object_eq (cd : Codec) (entries : List GitTreeLeaf) (store : ObjectStore)
    (h : ∀ leaf ∈ entries, ∃ raw, leaf.sha = toHex raw) :
    write_tree_object cd entries store
      = .ok (⟨sortEntries entries⟩, treeKey cd entries, treeWrite cd entries :: store) := by
  unfold write_tree_object object_write
  simp only [GitObject.serialize, serialize_treePayload entries h, if_true, GitObject.fmt]
  rfl

/-- The loop of `write_tree` returns the entries `snapshotEntries` and adds the writes
    `snapshotWrites` to the store. -/
theorem write_tree_loop_eq (cd : Codec) : ∀ (w : DirListing) (store : ObjectStore),
    write_tree_loop cd w store = .ok (snapshotEntries cd w, snapshotWrites cd w ++ store) := by
  intro w
  induction w with
  | nil => intro store; rfl
  | file n c rest ih =>
    intro store
    unfold write_tree_loop snapshotEntries snapshotWrites
    by_cases hs : skipped n = true
    · simp only [hs, if_true]
      exact ih store
    · simp only [hs, Bool.false_eq_true, if_false, object_hash, object_write,
        GitObject.serialize, GitObject.fmt, if_true, ih]
      simp [blobKey]
  | dir n sub rest ihsub ihrest =>
    intro store
    unfold write_tree_loop snapshotEntries snapshotWrites
    by_cases hs : skipped n = true
    · simp only [hs, if_true]
      exact ihrest store
    · simp only [hs, Bool.false_eq_true, if_false, ihsub,
        write_tree_object_eq cd _ _ (fun l hl =>
          (snapshotEntries_hex cd sub l hl).imp (fun _ h => h.1)), ihrest]
      simp
  | other n rest ih =>
    intro store
    unfold write_tree_loop snapshotEntries snapshotWrites
    exact ih store

/-- The function `write_tree` returns the key `treeKey` of the entries of the listing, and
    adds the writes of the loop, then the write of the tree, to the store. -/
theorem write_tree_eq (cd : Codec) (w : DirListing) (store : ObjectStore) :
    write_tree cd w store
      = .ok (treeKey cd (snapshotEntries cd w),
          treeWrite cd (snapshotEntries cd w) :: (snapshotWrites cd w ++ store)) := by
  unfold write_tree
  simp only [write_tree_loop_eq, write_tree_object_eq cd _ _ (fun l hl =>
    (snapshotEntries_hex cd w l hl).imp (fun _ h => h.1))]

theorem child_eq_none (n : List Byte) : ∀ base : DirListing, n ∉ base.names →
    base.child n = none := by
  intro base
  induction base with
  | nil => intro _; rfl
  | file m c rest ih =>
    intro h
    simp only [DirListing.names, List.mem_cons, not_or] at h
    have hk : ¬ _ = n := fun e => h.1 e.symm
    simp only [DirListing.child, if_neg hk]
    exact ih h.2
  | dir m sub rest _ ih =>
    intro h
    simp only [DirListing.names, List.mem_cons, not_or] at h
    have hk : ¬ _ = n := fun e => h.1 e.symm
    simp only [DirListing.child, if_neg hk]
    exact ih h.2
  | other m rest ih =>
    intro h
    simp only [DirListing.names, List.mem_cons, not_or] at h
    have hk : ¬ _ = n := fun e => h.1 e.symm
    simp only [DirListing.child, if_neg hk]
    exact ih h.2

/-- Writing a file under a name that the directory does not have adds it behind the other
    children and leaves these as they are. -/
theorem writeFile_new (n c : List Byte) : ∀ base : DirListing, n ∉ base.names →
    ∃ base1, base.writeFile n c = some base1 ∧ base1.names = base.names ++ [n] ∧
      base1.child n = some (.file c) ∧ ∀ m, m ≠ n → base1.child m = base.child m := by
  intro base
  induction base with
  | nil =>
    intro _
    refine ⟨.file n c .nil, rfl, rfl, by simp [DirListing.child], ?_⟩
    intro m hm
    simp [DirListing.child, Ne.symm hm]
  | file k d rest ih =>
    intro h
    simp only [DirListing.names, List.mem_cons, not_or] at h
    have hk : ¬ _ = n := fun e => h.1 e.symm
    obtain ⟨b1, h1, h2, h3, h4⟩ := ih h.2
    refine ⟨.file k d b1, ?_, ?_, ?_, ?_⟩
    · simp only [DirListing.writeFile, if_neg hk, h1, Option.map_some']
    · simp [DirListing.names, h2]
    · simp only [DirListing.child, if_neg hk, h3]
    · intro m hm
      simp only [DirListing.child, h4 m hm]
  | dir k sub rest _ ih =>
    intro h
    simp only [DirListing.names, List.mem_cons, not_or] at h
    have hk : ¬ _ = n := fun e => h.1 e.symm
    obtain ⟨b1, h1, h2, h3, h4⟩ := ih h.2
    refine ⟨.dir k sub b1, ?_, ?_, ?_, ?_⟩
    · simp only [DirListing.writeFile, if_neg hk, h1, Option.map_some']
    · simp [DirListing.names, h2]
    · simp only [DirListing.child, if_neg hk, h3]
    · intro m hm
      simp only [DirListing.child, h4 m hm]
  | other k rest ih =>
    intro h
    simp only [DirListing.names, List.mem_cons, not_or] at h
    have hk : ¬ _ = n := fun e => h.1 e.symm
    obtain ⟨b1, h1, h2, h3, h4⟩ := ih h.2
    refine ⟨.other k b1, ?_, ?_, ?_, ?_⟩
    · simp only [DirListing.writeFile, if_neg hk, h1, Option.map_some']
    · simp [DirListing.names, h2]
    · simp only [DirListing.child, if_neg hk, h3]
    · intro m hm
      simp only [DirListing.child, h4 m hm]

/-- Creating a directory under a name that the directory does not have adds it behind the
    other children and leaves these as they are. -/
theorem setDir_new (n : List Byte) (sub : DirListing) : ∀ base : DirListing, n ∉ base.names →
    (DirListing.setDir n sub base).names = base.names ++ [n] ∧
      (DirListing.setDir n sub base).child n = some (.dir sub) ∧
      ∀ m, m ≠ n → (DirListing.setDir n sub base).child m = base.child m := by
  intro base
  induction base with
  | nil =>
    intro _
    refine ⟨rfl, by simp [DirListing.setDir, DirListing.child], ?_⟩
    intro m hm
    simp [DirListing.setDir, DirListing.child, Ne.symm hm]
  | file k d rest ih =>
    intro h
    simp only [DirListing.names, List.mem_cons, not_or] at h
    have hk : ¬ _ = n := fun e => h.1 e.symm
    obtain ⟨h2, h3, h4⟩ := ih h.2
    refine ⟨?_, ?_, ?_⟩
    · simp [DirListing.setDir, DirListing.names, h2]
    · simp only [DirListing.setDir, DirListing.child, if_neg hk, h3]
    · intro m hm
      simp only [DirListing.setDir, DirListing.child, h4 m hm]
  | dir k s rest _ ih =>
    intro h
    simp only [DirListing.names, List.mem_cons, not_or] at h
    have hk : ¬ _ = n := fun e => h.1 e.symm
    obtain ⟨h2, h3, h4⟩ := ih h.2
    refine ⟨?_, ?_, ?_⟩
    · simp [DirListing.setDir, DirListing.names, if_neg hk, h2]
    · simp only [DirListing.setDir, if_neg hk, DirListing.child, h3]
    · intro m hm
      simp only [DirListing.setDir, if_neg hk, DirListing.child, h4 m hm]
  | other k rest ih =>
    intro h
    simp only [DirListing.names, List.mem_cons, not_or] at h
    have hk : ¬ _ = n := fun e => h.1 e.symm
    obtain ⟨h2, h3, h4⟩ := ih h.2
    refine ⟨?_, ?_, ?_⟩
    · simp [DirListing.setDir, DirListing.names, h2]
    · simp only [DirListing.setDir, DirListing.child, if_neg hk, h3]
    · intro m hm
      simp only [DirListing.setDir, DirListing.child, h4 m hm]

/-- The loop of `read_tree` over leaves whose names are all different and not in the
    directory yet: it ends, and has added each leaf under its name, in the order of the
    leaves, behind the children that were there. -/
theorem read_tree_loop_new (cd : Codec) (store : ObjectStore)
    (recur : List Byte → DirListing → Option (Except GitError DirListing)) :
    ∀ (ln : List (GitTreeLeaf × FsNode)) (base : DirListing),
    (∀ p ∈ ln, restoresTo cd store recur p.1 p.2) →
    (ln.map (·.1.path)).Nodup → (∀ p ∈ ln, p.1.path ∉ base.names) →
    ∃ r, read_tree_loop cd store recur (ln.map (·.1)) base = some (.ok r) ∧
      r.names = base.names ++ ln.map (·.1.path) ∧
      (∀ m, m ∉ ln.map (·.1.path) → r.child m = base.child m) ∧
      ∀ p ∈ ln, r.child p.1.path = some p.2 := by
  intro ln
  induction ln with
  | nil =>
    intro base _ _ _
    exact ⟨base, rfl, by simp, fun _ _ => rfl, by simp⟩
  | cons p rest ih =>
    intro base hgood hnd hnew
    have hp := hgood p (by simp)
    have hpnew : p.1.path ∉ base.names := hnew p (by simp)
    simp only [List.map_cons, List.nodup_cons] at hnd
    obtain ⟨hpnot, hndrest⟩ := hnd
    have step : ∀ base1 : DirListing, base1.names = base.names ++ [p.1.path] →
        base1.child p.1.path = some p.2 →
        (∀ m, m ≠ p.1.path → base1.child m = base.child m) →
        ∃ r, read_tree_loop cd store recur (rest.map (·.1)) base1 = some (.ok r) ∧
          r.names = base.names ++ (p :: rest).map (·.1.path) ∧
          (∀ m, m ∉ (p :: rest).map (·.1.path) → r.child m = base.child m) ∧
          ∀ q ∈ p :: rest, r.child q.1.path = some q.2 := by
      intro base1 hn1 hc1 ho1
      obtain ⟨r, hr, hrn, hro, hrc⟩ := ih base1 (fun q hq => hgood q (by simp [hq])) hndrest
        (by
          intro q hq
          rw [hn1]
          simp only [List.mem_append, List.mem_singleton, not_or]
          refine ⟨hnew q (by simp [hq]), ?_⟩
          intro e
          exact hpnot (by rw [← e]; exact List.mem_map_of_mem (·.1.path) hq))
      refine ⟨r, hr, ?_, ?_, ?_⟩
      · rw [hrn, hn1]; simp
      · intro m hm
        simp only [List.map_cons, List.mem_cons, not_or] at hm
        rw [hro m hm.2, ho1 m hm.1]
      · intro q hq
        simp only [List.mem_cons] at hq
        rcases hq with hq | hq
        · subst hq
          rw [hro _ hpnot, hc1]
        · exact hrc q hq
    rcases hp with ⟨hmode, r0, hrec, hnode⟩ | ⟨hmode, c, hread, hnode⟩
    · obtain ⟨h1, h2, h3⟩ := setDir_new p.1.path r0 base hpnew
      obtain ⟨r, hr, rest3⟩ := step (DirListing.setDir p.1.path r0 base) h1
        (by rw [h2, hnode]) h3
      refine ⟨r, ?_, rest3⟩
      simp only [List.map_cons, read_tree_loop, if_pos hmode, child_eq_none _ base hpnew, hrec]
      exact hr
    · obtain ⟨b1, h0, h1, h2, h3⟩ := writeFile_new p.1.path c base hpnew
      obtain ⟨r, hr, rest3⟩ := step b1 h1 (by rw [h2, hnode]) h3
      refine ⟨r, ?_, rest3⟩
      simp only [List.map_cons, read_tree_loop, if_neg hmode, hread, ne_eq, not_true_eq_false,
        if_false, h0]
      exact hr

theorem insertLeaf_pairs (p : GitTreeLeaf × FsNode) : ∀ ln : List (GitTreeLeaf × FsNode),
    ∃ ln1 : List (GitTreeLeaf × FsNode),
      ln1.map (·.1) = insertLeaf p.1 (ln.map (·.1)) ∧ ln1.Perm (p :: ln) := by
  intro ln
  induction ln with
  | nil => exact ⟨[p], rfl, List.Perm.refl _⟩
  | cons q rest ih =>
    obtain ⟨l1, h1, h2⟩ := ih
    simp only [List.map_cons, insertLeaf]
    by_cases hlt : strLt p.1.path q.1.path = true
    · rw [if_pos hlt]
      exact ⟨p :: q :: rest, rfl, List.Perm.refl _⟩
    · rw [if_neg hlt]
      refine ⟨q :: l1, by simp [h1], ?_⟩
      exact (List.Perm.cons q h2).trans (List.Perm.swap p q rest)

/-- The leaves sorted by `std::sort` keep what goes with them. -/
theorem sortEntries_pairs : ∀ ln : List (GitTreeLeaf × FsNode),
    ∃ ln1 : List (GitTreeLeaf × FsNode),
      ln1.map (·.1) = sortEntries (ln.map (·.1)) ∧ ln1.Perm ln := by
  intro ln
  induction ln with
  | nil => exact ⟨[], rfl, List.Perm.refl _⟩
  | cons p rest ih =>
    obtain ⟨l1, h1, h2⟩ := ih
    obtain ⟨l2, h3, h4⟩ := insertLeaf_pairs p l1
    refine ⟨l2, ?_, h4.trans (List.Perm.cons p h2)⟩
    simp only [List.map_cons, sortEntries]
    rw [h3, h1]

/-- The payload `write_tree` writes for entries with names without NUL is read back by
    `GitTree::parse` as the sorted entries. -/
theorem parse_treePayload (entries : List GitTreeLeaf)
    (h : ∀ leaf ∈ entries, leaf.wellFormed) :
    GitTree.parse (treePayload entries) = some (.ok ⟨sortEntries entries⟩) := by
  obtain ⟨w, hser, hle, hp⟩ := GitTree.roundtrip_aux (sortEntries entries)
    (fun l hl => h l ((sortEntries_perm entries).mem_iff.mp hl))
  have hs : GitTree.serialize ⟨sortEntries entries⟩ = .ok w := by
    have := hser []
    simpa [GitTree.serialize] using this
  have hw : treePayload entries = w := by
    unfold treePayload
    rw [hs]
  rw [hw]
  unfold GitTree.parse
  rw [hp _ [] (by omega)]
  simp

/-- Reading a key under whose path the store holds the deflated frame of a payload of at
    most `INT_MAX` bytes yields the kind and the payload. -/
theorem read_of_stored (cd : Codec) (store : ObjectStore) (fmt data : List Byte)
    (hfmt : SP ∉ fmt) (hlen : data.length ≤ 2147483647)
    (hst : store.read (objectPath (toHex (cd.sha1 (objectFrame fmt data))))
      = some (cd.deflate (objectFrame fmt data))) :
    read_object_fmt_and_data cd store (toHex (cd.sha1 (objectFrame fmt data)))
      = .ok (fmt, data) := by
  unfold read_object_fmt_and_data
  rw [if_neg (by rw [toHex_sha1_length]; omega), hst]
  simp only [cd.inflate_deflate, splitFrame_objectFrame fmt data hfmt, if_pos hlen]

theorem uniqueNames_nodup : ∀ w : DirListing, w.uniqueNames → w.names.Nodup := by
  intro w
  induction w with
  | nil => intro _; simp [DirListing.names]
  | file n c rest ih =>
    intro h
    exact List.nodup_cons.mpr ⟨h.1, ih h.2⟩
  | dir n sub rest _ ih =>
    intro h
    exact List.nodup_cons.mpr ⟨h.1, ih h.2.2⟩
  | other n rest ih =>
    intro h
    exact List.nodup_cons.mpr ⟨h.1, ih h.2⟩

/-- The entries of a working tree, each with the node `read_tree` makes of it, given that
    `read_tree` with the fuel `k` restores every subdirectory of depth below `k`. -/
theorem snapshotEntries_restore (cd : Codec) (store : ObjectStore) (k : Nat)
    (ihk : ∀ sub : DirListing, sub.depth + 1 ≤ k → sub.plain → sub.uniqueNames →
      sub.fitsInt cd → (treePayload (snapshotEntries cd sub)).length ≤ 2147483647 →
      (∀ e ∈ treeWrite cd (snapshotEntries cd sub) :: snapshotWrites cd sub,
        store.read e.1 = some e.2) →
      ∃ r, read_tree cd store k (treeKey cd (snapshotEntries cd sub)) .nil = some (.ok r) ∧
        r.names.Perm sub.names ∧ sameTree sub r) :
    ∀ w : DirListing, w.plain → w.uniqueNames → w.fitsInt cd →
      (∀ e ∈ snapshotWrites cd w, store.read e.1 = some e.2) → w.depth ≤ k →
      ∃ ln : List (GitTreeLeaf × FsNode),
        ln.map (·.1) = snapshotEntries cd w ∧
        (∀ p ∈ ln, restoresTo cd store (read_tree cd store k) p.1 p.2) ∧
        (∀ r : DirListing, (∀ p ∈ ln, r.child p.1.path = some p.2) → sameTree w r) ∧
        ln.map (·.1.path) = w.names ∧
        ∀ p ∈ ln, p.1.wellFormed := by
  intro w
  induction w with
  | nil =>
    intro _ _ _ _ _
    exact ⟨[], rfl, by simp, fun _ _ => trivial, rfl, by simp⟩
  | file n c rest ih =>
    intro hplain huniq hfits hread hdepth
    obtain ⟨hnul, hskip, hprest⟩ := hplain
    have hw : snapshotWrites cd (.file n c rest)
        = snapshotWrites cd rest
          ++ [(objectPath (blobKey cd c), cd.deflate (objectFrame fmtBlob c))] := by
      simp [snapshotWrites, hskip]
    obtain ⟨ln, h1, h2, h3, h4, h5⟩ := ih hprest huniq.2 hfits.2
      (fun e he => hread e (by rw [hw]; simp [he])) hdepth
    refine ⟨(⟨modeFile, n, blobKey cd c⟩, .file c) :: ln, ?_, ?_, ?_, ?_, ?_⟩
    · simp [snapshotEntries, hskip, h1]
    · intro p hp
      simp only [List.mem_cons] at hp
      rcases hp with hp | hp
      · subst hp
        right
        refine ⟨show modeFile ≠ modeDir by decide, c, ?_, rfl⟩
        exact read_of_stored cd store fmtBlob c (by decide) hfits.1
          (hread (objectPath (blobKey cd c), cd.deflate (objectFrame fmtBlob c))
            (by rw [hw]; simp))
      · exact h2 p hp
    · intro r hr
      exact ⟨hr _ (List.mem_cons_self _ _), h3 r (fun p hp => hr p (List.mem_cons_of_mem _ hp))⟩
    · simp [DirListing.names, h4]
    · intro p hp
      simp only [List.mem_cons] at hp
      rcases hp with hp | hp
      · subst hp
        exact hexKey_wellFormed modeFile n _ (by decide) hnul (cd.sha1_length _)
      · exact h5 p hp
  | dir n sub rest _ ih =>
    intro hplain huniq hfits hread hdepth
    obtain ⟨hnul, hskip, hpsub, hprest⟩ := hplain
    have hw : snapshotWrites cd (.dir n sub rest)
        = snapshotWrites cd rest
          ++ (treeWrite cd (snapshotEntries cd sub) :: snapshotWrites cd sub) := by
      simp [snapshotWrites, hskip]
    have hd : sub.depth + 1 ≤ k ∧ rest.depth ≤ k := by
      simp only [DirListing.depth] at hdepth
      omega
    obtain ⟨ln, h1, h2, h3, h4, h5⟩ := ih hprest huniq.2.2 hfits.2.2
      (fun e he => hread e (by rw [hw]; simp [he])) hd.2
    obtain ⟨r0, hr0, hperm, hsame⟩ := ihk sub hd.1 hpsub huniq.2.1 hfits.2.1 hfits.1
      (fun e he => hread e (by rw [hw]; exact List.mem_append_right _ he))
    refine ⟨(⟨modeDir, n, treeKey cd (snapshotEntries cd sub)⟩, .dir r0) :: ln,
      ?_, ?_, ?_, ?_, ?_⟩
    · simp [snapshotEntries, hskip, h1]
    · intro p hp
      simp only [List.mem_cons] at hp
      rcases hp with hp | hp
      · subst hp
        left
        exact ⟨rfl, r0, hr0, rfl⟩
      · exact h2 p hp
    · intro r hr
      exact ⟨⟨r0, hr _ (List.mem_cons_self _ _), hperm, hsame⟩,
        h3 r (fun p hp => hr p (List.mem_cons_of_mem _ hp))⟩
    · simp [DirListing.names, h4]
    · intro p hp
      simp only [List.mem_cons] at hp
      rcases hp with hp | hp
      · subst hp
        exact hexKey_wellFormed modeDir n _ (by decide) hnul (cd.sha1_length _)
      · exact h5 p hp
  | other n rest _ =>
    intro hplain
    exact absurd hplain (by simp [DirListing.plain])

/-- Restore of a snapshot, by keys: `read_tree` on the key that `write_tree` returns for a
    working tree of files and directories of at most `INT_MAX` bytes each, from a store in
    which the objects `write_tree` has written are read as written, ends and leaves, in an
    empty directory, what the working tree holds. -/
theorem read_tree_treeKey (cd : Codec) (store : ObjectStore) : ∀ (k : Nat) (w : DirListing),
    w.depth ≤ k → w.plain → w.uniqueNames → w.fitsInt cd →
    (treePayload (snapshotEntries cd w)).length ≤ 2147483647 →
    (∀ e ∈ treeWrite cd (snapshotEntries cd w) :: snapshotWrites cd w,
      store.read e.1 = some e.2) →
    ∃ r, read_tree cd store (k + 1) (treeKey cd (snapshotEntries cd w)) .nil = some (.ok r) ∧
      r.names.Perm w.names ∧ sameTree w r := by
  intro k
  induction k with
  | zero =>
    intro w hdepth hplain huniq hfits hroot hread
    obtain ⟨ln, h1, h2, h3, h4, h5⟩ := snapshotEntries_restore cd store 0
      (fun sub hs => absurd hs (by omega)) w hplain huniq hfits
      (fun e he => hread e (by simp [he])) hdepth
    obtain ⟨ln1, hs1, hperm1⟩ := sortEntries_pairs ln
    rw [h1] at hs1
    have hnd : (ln1.map (·.1.path)).Nodup := by
      have : (ln1.map (·.1.path)).Perm w.names := by
        rw [← h4]; exact List.Perm.map _ hperm1
      exact this.nodup_iff.mpr (uniqueNames_nodup w huniq)
    obtain ⟨r, hr, hrn, _, hrc⟩ := read_tree_loop_new cd store (read_tree cd store 0) ln1 .nil
      (fun p hp => h2 p (hperm1.mem_iff.mp hp)) hnd (fun _ _ => by simp [DirListing.names])
    refine ⟨r, ?_, ?_, h3 r (fun p hp => hrc p (hperm1.mem_iff.mpr hp))⟩
    · have hwf : ∀ leaf ∈ snapshotEntries cd w, leaf.wellFormed := by
        intro leaf hl
        rw [← h1] at hl
        obtain ⟨p, hp, hpe⟩ := List.mem_map.mp hl
        rw [← hpe]; exact h5 p hp
      rw [read_tree, treeKey, read_of_stored cd store fmtTree _ (by decide) hroot
        (hread (treeWrite cd (snapshotEntries cd w)) (List.mem_cons_self _ _))]
      simp only [ne_eq, not_true_eq_false, if_false, parse_treePayload _ hwf]
      rw [← hs1]
      exact hr
    · rw [hrn]
      simp only [DirListing.names, List.nil_append]
      rw [← h4]
      exact List.Perm.map _ hperm1
  | succ j ihj =>
    intro w hdepth hplain huniq hfits hroot hread
    obtain ⟨ln, h1, h2, h3, h4, h5⟩ := snapshotEntries_restore cd store (j + 1)
      (fun sub hs hp hu hf hr hst => ihj sub (by omega) hp hu hf hr hst) w hplain huniq hfits
      (fun e he => hread e (by simp [he])) hdepth
    obtain ⟨ln1, hs1, hperm1⟩ := sortEntries_pairs ln
    rw [h1] at hs1
    have hnd : (ln1.map (·.1.path)).Nodup := by
      have : (ln1.map (·.1.path)).Perm w.names := by
        rw [← h4]; exact List.Perm.map _ hperm1
      exact this.nodup_iff.mpr (uniqueNames_nodup w huniq)
    obtain ⟨r, hr, hrn, _, hrc⟩ := read_tree_loop_new cd store (read_tree cd store (j + 1))
      ln1 .nil (fun p hp => h2 p (hperm1.mem_iff.mp hp)) hnd
      (fun _ _ => by simp [DirListing.names])
    refine ⟨r, ?_, ?_, h3 r (fun p hp => hrc p (hperm1.mem_iff.mpr hp))⟩
    · have hwf : ∀ leaf ∈ snapshotEntries cd w, leaf.wellFormed := by
        intro leaf hl
        rw [← h1] at hl
        obtain ⟨p, hp, hpe⟩ := List.mem_map.mp hl
        rw [← hpe]; exact h5 p hp
      rw [read_tree, treeKey, read_of_stored cd store fmtTree _ (by decide) hroot
        (hread (treeWrite cd (snapshotEntries cd w)) (List.mem_cons_self _ _))]
      simp only [ne_eq, not_true_eq_false, if_false, parse_treePayload _ hwf]
      rw [← hs1]
      exact hr
    · rw [hrn]
      simp only [DirListing.names, List.nil_append]
      rw [← h4]
      exact List.Perm.map _ hperm1

/-- Restore of a snapshot. For every working tree of regular files and directories, without
    hidden or ignored names, with different names in each directory, in which every file and
    every tree payload has at most `INT_MAX` bytes: `write_tree` returns a key, and when no
    object in the store afterwards has been overwritten by other bytes (no collision of the
    digest), `read_tree` on that key into an empty directory ends and leaves exactly the
    names of the working tree, every file with its content, at every level. -/
theorem read_tree_write_tree (cd : Codec) (store : ObjectStore) (w : DirListing)
    (hplain : w.plain) (huniq : w.uniqueNames) (hfits : w.fitsInt cd)
    (hroot : (treePayload (snapshotEntries cd w)).length ≤ 2147483647) :
    ∃ sha store1, write_tree cd w store = .ok (sha, store1) ∧
      (store1.consistent →
        ∃ r, read_tree cd store1 (w.depth + 1) sha .nil = some (.ok r) ∧
          r.names.Perm w.names ∧ sameTree w r) := by
  refine ⟨_, _, write_tree_eq cd w store, ?_⟩
  intro hcons
  exact read_tree_treeKey cd _ w.depth w (Nat.le_refl _) hplain huniq hfits hroot
    (fun e he => hcons e (by
      simp only [List.mem_cons] at he ⊢
      rcases he with he | he
      · exact Or.inl he
      · exact Or.inr (List.mem_append_left _ he)))

set_option maxRecDepth 100000 in
/-- Restore of a snapshot, on the listing `b`, directory `a` (with `c`), `ab`, with the toy
    codec: five objects are written, and `read_tree` leaves the same files, in the order of
    their names. -/
theorem read_tree_write_tree_small :
    write_tree toyCodec unsortedWorktree [] = .ok unsortedSnapshot ∧
      unsortedSnapshot.2.length = 5 ∧
      read_tree toyCodec unsortedSnapshot.2 2 unsortedSnapshot.1 .nil
        = some (.ok sortedWorktree) := by
  decide

/-! ### Lines without SP in a commit (C11) -/

/-- One turn of the loop of `GitCommit::parse` at the start of a non-empty line without SP:
    the line is skipped, the headers stay as they are, and the loop goes on behind the LF. -/
theorem GitCommit.parseLoop_bare (fuel : Nat) (pre line rest : List Byte)
    (kvlm : List (List Byte × List Byte)) (hne : line ≠ []) (hsp : SP ∉ line)
    (hlf : LF ∉ line) :
    GitCommit.parseLoop (fuel + 1) (pre ++ (line ++ LF :: rest)) pre.length kvlm
      = GitCommit.parseLoop fuel (pre ++ (line ++ LF :: rest))
          ((pre ++ (line ++ [LF])).length) kvlm := by
  have hfind : find (pre ++ (line ++ LF :: rest)) LF pre.length
      = some (line.length + pre.length) := by
    rw [find_at_offset, findFrom_append_of_not_mem LF _ _ hlf]
    rfl
  have hpos : pre.length < (pre ++ (line ++ LF :: rest)).length := by
    simp
  have hlen0 : 0 < line.length := List.length_pos.mpr hne
  have hneq : ¬ (line.length + pre.length = pre.length) := by omega
  have hsub : substr (pre ++ (line ++ LF :: rest)) pre.length
      (line.length + pre.length - pre.length) = line := by
    have := substr_append_left pre (line ++ LF :: rest) 0 line.length
    rw [Nat.add_zero] at this
    rw [Nat.add_sub_cancel, this, substr_zero_append]
  have hkey : findFrom SP line = none := findFrom_none_of_not_mem SP line hsp
  have hlen : line.length + pre.length + 1 = (pre ++ (line ++ [LF])).length := by
    simp; omega
  rw [GitCommit.parseLoop, if_pos hpos]
  simp only [hfind, hneq, if_false, hsub, hkey, hlen]

theorem GitCommit.parseLoop_lines : ∀ (ls : List HeaderLine)
    (fuel : Nat) (pre msg : List Byte) (kvlm : List (List Byte × List Byte)),
    (∀ l ∈ ls, l.wellFormed) → ls.length < fuel →
    GitCommit.parseLoop fuel (pre ++ (wireLines ls ++ LF :: msg)) pre.length kvlm
      = some ((pre ++ wireLines ls).length + 1, kvlm ++ headersOf ls) := by
  intro ls
  induction ls with
  | nil =>
    intro fuel pre msg kvlm _ hf
    cases fuel with
    | zero => omega
    | succ n =>
      have hfind : find (pre ++ LF :: msg) LF pre.length = some pre.length := by
        rw [find_at_offset]
        simp [findFrom]
      simp [wireLines, headersOf, GitCommit.parseLoop, hfind]
  | cons l rest ih =>
    intro fuel pre msg kvlm h hf
    have hl := h l (by simp)
    cases fuel with
    | zero => omega
    | succ n =>
      have hn : rest.length < n := by simp only [List.length_cons] at hf; omega
      cases l with
      | header k v =>
        obtain ⟨_, hsp, hlk, hlv⟩ := hl
        have hdata : pre ++ (wireLines (.header k v :: rest) ++ LF :: msg)
            = pre ++ (k ++ SP :: (v ++ LF :: (wireLines rest ++ LF :: msg))) := by
          simp [wireLines]
        rw [hdata, GitCommit.parseLoop_header n pre k v _ kvlm hsp hlk hlv]
        have hdata2 : pre ++ (k ++ SP :: (v ++ LF :: (wireLines rest ++ LF :: msg)))
            = (pre ++ (k ++ SP :: (v ++ [LF]))) ++ (wireLines rest ++ LF :: msg) := by
          simp
        rw [hdata2, ih n _ msg _ (fun x hx => h x (by simp [hx])) hn]
        simp [wireLines, headersOf]
      | bare line =>
        obtain ⟨hne, hsp, hlf⟩ := hl
        have hdata : pre ++ (wireLines (.bare line :: rest) ++ LF :: msg)
            = pre ++ (line ++ LF :: (wireLines rest ++ LF :: msg)) := by
          simp [wireLines]
        rw [hdata, GitCommit.parseLoop_bare n pre line _ kvlm hne hsp hlf]
        have hdata2 : pre ++ (line ++ LF :: (wireLines rest ++ LF :: msg))
            = (pre ++ (line ++ [LF])) ++ (wireLines rest ++ LF :: msg) := by
          simp
        rw [hdata2, ih n _ msg _ (fun x hx => h x (by simp [hx])) hn]
        simp [wireLines, headersOf]

theorem headersOf_keys : ∀ ls : List HeaderLine, (∀ l ∈ ls, l.wellFormed) →
    ∀ kv ∈ headersOf ls, kv.1 ≠ [] := by
  intro ls
  induction ls with
  | nil => intro _ kv h; simp [headersOf] at h
  | cons l rest ih =>
    intro h kv hkv
    cases l with
    | header k v =>
      simp only [headersOf, List.mem_cons] at hkv
      rcases hkv with hkv | hkv
      · rw [hkv]; exact (h (.header k v) (by simp)).1
      · exact ih (fun x hx => h x (by simp [hx])) kv hkv
    | bare line =>
      exact ih (fun x hx => h x (by simp [hx])) kv hkv

/-- C11, as amended. For every commit payload whose header part is made of header lines
    `key SP value` and of non-empty lines without SP (in particular one that follows a header
    line), each ended by LF, then an empty line and the message: `GitCommit::parse` skips
    every line without SP. The commit it returns holds the headers, each with the value of
    its own line alone, and the message; the bytes of the skipped lines are lost, and
    serializing the parsed commit gives the payload without these lines. -/
theorem GitCommit.parse_skips_bare_lines (ls : List HeaderLine) (msg : List Byte) (fuel : Nat)
    (h : ∀ l ∈ ls, l.wellFormed) (hf : ls.length < fuel) :
    GitCommit.parse fuel (wireLines ls ++ LF :: msg) = some ⟨headersOf ls ++ [([], msg)]⟩ ∧
      GitCommit.serialize ⟨headersOf ls ++ [([], msg)]⟩
        = wireHeaders (headersOf ls) ++ LF :: msg := by
  refine ⟨?_, GitCommit.serialize_headers _ msg (headersOf_keys ls h)⟩
  unfold GitCommit.parse
  have := GitCommit.parseLoop_lines ls fuel [] msg [] h hf
  simp only [List.nil_append, List.length_nil] at this
  rw [this]
  simp only [Option.some.injEq, GitCommit.mk.injEq, List.append_cancel_left_eq,
    List.cons.injEq, Prod.mk.injEq, true_and, and_true]
  have e : wireLines ls ++ LF :: msg = (wireLines ls ++ [LF]) ++ msg := by simp
  rw [e]
  have hl : (wireLines ls).length + 1 = (wireLines ls ++ [LF]).length := by simp
  rw [hl, List.drop_left]

/-- C11, as amended, on the payload `a b`, LF, `c`, LF, LF. -/
theorem GitCommit.parse_skips_bare_lines_witness :
    GitCommit.parse 3 (wireLines [.header [97] [98], .bare [99]] ++ LF :: [])
        = some ⟨headersOf [.header [97] [98], .bare [99]] ++ [([], [])]⟩ ∧
      GitCommit.serialize ⟨headersOf [.header [97] [98], .bare [99]] ++ [([], [])]⟩
        = wireHeaders (headersOf [.header [97] [98], .bare [99]]) ++ LF :: [] :=
  GitCommit.parse_skips_bare_lines [.header [97] [98], .bare [99]] [] 3
    (by
      intro l hl
      simp only [List.mem_cons, List.mem_singleton, List.not_mem_nil, or_false] at hl
      rcases hl with hl | hl <;> subst hl <;> (unfold HeaderLine.wellFormed; decide))
    (by decide)

/-- C11, as stated, fails: on the payload `a b`, LF, `c`, LF, LF the line `c` follows the
    header `a` and has no SP; `GitCommit::parse` returns the header `a` with the value `b`,
    not `b LF c` (with no amount of fuel), and serializing the parsed commit gives `a b`, LF,
    LF, which is not the payload: the bytes of the line are lost. -/
theorem GitCommit.parse_drops_continuation :
    GitCommit.parse 3 foldedPayload = some ⟨[([97], [98]), ([], [])]⟩ ∧
      GitCommit.serialize ⟨[([97], [98]), ([], [])]⟩ = [97, 32, 98, 10, 10] ∧
      GitCommit.serialize ⟨[([97], [98]), ([], [])]⟩ ≠ foldedPayload ∧
      ¬ ∃ fuel, GitCommit.parse fuel foldedPayload =
        some ⟨[([97], [98, 10, 99]), ([], [])]⟩ := by
  refine ⟨by decide, by decide, by decide, ?_⟩
  rintro ⟨fuel, hfuel⟩
  have h1 := GitCommit.parse_mono fuel 3 _ _ hfuel
  have h2 := GitCommit.parse_mono 3 fuel foldedPayload ⟨[([97], [98]), ([], [])]⟩ (by decide)
  rw [Nat.add_comm] at h2
  rw [h1] at h2
  revert h2
  decide

/-! ### Termination of `GitCommit::parse` (C14) -/

theorem GitCommit.parseLoop_unterminated_bare : ∀ (fuel : Nat)
    (kvlm : List (List Byte × List Byte)), GitCommit.parseLoop fuel [97] 0 kvlm = none := by
  intro fuel
  induction fuel with
  | zero => intro kvlm; rfl
  | succ n ih =>
    intro kvlm
    have h1 : find [97] LF 0 = none := by decide
    have h2 : findFrom SP (List.drop 0 [97]) = none := by decide
    rw [GitCommit.parseLoop, if_pos (by decide)]
    simp only [h1, h2]
    exact ih kvlm

theorem GitCommit.parseLoop_unterminated_header : ∀ (fuel : Nat)
    (kvlm : List (List Byte × List Byte)),
    GitCommit.parseLoop fuel [97, 32, 98] 0 kvlm = none := by
  intro fuel
  induction fuel with
  | zero => intro kvlm; rfl
  | succ n ih =>
    intro kvlm
    have h1 : find [97, 32, 98] LF 0 = none := by decide
    have h2 : findFrom SP (List.drop 0 [97, 32, 98]) = some 1 := by decide
    rw [GitCommit.parseLoop, if_pos (by decide)]
    simp only [h1, h2]
    exact ih _

/-- C14: on the one-byte payload `a`, a last header line that no LF ends, the loop of
    `GitCommit::parse` finds no LF, takes the rest as the line and sets `pos` to
    `npos + 1`, which is 0: it starts again at the first byte, for ever; with no amount of
    fuel does `GitCommit::parse` return a commit. The same on the payload `a b`, where each
    turn also appends the header `a`. -/
theorem GitCommit.parse_unterminated :
    (¬ ∃ fuel, (GitCommit.parse fuel [97]).isSome = true) ∧
      ¬ ∃ fuel, (GitCommit.parse fuel [97, 32, 98]).isSome = true := by
  constructor
  · rintro ⟨fuel, h⟩
    unfold GitCommit.parse at h
    rw [GitCommit.parseLoop_unterminated_bare] at h
    exact absurd h (by decide)
  · rintro ⟨fuel, h⟩
    unfold GitCommit.parse at h
    rw [GitCommit.parseLoop_unterminated_header] at h
    exact absurd h (by decide)

theorem findFrom_of_mem (c : Byte) : ∀ s : List Byte, c ∈ s →
    ∃ i, findFrom c s = some i ∧ i < s.length := by
  intro s
  induction s with
  | nil => intro h; simp at h
  | cons x xs ih =>
    intro h
    unfold findFrom
    by_cases hx : x = c
    · rw [if_pos hx]
      exact ⟨0, rfl, by simp⟩
    · rw [if_neg hx]
      have hxs : c ∈ xs := by
        simp only [List.mem_cons] at h
        rcases h with h | h
        · exact absurd h.symm hx
        · exact h
      obtain ⟨i, hi, hlt⟩ := ih hxs
      exact ⟨i + 1, by rw [hi]; rfl, by simp only [List.length_cons]; omega⟩

theorem find_of_mem (s : List Byte) (c : Byte) (p : Nat) (h : c ∈ s.drop p) :
    ∃ i, find s c p = some i ∧ p ≤ i ∧ i < s.length := by
  obtain ⟨j, hj, hlt⟩ := findFrom_of_mem c _ h
  refine ⟨j + p, ?_, by omega, ?_⟩
  · unfold find
    rw [hj]
    rfl
  · simp only [List.length_drop] at hlt
    omega

/-- The loop of `GitCommit::parse` ends when an LF follows every position of the payload:
    then each turn moves `pos` forward or leaves the loop. -/
theorem GitCommit.parseLoop_returns : ∀ (fuel : Nat) (data : List Byte) (pos : Nat)
    (kvlm : List (List Byte × List Byte)),
    (∀ p, p < data.length → LF ∈ data.drop p) → data.length - pos < fuel →
    ∃ r, GitCommit.parseLoop fuel data pos kvlm = some r := by
  intro fuel
  induction fuel with
  | zero => intro data pos kvlm _ h; omega
  | succ n ih =>
    intro data pos kvlm hlf hf
    rw [GitCommit.parseLoop]
    by_cases hp : pos < data.length
    · rw [if_pos hp]
      obtain ⟨i, hi, hge, hlt⟩ := find_of_mem data LF pos (hlf pos hp)
      simp only [hi]
      by_cases heq : i = pos
      · rw [if_pos heq]
        exact ⟨_, rfl⟩
      · rw [if_neg heq]
        cases hsp : findFrom SP (substr data pos (i - pos)) with
        | none => exact ih data _ _ hlf (by omega)
        | some sp => exact ih data _ _ hlf (by omega)
    · rw [if_neg hp]
      exact ⟨_, rfl⟩

/-- The function `GitCommit::parse` returns on every payload that ends with LF (every
    header line is ended), within as many turns as the payload has bytes, and one more. -/
theorem GitCommit.parse_terminates (body : List Byte) :
    ∃ c, GitCommit.parse ((body ++ [LF]).length + 1) (body ++ [LF]) = some c := by
  have hlf : ∀ p, p < (body ++ [LF]).length → LF ∈ (body ++ [LF]).drop p := by
    intro p hp
    have hle : p ≤ body.length := by
      simp only [List.length_append, List.length_singleton] at hp
      omega
    rw [List.drop_append_of_le_length hle]
    simp
  obtain ⟨r, hr⟩ := GitCommit.parseLoop_returns ((body ++ [LF]).length + 1) (body ++ [LF]) 0 []
    hlf (by omega)
  unfold GitCommit.parse
  rw [hr]
  exact ⟨_, rfl⟩

/-- The function `GitCommit::parse` returns on the empty payload: the commit with the empty
    message alone. -/
theorem GitCommit.parse_empty : GitCommit.parse 1 [] = some ⟨[([], [])]⟩ := by
  decide

/-- What `GitCommit::parse` returns, when it returns, ends with the message under the empty
    key. -/
theorem GitCommit.parse_last (fuel : Nat) (data : List Byte) (c : GitCommit)
    (h : GitCommit.parse fuel data = some c) :
    ∃ kvlm msg, c.kvlm = kvlm ++ [([], msg)] := by
  unfold GitCommit.parse at h
  cases hl : GitCommit.parseLoop fuel data 0 [] with
  | none => rw [hl] at h; simp at h
  | some r =>
    rw [hl] at h
    simp only [Option.some.injEq] at h
    exact ⟨r.2, data.drop r.1, by rw [← h]⟩

/-! ### The header split of `read_object_fmt_and_data` (C12) -/

/-- A frame without SP is rejected. -/
theorem splitFrame_no_SP (d : List Byte) (h : SP ∉ d) :
    splitFrame d = .error .malformedHeader := by
  unfold splitFrame
  rw [find_zero, findFrom_none_of_not_mem SP d h]

/-- A frame without NUL behind its first SP is rejected. -/
theorem splitFrame_no_NUL (a b : List Byte) (ha : SP ∉ a) (hb : NUL ∉ b) :
    splitFrame (a ++ SP :: b) = .error .malformedHeader := by
  have h1 : find (a ++ SP :: b) SP 0 = some a.length := by
    rw [find_zero, findFrom_append_of_not_mem SP a b ha]
  have h2 : find (a ++ SP :: b) NUL (a.length + 1) = none := by
    have e : a ++ SP :: b = (a ++ [SP]) ++ b := by simp
    have hl : (a ++ [SP]).length = a.length + 1 := by simp
    have := find_at_offset (a ++ [SP]) b NUL
    rw [hl] at this
    rw [e, this, findFrom_none_of_not_mem NUL b hb]
    rfl
  unfold splitFrame
  simp only [h1, h2]

/-- The part of the strictness of the header split that holds: a frame it accepts is the
    kind (without SP), SP, a size field (without NUL), NUL and the payload, where `std::stoi`
    reads the size field as the number of bytes of the payload. -/
theorem splitFrame_accepts (d fmt data : List Byte) (h : splitFrame d = .ok (fmt, data)) :
    ∃ field v, d = fmt ++ SP :: (field ++ NUL :: data) ∧ SP ∉ fmt ∧ NUL ∉ field ∧
      stoi 10 field = .ok v ∧ toSizeT v = data.length := by
  unfold splitFrame at h
  cases hsp : find d SP 0 with
  | none => rw [hsp] at h; simp at h
  | some sp =>
    rw [hsp] at h
    simp only at h
    cases hnp : find d NUL (sp + 1) with
    | none => rw [hnp] at h; simp at h
    | some np =>
      rw [hnp] at h
      simp only at h
      cases hst : stoi 10 (substr d (sp + 1) (np - sp - 1)) with
      | error e => rw [hst] at h; simp at h
      | ok v =>
        rw [hst] at h
        simp only at h
        by_cases hsz : (List.drop (np + 1) d).length ≠ toSizeT v
        · rw [if_pos hsz] at h; simp at h
        · rw [if_neg hsz] at h
          have hfd := Prod.mk.inj (Except.ok.inj h)
          obtain ⟨_, b1, b2⟩ := find_some d SP 0 sp hsp
          obtain ⟨_, c1, c2⟩ := find_some d NUL (sp + 1) np hnp
          have e1 : np - sp - 1 = np - (sp + 1) := by omega
          rw [Nat.sub_zero] at b1 b2
          rw [List.drop_zero] at b1
          refine ⟨substr d (sp + 1) (np - sp - 1), v, ?_, ?_, ?_, hst, ?_⟩
          · rw [← hfd.1, ← hfd.2, e1, ← c1, ← b1]
          · rw [← hfd.1]; exact b2
          · rw [e1]; exact c2
          · rw [← hfd.2]
            exact (not_not.mp hsz).symm

/-- C12: the frames `blob 5x`, NUL, `hello` and `blob  +05`, NUL, `hello`. Neither size
    field is a plain decimal number, nor the decimal length `5` of the payload; the header
    split returns the kind `blob` and the payload `hello` for both, because `std::stoi` skips
    white space, takes a sign and stops in front of the first byte that is no digit. -/
theorem splitFrame_junk_size :
    splitFrame junkSizeFrame = .ok (fmtBlob, helloBytes) ∧
      splitFrame signedSizeFrame = .ok (fmtBlob, helloBytes) ∧
      to_string helloBytes.length = [53] := by
  decide

/-! ### `HEAD` after `init` and after `checkout` (C13) -/

theorem create_directories_other (n : List Byte) :
    ∀ (names : List (List Byte)) (gd gd1 : GitDir),
      create_directories gd names = .ok gd1 → n ∉ names → gd1 n = gd n := by
  intro names
  induction names with
  | nil =>
    intro gd gd1 h _
    simp only [create_directories] at h
    rw [← Except.ok.inj h]
  | cons name rest ih =>
    intro gd gd1 h hn
    have hne : ¬ n = name := fun e => hn (e ▸ List.mem_cons_self _ _)
    have hrest : n ∉ rest := fun m => hn (List.mem_cons_of_mem _ m)
    rw [create_directories] at h
    cases hg : gd name with
    | file c => rw [hg] at h; simp at h
    | statusError => rw [hg] at h; simp at h
    | absent =>
      rw [hg] at h
      simp only at h
      rw [ih _ _ h hrest, setEntry, if_neg hne]
    | directory =>
      rw [hg] at h
      simp only at h
      rw [ih _ _ h hrest, setEntry, if_neg hne]

theorem writeStream_same (gd : GitDir) (name content : List Byte)
    (h : gd name ≠ .directory) (hs : gd name ≠ .statusError) :
    writeStream gd name content name = .file content := by
  unfold writeStream
  cases hg : gd name with
  | directory => exact absurd hg h
  | statusError => exact absurd hg hs
  | absent => simp [setEntry]
  | file c => simp [setEntry]

theorem writeStream_other (gd : GitDir) (name content n : List Byte) (h : n ≠ name) :
    writeStream gd name content n = gd n := by
  unfold writeStream
  cases hg : gd name with
  | directory => rfl
  | statusError => rfl
  | absent => simp [setEntry, h]
  | file c => simp [setEntry, h]

theorem createLayout_head (gd gd1 : GitDir) (h : createLayout gd = .ok gd1)
    (hd : gd nameHEAD ≠ .directory) (hs : gd nameHEAD ≠ .statusError) :
    gd1 nameHEAD = .file (refMark ++ nameMaster ++ [LF]) := by
  unfold createLayout at h
  cases hc : create_directories gd [nameBranches, nameObjects, nameRefs, nameRefsTags,
      nameRefs, nameRefsHeads] with
  | error e => rw [hc] at h; simp at h
  | ok g1 =>
    rw [hc] at h
    simp only at h
    have h1 : g1 nameHEAD = gd nameHEAD :=
      create_directories_other nameHEAD _ gd g1 hc (by decide)
    have h2 : writeStream g1 nameConfig configText nameHEAD = g1 nameHEAD :=
      writeStream_other g1 nameConfig configText nameHEAD (by decide)
    rw [← Except.ok.inj h, writeStream_same _ _ _ (by rw [h2, h1]; exact hd)
      (by rw [h2, h1]; exact hs)]
    rfl

/-- Wherever `GitRepository::create` succeeds and `HEAD` was not a directory before, nor out
    of reach, `HEAD` holds `ref: refs/heads/master` and LF afterwards. -/
theorem create_head (gd gd1 : GitDir) (h : GitRepository.create gd = .ok gd1)
    (hd : gd nameHEAD ≠ .directory) (hs : gd nameHEAD ≠ .statusError) :
    gd1 nameHEAD = .file (refMark ++ nameMaster ++ [LF]) := by
  unfold GitRepository.create at h
  cases hg : gd [] with
  | file c => rw [hg] at h; simp at h
  | statusError => rw [hg] at h; simp at h
  | directory => rw [hg] at h; exact createLayout_head gd gd1 h hd hs
  | absent =>
    rw [hg] at h
    have e : setEntry gd [] .directory nameHEAD = gd nameHEAD := by
      rw [setEntry, if_neg (by decide)]
    exact createLayout_head _ gd1 h (by rw [e]; exact hd) (by rw [e]; exact hs)

/-- In a directory where nothing exists, `GitRepository::create` leaves the state
    `initGitDir`. -/
theorem create_fresh :
    ∃ gd1, GitRepository.create emptyGitDir = .ok gd1 ∧ ∀ n, gd1 n = initGitDir n := by
  refine ⟨setEntry (setEntry (setEntry (setEntry (setEntry (setEntry (setEntry (setEntry
    (setEntry emptyGitDir [] .directory) nameBranches .directory) nameObjects .directory)
    nameRefs .directory) nameRefsTags .directory) nameRefs .directory) nameRefsHeads
    .directory) nameConfig (.file configText)) nameHEAD (.file headText), rfl, ?_⟩
  intro n
  simp only [setEntry, emptyGitDir, initGitDir, nameHEAD, nameConfig, nameRefs,
    nameBranches, nameObjects, nameRefsTags, nameRefsHeads, headText, configText, refMark,
    nameMaster, LF]
  split_ifs <;> simp_all

/-- Wherever `cmd_checkout` succeeds and `HEAD` was not a directory before, nor out of
    reach, `HEAD` holds afterwards the name `object_find` resolved the argument to, and no
    byte behind it. -/
theorem cmd_checkout_head (cd : Codec) (repo repo1 : Repo) (fuel parseFuel : Nat)
    (args : List (List Byte)) (h : cmd_checkout cd repo fuel parseFuel args = some (.ok repo1))
    (hd : repo.gitdir nameHEAD ≠ .directory) (hs : repo.gitdir nameHEAD ≠ .statusError) :
    ∃ name rest commit_sha, args = name :: rest ∧
      object_find repo.gitdir fuel name fmtCommit true = some (.ok commit_sha) ∧
      repo1.gitdir nameHEAD = .file commit_sha := by
  unfold cmd_checkout at h
  cases args with
  | nil => simp at h
  | cons name rest =>
    simp only at h
    cases hf : object_find repo.gitdir fuel name fmtCommit true with
    | none => rw [hf] at h; simp at h
    | some r =>
      cases r with
      | error e => rw [hf] at h; simp at h
      | ok commit_sha =>
        rw [hf] at h
        simp only at h
        refine ⟨name, rest, commit_sha, rfl, hf, ?_⟩
        cases hr : read_object_fmt_and_data cd repo.objects commit_sha with
        | error e => rw [hr] at h; simp at h
        | ok fd =>
          obtain ⟨fmt, commit_data⟩ := fd
          rw [hr] at h
          simp only at h
          by_cases h1 : fmt ≠ fmtCommit
          · rw [if_pos h1] at h; simp at h
          · rw [if_neg h1] at h
            cases hp : GitCommit.parse parseFuel commit_data with
            | none => rw [hp] at h; simp at h
            | some commit =>
              rw [hp] at h
              simp only at h
              by_cases h2 : firstValue keyTree commit.kvlm = []
              · rw [if_pos h2] at h; simp at h
              · rw [if_neg h2] at h
                cases ht : read_tree cd repo.objects fuel (firstValue keyTree commit.kvlm)
                    repo.worktree with
                | none => rw [ht] at h; simp at h
                | some r2 =>
                  cases r2 with
                  | error e => rw [ht] at h; simp at h
                  | ok worktree1 =>
                    rw [ht] at h
                    simp only [Option.some.injEq, Except.ok.injEq] at h
                    rw [← h]
                    exact writeStream_same _ _ _ hd hs

set_option maxRecDepth 100000 in
/-- C13: `HEAD` after `init` in a new directory is `ref: refs/heads/master` and LF. After
    `checkout` of the commit `checkoutSetup.1` (40 lowercase hexadecimal digits) in the
    repository `checkoutRepo`, `HEAD` is the 40 digits alone: `cmd_checkout` writes
    `commit_sha` and no LF behind it. -/
theorem cmd_checkout_head_no_LF :
    headAfterInit emptyGitDir = .ok (.file (refMark ++ nameMaster ++ [LF])) ∧
      checkoutSetup.1.length = 40 ∧ checkoutSetup.1.all isLowerHex = true ∧
      headAfterCheckout toyCodec checkoutRepo 3 10 [checkoutSetup.1] =
        some (.ok (.file checkoutSetup.1)) ∧
      headAfterCheckout toyCodec checkoutRepo 3 10 [checkoutSetup.1] ≠
        some (.ok (.file (checkoutSetup.1 ++ [LF]))) := by
  decide

end GitLite
